import Mathlib

/-!
# simplefs-sql: write buffer, compaction and read path

A shallow embedding of `buffer.go`, `util.go` and `sql_fs.go`.

* Go strings are modelled by `String`, byte slices by `List Byte`
  (a nil slice and an empty slice are the same byte string; sharing of backing arrays
  between slices is not modelled).
* `skip []bool` of `mergeBufferItems` is carried next to each item as a `Slot`; a loop
  that runs backwards walks the reversed list.
* The `DB` interface is a record of functions over an explicit database state; the
  goroutine and channel of `readDirIterator` are the list of results sent on the channel.
* The definitions come first, the theorems after them.
-/

namespace SimplefsSql

/-! ## buffer.go : data model -/

/-- One byte of a file payload. -/
abbrev Byte := Fin 256

/-- Type `action` (buffer.go 16-22). -/
inductive action where
  | actionDeleteFile
  | actionInsertFile
  | actionInsertDir
  deriving DecidableEq, Repr

open action

/-- Type `bufferItem` (buffer.go 37-41). -/
structure bufferItem where
  Name : String
  Action : action
  FileContents : List Byte
  deriving DecidableEq, Repr

/-- Type `bufferItemSlice` (buffer.go 43). -/
abbrev bufferItemSlice := List bufferItem

/-- Method `bufferItemSlice.Filter` (buffer.go 45-53). -/
def bufferItemSlice.Filter (s : bufferItemSlice) (fn : bufferItem → Bool) : bufferItemSlice :=
  List.filter fn s

/-- Method `bufferItemSlice.WithAction` (buffer.go 55-57). -/
def bufferItemSlice.WithAction (s : bufferItemSlice) (a : action) : bufferItemSlice :=
  bufferItemSlice.Filter s (fun item => decide (item.Action = a))

/-! ## buffer.go : mergeBufferItems -/

/-- An item of the slice together with its entry of the `skip` array. -/
abbrev Slot := bufferItem × Bool

/-- The two "remove duplicate" loops (buffer.go 72-83 and 86-98): walk the slots in
loop order with the `seen` set; an item of action `a` whose name was already seen gets
`skip[i] = true`, otherwise its name is added to `seen`. -/
def skipSeen (a : action) : List String → List Slot → List Slot
  | _, [] => []
  | seen, (item, sk) :: rest =>
    if item.Action = a then
      if item.Name ∈ seen then (item, true) :: skipSeen a seen rest
      else (item, sk) :: skipSeen a (item.Name :: seen) rest
    else (item, sk) :: skipSeen a seen rest

/-- Inner loop of "remove inserts before deletes" (buffer.go 103-108) over the slots
`0 .. i-1`: every insert-file item with the name of the delete gets `skip[j] = true`. -/
def skipInsertsNamed (name : String) (before : List Slot) : List Slot :=
  before.map fun s =>
    if s.1.Action = actionInsertFile ∧ s.1.Name = name then (s.1, true) else s

/-- Outer loop of "remove inserts before deletes" (buffer.go 101-110), `i = n-1 .. 0`.
The slots are given in loop order (last item first), so the tail of the list holds the
slots `i-1 .. 0`; the first argument counts the iterations that are left. -/
def skipInsertsBeforeDeletes : Nat → List Slot → List Slot
  | 0, slots => slots
  | _ + 1, [] => []
  | k + 1, (delItem, sk) :: before =>
    (delItem, sk) :: skipInsertsBeforeDeletes k
      (if delItem.Action = actionDeleteFile then skipInsertsNamed delItem.Name before
       else before)

/-- Inner loop of "merge inserts for the same file" (buffer.go 115-121) over the slots
`i+1 .. n-1`: returns the grown `items[i].FileContents` and the updated slots. -/
def mergeDupes (name : String) : List Byte → List Slot → List Byte × List Slot
  | acc, [] => (acc, [])
  | acc, (dupeItem, sk) :: rest =>
    if sk = false ∧ dupeItem.Action = actionInsertFile ∧ dupeItem.Name = name then
      ((mergeDupes name (acc ++ dupeItem.FileContents) rest).1,
        (dupeItem, true) :: (mergeDupes name (acc ++ dupeItem.FileContents) rest).2)
    else
      ((mergeDupes name acc rest).1, (dupeItem, sk) :: (mergeDupes name acc rest).2)

/-- Outer loop of "merge inserts for the same file" (buffer.go 113-123), `i = 0 .. n-1`;
the first argument counts the iterations that are left. -/
def mergeInserts : Nat → List Slot → List Slot
  | 0, slots => slots
  | _ + 1, [] => []
  | k + 1, (item, sk) :: rest =>
    if item.Action = actionInsertFile ∧ sk = false then
      ({ item with FileContents := (mergeDupes item.Name item.FileContents rest).1 }, sk)
        :: mergeInserts k (mergeDupes item.Name item.FileContents rest).2
    else (item, sk) :: mergeInserts k rest

/-- The slots after the four marking loops of `mergeBufferItems` (buffer.go 67-123). -/
def mergeSlots (items : bufferItemSlice) : List Slot :=
  let n := items.length
  let s0 : List Slot := items.map fun item => (item, false)
  let s1 := skipSeen actionInsertDir [] s0
  let s2 := (skipSeen actionDeleteFile [] s1.reverse).reverse
  let s3 := (skipInsertsBeforeDeletes n s2.reverse).reverse
  mergeInserts n s3

/-- Function `mergeBufferItems` (buffer.go 66-133): the four marking loops followed by
the copy of the items that are not skipped. -/
def mergeBufferItems (items : bufferItemSlice) : bufferItemSlice :=
  ((mergeSlots items).filter fun s => !s.2).map Prod.fst

/-- Shorthand for a delete-file item. -/
def del (name : String) : bufferItem := ⟨name, actionDeleteFile, []⟩

/-- Shorthand for an insert-file item. -/
def ins (name : String) (b : List Byte) : bufferItem := ⟨name, actionInsertFile, b⟩

/-- Shorthand for an insert-dir item. -/
def dir (name : String) : bufferItem := ⟨name, actionInsertDir, []⟩

/-! ## Compaction, stage by stage

The marking loops only ever raise `skip` flags, and each of the first three loops decides
from the items alone.  The functions below say what each loop leaves behind, in the
original item order. -/

/-- The items that are not skipped. -/
def keptItems (slots : List Slot) : List bufferItem :=
  (slots.filter fun s => !s.2).map Prod.fst

/-- The `seen` set after the loop of `skipSeen` has walked the slots. -/
def seenAfter (a : action) : List String → List Slot → List String
  | seen, [] => seen
  | seen, (item, _) :: rest =>
    if item.Action = a then
      if item.Name ∈ seen then seenAfter a seen rest
      else seenAfter a (item.Name :: seen) rest
    else seenAfter a seen rest

/-- Some item of the list is a delete-file on `name`. -/
def hasDelete (name : String) (l : List bufferItem) : Prop :=
  ∃ d ∈ l, d.Action = actionDeleteFile ∧ d.Name = name

instance (name : String) (l : List bufferItem) : Decidable (hasDelete name l) := by
  unfold hasDelete; infer_instance

/-- Flags left by the backward delete-file loop, in item order. -/
def markDupDeletes : List Slot → List Slot
  | [] => []
  | (x, sk) :: post =>
    (x, sk || decide (x.Action = actionDeleteFile ∧ hasDelete x.Name (post.map Prod.fst)))
      :: markDupDeletes post

/-- Flags left by the "remove inserts before deletes" loop, in item order. -/
def markOverwritten : List Slot → List Slot
  | [] => []
  | (x, sk) :: post =>
    (x, sk || decide (x.Action = actionInsertFile ∧ hasDelete x.Name (post.map Prod.fst)))
      :: markOverwritten post

/-- Stage 1 on items: every insert-dir whose name was seen before is dropped. -/
def dropDupDirs : List String → List bufferItem → List bufferItem
  | _, [] => []
  | seen, x :: post =>
    if x.Action = actionInsertDir then
      if x.Name ∈ seen then dropDupDirs seen post
      else x :: dropDupDirs (x.Name :: seen) post
    else x :: dropDupDirs seen post

/-- Stages 2 and 3 on items: a delete-file or insert-file with a later delete-file on the
same name is dropped. -/
def dropOverridden : List bufferItem → List bufferItem
  | [] => []
  | x :: post =>
    if (x.Action = actionDeleteFile ∨ x.Action = actionInsertFile) ∧ hasDelete x.Name post
    then dropOverridden post
    else x :: dropOverridden post

/-- The item is an insert-file on `name`. -/
def isInsertOf (name : String) (x : bufferItem) : Bool :=
  decide (x.Action = actionInsertFile ∧ x.Name = name)

/-- The payloads of the insert-file items on `name`, concatenated in list order. -/
def payloadOf (name : String) (l : List bufferItem) : List Byte :=
  ((l.filter (isInsertOf name)).map bufferItem.FileContents).flatten

/-- Stage 4 on items: the first insert-file on a name absorbs the payloads of the later
ones, which are dropped. -/
def joinInserts : List bufferItem → List bufferItem
  | [] => []
  | x :: rest =>
    if x.Action = actionInsertFile then
      { x with FileContents := x.FileContents ++ payloadOf x.Name rest }
        :: joinInserts (rest.filter fun y => !isInsertOf x.Name y)
    else x :: joinInserts rest
termination_by l => l.length
decreasing_by
  all_goals simp_wf
  · exact Nat.lt_succ_of_le (List.length_filter_le _ _)

/-! ## Compacted queues

A queue is compacted when no insert-dir repeats a name, no delete-file or insert-file is
followed by a delete-file on its name, and no insert-file repeats a name.  All three
conditions read the (name, action) pairs only. -/

/-- The (name, action) pair of an item. -/
def key (x : bufferItem) : String × action := (x.Name, x.Action)

/-- No two insert-dirs on one name. -/
def DirRel (a b : String × action) : Prop :=
  ¬(a.2 = actionInsertDir ∧ b.2 = actionInsertDir ∧ b.1 = a.1)

/-- No delete-file after a delete-file or insert-file on the same name. -/
def OverRel (a b : String × action) : Prop :=
  ¬((a.2 = actionDeleteFile ∨ a.2 = actionInsertFile) ∧ b.2 = actionDeleteFile ∧ b.1 = a.1)

/-- No two insert-files on one name. -/
def InsRel (a b : String × action) : Prop :=
  ¬(a.2 = actionInsertFile ∧ b.2 = actionInsertFile ∧ b.1 = a.1)

/-- The queue is compacted. -/
def Compacted (L : List bufferItem) : Prop :=
  (L.map key).Pairwise DirRel ∧ (L.map key).Pairwise OverRel ∧ (L.map key).Pairwise InsRel

/-! ## Delete wins, inserts are concatenated -/

/-- The item is a delete-file on `name`. -/
def isDeleteOf (name : String) (x : bufferItem) : Bool :=
  decide (x.Action = actionDeleteFile ∧ x.Name = name)

/-- The items of `X` that occur after the last delete-file on `P` (all of `X` when it has
no delete-file on `P`): the longest suffix of `X` without a delete-file on `P`. -/
def afterLastDelete (P : String) (X : List bufferItem) : List bufferItem :=
  (X.reverse.takeWhile fun x => !isDeleteOf P x).reverse

/-- The set `S` of the claim: the insert-file items on `P` after the last delete-file on
`P`, in their original order. -/
def survivingInserts (P : String) (X : List bufferItem) : List bufferItem :=
  (afterLastDelete P X).filter (isInsertOf P)

/-- The insert-file items on `P` that no later delete-file on `P` follows. -/
def insertsKept (P : String) : List bufferItem → List bufferItem
  | [] => []
  | x :: post =>
    if isInsertOf P x = true ∧ ¬ hasDelete P post then x :: insertsKept P post
    else insertsKept P post

/-! ## util.go and the Go library functions it uses -/

/-- Go `strings.Split(s, sep)` for a one-byte separator, on the characters of `s`: the
pieces between the separators; a string without separator gives one piece. -/
def splitChars (sep : Char) : List Char → List (List Char)
  | [] => [[]]
  | c :: cs =>
    if c = sep then [] :: splitChars sep cs
    else
      match splitChars sep cs with
      | [] => [[c]]
      | w :: ws => (c :: w) :: ws

/-- Go `strings.Split(s, "/")`. -/
def strings.Split (s : String) (sep : Char) : List String :=
  (splitChars sep s.data).map String.mk

/-- Go `strings.Join(elems, sep)`. -/
def strings.Join (elems : List String) (sep : String) : String :=
  sep.intercalate elems

/-- Go `path.Split` on characters: the path is cut right after its last slash; without a
slash the directory part is empty. -/
def pathSplitChars : List Char → List Char × List Char
  | [] => ([], [])
  | c :: cs =>
    match pathSplitChars cs with
    | ([], file) => if c = '/' then ([c], file) else ([], c :: file)
    | (d :: ds, file) => (c :: d :: ds, file)

/-- Go `path.Split`. -/
def path.Split (p : String) : String × String :=
  (String.mk (pathSplitChars p.data).1, String.mk (pathSplitChars p.data).2)

/-- Function `splitPath` (util.go 24-30): `path.Split`, then the trailing slash of a
non-empty directory part is cut off. -/
def splitPath (name : String) : String × String :=
  let dirFile := path.Split name
  if dirFile.1.data.length > 0 then (String.mk dirFile.1.data.dropLast, dirFile.2)
  else (dirFile.1, dirFile.2)

/-! ## The DB interface -/

deriving instance DecidableEq for Except

/-- Go error values that the package returns or passes on. -/
inductive GoError where
  /-- The sentinel `simplefs.ErrNotFound`. -/
  | ErrNotFound
  /-- The sentinel `io.EOF`. -/
  | EOF
  /-- An error returned by the database or its driver. -/
  | backend (msg : String)
  /-- The value of `fmt.Errorf(ctx + ": %v", cause)`. -/
  | errorf (ctx : String) (cause : GoError)
  deriving DecidableEq, Repr

/-- One row of the directory-insert statement: `($1, path, 0, dir, name, true)`. -/
structure DirRow where
  path : String
  dir : String
  name : String
  deriving DecidableEq, Repr

/-- One row of the file-insert statement: `($1, path, dir, name, false, contents)`. -/
structure FileRow where
  path : String
  dir : String
  name : String
  contents : List Byte
  deriving DecidableEq, Repr

/-- The statements the package passes to `DB.Exec`, with their bound values. -/
inductive Stmt where
  /-- Statement `DELETE FROM table WHERE container = $1 AND name IN ($2, ...)`
  (buffer.go 179). -/
  | deleteNames (table container : String) (names : List String)
  /-- Statement `INSERT INTO table (container, path, part, dir, name, is_dir) VALUES ...
  ON CONFLICT (container, path, part) DO NOTHING` (buffer.go 204-208). -/
  | insertDirs (table container : String) (rows : List DirRow)
  /-- Statement `INSERT INTO table (container, path, dir, name, is_dir, contents) VALUES ...`
  (buffer.go 226-229). -/
  | insertFiles (table container : String) (rows : List FileRow)
  /-- Statement `DELETE FROM table WHERE container = $1` (sql_fs.go 226). -/
  | deleteContainer (table container : String)
  deriving DecidableEq, Repr

/-- The statements the package passes to `DB.Query`, with their bound values. -/
inductive Query where
  /-- Query `SELECT is_dir, contents FROM table WHERE container = $1 AND path = $2
  ORDER BY part` (sql_fs.go 38). -/
  | selectByPath (table container name : String)
  /-- Query `SELECT DISTINCT(name), is_dir FROM table WHERE container = $1 AND dir = $2
  ORDER BY name` (sql_fs.go 165). -/
  | selectByDir (table container name : String)
  /-- Query `SELECT 1 FROM table WHERE container = $1 AND path = $2 LIMIT 1`
  (sql_fs.go 151). -/
  | selectOne (table container name : String)
  deriving DecidableEq, Repr

/-- A column value of a result row. -/
inductive SqlValue where
  | null
  | bool (b : Bool)
  | int (n : Int)
  | text (s : String)
  | bytes (b : List Byte)
  deriving DecidableEq, Repr

/-- A `*sql.Rows` cursor: the rows that `Next` steps through, and what `Err` returns once
`Next` has returned false. -/
structure Rows where
  rows : List (List SqlValue)
  err : Option GoError
  deriving DecidableEq, Repr

/-- Interface `DB` (sql_fs.go 12-15) over an explicit database state `σ`. `Exec` returns
the new state and the error, if any. -/
structure DB (σ : Type) where
  Query : σ → Query → Except GoError Rows
  Exec : σ → Stmt → σ × Option GoError

/-- The same database, with a log of every statement passed to `Exec` and of the error
it returned. -/
def traced {σ : Type} (db : DB σ) : DB (σ × List (Stmt × Option GoError)) where
  Query := fun s q => db.Query s.1 q
  Exec := fun s st => (((db.Exec s.1 st).1, s.2 ++ [(st, (db.Exec s.1 st).2)]), (db.Exec s.1 st).2)

/-! ## buffer.go : the buffer -/

/-- Type `buffer` (buffer.go 8-14); the `db` field is passed to the methods. -/
structure buffer where
  table : String
  container : String
  items : bufferItemSlice
  capacity : Int
  deriving DecidableEq, Repr

/-- Method `buffer.Create` (buffer.go 135-141). -/
def buffer.Create (buf : buffer) (name : String) (b : List Byte) : buffer :=
  { buf with items := buf.items ++
      [⟨name, actionDeleteFile, []⟩, ⟨name, actionInsertFile, b⟩, ⟨name, actionInsertDir, []⟩] }

/-- Method `buffer.Append` (buffer.go 143-148). -/
def buffer.Append (buf : buffer) (name : String) (b : List Byte) : buffer :=
  { buf with items := buf.items ++
      [⟨name, actionInsertFile, b⟩, ⟨name, actionInsertDir, []⟩] }

/-- The sum computed by `buffer.size`, for a list of items. -/
def itemsSize (items : bufferItemSlice) : Nat :=
  (items.map fun item => item.Name.utf8ByteSize + item.FileContents.length).sum

/-- Method `buffer.size` (buffer.go 150-156). -/
def buffer.size (buf : buffer) : Nat := itemsSize buf.items

/-- The condition `doFlush` (buffer.go 159 and 165). -/
def buffer.doFlush (buf : buffer) (force : Bool) : Bool :=
  force || decide (buf.capacity ≤ 0) || decide ((buf.size : Int) > buf.capacity)

/-- The delete statement of `Flush` (buffer.go 170-183), if there is something to delete. -/
def buffer.deleteStmt (buf : buffer) : Option Stmt :=
  let deletes := bufferItemSlice.WithAction buf.items actionDeleteFile
  if deletes.length > 0 then
    some (Stmt.deleteNames buf.table buf.container (deletes.map bufferItem.Name))
  else none

/-- The rows built for one insert-dir item (buffer.go 190-201): one per `i < n-1`. -/
def dirRowsOf (name : String) : List DirRow :=
  let split := strings.Split name '/'
  (List.range (split.length - 1)).map fun i =>
    { path := strings.Join (split.take (i + 1)) "/",
      dir := strings.Join (split.take i) "/",
      name := split.getD i "" }

/-- The directory-insert statement of `Flush` (buffer.go 186-213), if it has rows. -/
def buffer.insertDirsStmt (buf : buffer) : Option Stmt :=
  let dirs := bufferItemSlice.WithAction buf.items actionInsertDir
  if dirs.length > 0 then
    let rows := (dirs.map fun item => dirRowsOf item.Name).flatten
    if rows.length > 0 then some (Stmt.insertDirs buf.table buf.container rows) else none
  else none

/-- The row built for one insert-file item (buffer.go 220-224). -/
def fileRowOf (item : bufferItem) : FileRow :=
  { path := item.Name, dir := (splitPath item.Name).1, name := (splitPath item.Name).2,
    contents := item.FileContents }

/-- The file-insert statement of `Flush` (buffer.go 216-233), if there are files. -/
def buffer.insertFilesStmt (buf : buffer) : Option Stmt :=
  let files := bufferItemSlice.WithAction buf.items actionInsertFile
  if files.length > 0 then
    some (Stmt.insertFiles buf.table buf.container (files.map fileRowOf))
  else none

/-- Run the statement of a phase, when the phase has one. -/
def execPhase {σ : Type} (db : DB σ) (s : σ) : Option Stmt → σ × Option GoError
  | none => (s, none)
  | some st => db.Exec s st

/-- The three phases of `Flush` (buffer.go 169-237) on the compacted buffer. -/
def buffer.writePhases {σ : Type} (db : DB σ) (buf : buffer) (s : σ) :
    Option GoError × buffer × σ :=
  match execPhase db s buf.deleteStmt with
  | (s1, some err) => (some err, buf, s1)
  | (s1, none) =>
    match execPhase db s1 buf.insertDirsStmt with
    | (s2, some err) => (some (GoError.errorf "error inserting dir rows" err), buf, s2)
    | (s2, none) =>
      match execPhase db s2 buf.insertFilesStmt with
      | (s3, some err) => (some (GoError.errorf "error inserting file rows" err), buf, s3)
      | (s3, none) => (none, { buf with items := [] }, s3)

/-- Method `buffer.Flush` (buffer.go 158-238): the returned error, the buffer and the
database state afterwards. -/
def buffer.Flush {σ : Type} (db : DB σ) (buf : buffer) (force : Bool) (s : σ) :
    Option GoError × buffer × σ :=
  if buf.doFlush force = false then (none, buf, s)
  else
    let merged : buffer := { buf with items := mergeBufferItems buf.items }
    if merged.doFlush force = false then (none, merged, s)
    else buffer.writePhases db merged s

/-- A database that accepts every statement and holds no rows. -/
def nullDB : DB Unit where
  Query := fun _ _ => Except.ok ⟨[], none⟩
  Exec := fun _ _ => ((), none)

/-- A database that rejects every statement. -/
def failDB : DB Unit where
  Query := fun _ _ => Except.error (GoError.backend "down")
  Exec := fun _ _ => ((), some (GoError.backend "down"))

/-- The statement is a file-insert statement. -/
def Stmt.isInsertFiles : Stmt → Bool
  | Stmt.insertFiles _ _ _ => true
  | _ => false

/-- A buffer of capacity 100 holding one `Create` of three bytes. -/
def smallBuf : buffer :=
  ⟨"file", "container1", [del "A", ins "A" [1, 2, 3], dir "A"], 100⟩

/-- A buffer of capacity 10 holding two `Create`s of the same file, 12 bytes in all. -/
def twiceBuf : buffer :=
  ⟨"file", "container1",
    [del "A", ins "A" [1, 2, 3], dir "A", del "A", ins "A" [1, 2, 3], dir "A"], 10⟩

/-! ## sql_fs.go : the filesystem facade -/

/-- Type `FS` (sql_fs.go 17-23); the `db` field is passed to the methods. -/
structure FS where
  table : String
  container : String
  buffer : buffer
  deriving DecidableEq, Repr

/-- Function `New` (sql_fs.go 25-32). -/
def New (table container : String) (bufferCapacity : List Int) : FS :=
  { table := table, container := container,
    buffer := { table := table, container := container, items := [],
                capacity := bufferCapacity.headD 0 } }

/-- Method `FS.Flush` (sql_fs.go 221-223). -/
def FS.Flush {σ : Type} (db : DB σ) (fs : FS) (s : σ) : Option GoError × FS × σ :=
  ((fs.buffer.Flush db true s).1,
    { fs with buffer := (fs.buffer.Flush db true s).2.1 },
    (fs.buffer.Flush db true s).2.2)

/-- The writer returned by `FS.Create(name)` (sql_fs.go 199-208), after `written` was
written to it, closed: the bytes are queued and a non-forced flush is attempted. -/
def FS.Create {σ : Type} (db : DB σ) (fs : FS) (name : String) (written : List Byte) (s : σ) :
    Option GoError × FS × σ :=
  (((fs.buffer.Create name written).Flush db false s).1,
    { fs with buffer := ((fs.buffer.Create name written).Flush db false s).2.1 },
    ((fs.buffer.Create name written).Flush db false s).2.2)

/-- The writer returned by `FS.Append(name)` (sql_fs.go 210-219), after `written` was
written to it, closed. -/
def FS.Append {σ : Type} (db : DB σ) (fs : FS) (name : String) (written : List Byte) (s : σ) :
    Option GoError × FS × σ :=
  (((fs.buffer.Append name written).Flush db false s).1,
    { fs with buffer := ((fs.buffer.Append name written).Flush db false s).2.1 },
    ((fs.buffer.Append name written).Flush db false s).2.2)

/-- What `Open` returns: a `sqlFile` with the bytes its reader yields, or a `sqlDir`. -/
inductive File where
  | sqlFile (name : String) (r : List Byte)
  | sqlDir (name : String)
  deriving DecidableEq, Repr

/-- The error of a failed `rows.Scan`. -/
def scanError : GoError := GoError.backend "sql: Scan error"

/-- Call `rows.Scan(&isDir, &b)` (sql_fs.go 50): a boolean and a byte string, NULL read as
the nil slice. -/
def scanOpenRow : List SqlValue → Except GoError (Bool × List Byte)
  | [SqlValue.bool d, SqlValue.bytes b] => Except.ok (d, b)
  | [SqlValue.bool d, SqlValue.null] => Except.ok (d, [])
  | _ => Except.error scanError

/-- The loop over the rows in `Open` (sql_fs.go 45-55) on the variables `isDir`, `buf`
and `found`. -/
def openLoop : Bool → List Byte → Bool → List (List SqlValue) →
    Except GoError (Bool × List Byte × Bool)
  | isDir, buf, found, [] => Except.ok (isDir, buf, found)
  | _, buf, _, row :: rest =>
    match scanOpenRow row with
    | Except.error err => Except.error err
    | Except.ok (d, b) => openLoop d (buf ++ b) true rest

/-- The part of `Open` after the query (sql_fs.go 45-65). -/
def openRows (name : String) (rows : Rows) : Except GoError File :=
  match openLoop false [] false rows.rows with
  | Except.error err => Except.error err
  | Except.ok (isDir, buf, found) =>
    match rows.err with
    | some err => Except.error err
    | none =>
      if found = false then Except.error GoError.ErrNotFound
      else if isDir = true then Except.ok (File.sqlDir name)
      else Except.ok (File.sqlFile name buf)

/-- Method `FS.Open` (sql_fs.go 34-66). -/
def FS.Open {σ : Type} (db : DB σ) (fs : FS) (name : String) (s : σ) :
    Except GoError File × FS × σ :=
  match FS.Flush db fs s with
  | (some err, fs1, s1) => (Except.error err, fs1, s1)
  | (none, fs1, s1) =>
    match db.Query s1 (Query.selectByPath fs.table fs.container name) with
    | Except.error err => (Except.error err, fs1, s1)
    | Except.ok rows => (openRows name rows, fs1, s1)

/-- Type `dirEntry` (sql_fs.go 298-301). -/
structure dirEntry where
  name : String
  isDir : Bool
  deriving DecidableEq, Repr

/-- Call `rows.Scan(&entry.name, &entry.isDir)` (sql_fs.go 180). -/
def scanDirRow : List SqlValue → Except GoError dirEntry
  | [SqlValue.text n, SqlValue.bool d] => Except.ok ⟨n, d⟩
  | _ => Except.error scanError

/-- What the goroutine of `readDirIterator` sends on the channel before closing it
(sql_fs.go 175-189): one result per row, up to the first failed scan, and the error of
`rows.Err()` if there is one. -/
def channelResults (err : Option GoError) : List (List SqlValue) → List (Except GoError dirEntry)
  | [] =>
    match err with
    | some e => [Except.error e]
    | none => []
  | row :: rest =>
    match scanDirRow row with
    | Except.error e => [Except.error e]
    | Except.ok entry => Except.ok entry :: channelResults err rest

/-- The closure returned by `readDirIterator` (sql_fs.go 161-197): one that fails on
every call, or one that receives from the channel. -/
inductive DirIter where
  | failing (err : GoError)
  | receiving (pending : List (Except GoError dirEntry))
  deriving DecidableEq, Repr

/-- Method `FS.readDirIterator` (sql_fs.go 161-197). -/
def FS.readDirIterator {σ : Type} (db : DB σ) (fs : FS) (name : String) (s : σ) :
    DirIter × FS × σ :=
  match FS.Flush db fs s with
  | (some err, fs1, s1) => (DirIter.failing err, fs1, s1)
  | (none, fs1, s1) =>
    match db.Query s1 (Query.selectByDir fs.table fs.container name) with
    | Except.error err => (DirIter.failing err, fs1, s1)
    | Except.ok rows => (DirIter.receiving (channelResults rows.err rows.rows), fs1, s1)

/-- The loop of `FS.ReadDir` (sql_fs.go 126-135) on a receiving iterator: the entries
collected and the error that stopped the loop, if any. -/
def drainChannel : List dirEntry → List (Except GoError dirEntry) → List dirEntry × Option GoError
  | entries, [] => (entries, none)
  | entries, Except.error err :: _ => (entries, some err)
  | entries, Except.ok entry :: rest => drainChannel (entries ++ [entry]) rest

/-- The loop of `FS.ReadDir` (sql_fs.go 126-135). -/
def drainIter : DirIter → List dirEntry × Option GoError
  | DirIter.failing err => ([], some err)
  | DirIter.receiving pending => drainChannel [] pending

/-- Method `FS.exists` (sql_fs.go 150-159). -/
def FS.exists {σ : Type} (db : DB σ) (fs : FS) (name : String) (s : σ) : Bool × Option GoError :=
  match db.Query s (Query.selectOne fs.table fs.container name) with
  | Except.error err => (false, some err)
  | Except.ok rows => if rows.rows.length > 0 then (true, none) else (false, rows.err)

/-- Method `FS.ReadDir` (sql_fs.go 123-148). -/
def FS.ReadDir {σ : Type} (db : DB σ) (fs : FS) (name : String) (s : σ) :
    (List dirEntry × Option GoError) × FS × σ :=
  match FS.readDirIterator db fs name s with
  | (it, fs1, s1) =>
    match drainIter it with
    | (entries, some err) => ((entries, some err), fs1, s1)
    | (entries, none) =>
      if entries.length = 0 then
        match FS.exists db fs name s1 with
        | (_, some err) => (([], some err), fs1, s1)
        | (false, none) => (([], some GoError.ErrNotFound), fs1, s1)
        | (true, none) => ((entries, none), fs1, s1)
      else ((entries, none), fs1, s1)

/-! ## The table -/

/-- A row of the table: (container, path, part, dir, name, is_dir, contents). -/
structure Row where
  container : String
  path : String
  part : Int
  dir : String
  name : String
  is_dir : Bool
  contents : Option (List Byte)
  deriving DecidableEq, Repr

/-- Modelled from the spec: the table behind the `DB` interface is not part of the source.
Its rows, and the next value of the sequence that `part` defaults to ("a monotonically
increasing chunk index for file rows"). -/
structure Store where
  rows : List Row
  nextPart : Int
  deriving DecidableEq, Repr

/-- Modelled from the spec: some row has the key (container, path, part), the unique key
of the table. -/
def Store.hasKey (rows : List Row) (container path : String) (part : Int) : Bool :=
  rows.any fun r => decide (r.container = container ∧ r.path = path ∧ r.part = part)

/-- Modelled from the spec: the directory-insert statement, one row at a time, part 0,
`ON CONFLICT (container, path, part) DO NOTHING`. -/
def Store.insertDirRows (container : String) : List Row → List DirRow → List Row
  | rows, [] => rows
  | rows, d :: rest =>
    if Store.hasKey rows container d.path 0 then Store.insertDirRows container rows rest
    else Store.insertDirRows container
      (rows ++ [⟨container, d.path, 0, d.dir, d.name, true, none⟩]) rest

/-- Modelled from the spec: the rows of a file-insert statement, `part` taken from the
sequence. -/
def Store.fileRows (container : String) : Int → List FileRow → List Row
  | _, [] => []
  | part, f :: rest =>
    ⟨container, f.path, part, f.dir, f.name, false, some f.contents⟩
      :: Store.fileRows container (part + 1) rest

/-- Modelled from the spec: `Exec` on the table. The delete statement compares the column
`name`, as written in buffer.go 179; a file-insert that repeats a key fails. -/
def Store.Exec (st : Store) : Stmt → Store × Option GoError
  | Stmt.deleteNames _ container names =>
    ({ st with rows := st.rows.filter fun r =>
        !decide (r.container = container ∧ r.name ∈ names) }, none)
  | Stmt.insertDirs _ container rows =>
    ({ st with rows := Store.insertDirRows container st.rows rows }, none)
  | Stmt.insertFiles _ container rows =>
    if (Store.fileRows container st.nextPart rows).any
        (fun r => Store.hasKey st.rows r.container r.path r.part) then
      ({ st with nextPart := st.nextPart + rows.length },
        some (GoError.backend "duplicate key value violates unique constraint"))
    else
      ({ rows := st.rows ++ Store.fileRows container st.nextPart rows,
         nextPart := st.nextPart + rows.length }, none)
  | Stmt.deleteContainer _ container =>
    ({ st with rows := st.rows.filter fun r => !decide (r.container = container) }, none)

/-- The column `contents` as a result value. -/
def contentsValue : Option (List Byte) → SqlValue
  | some b => SqlValue.bytes b
  | none => SqlValue.null

/-- The rows of the container with the given path. -/
def Store.atPath (st : Store) (container name : String) : List Row :=
  st.rows.filter fun r => decide (r.container = container ∧ r.path = name)

/-- The rows of the container with the given parent directory. -/
def Store.inDir (st : Store) (container name : String) : List Row :=
  st.rows.filter fun r => decide (r.container = container ∧ r.dir = name)

/-- The listing of a directory: the distinct (name, is_dir) pairs, ordered by name. -/
def Store.listing (st : Store) (container name : String) : List dirEntry :=
  (((st.inDir container name).map fun r => (⟨r.name, r.is_dir⟩ : dirEntry)).dedup).insertionSort
    (fun a b => a.name ≤ b.name)

/-- Modelled from the spec: `Query` on the table, for the three statements of sql_fs.go. -/
def Store.Query (st : Store) : Query → Except GoError Rows
  | Query.selectByPath _ container name =>
    Except.ok ⟨((st.atPath container name).insertionSort (fun a b => a.part ≤ b.part)).map
      (fun r => [SqlValue.bool r.is_dir, contentsValue r.contents]), none⟩
  | Query.selectByDir _ container name =>
    Except.ok ⟨(st.listing container name).map
      (fun e => [SqlValue.text e.name, SqlValue.bool e.isDir]), none⟩
  | Query.selectOne _ container name =>
    Except.ok ⟨((st.atPath container name).take 1).map (fun _ => [SqlValue.int 1]), none⟩

/-- Modelled from the spec: the table as a `DB`. -/
def storeDB : DB Store where
  Query := Store.Query
  Exec := Store.Exec

/-- The empty table; the sequence of `part` starts at 1. -/
def emptyStore : Store := ⟨[], 1⟩

/-- The filesystem and table after `Create("x/A")`, `[1]` written, closed, on a fresh
unbuffered filesystem over the empty table. -/
def afterFirstCreate : Option GoError × FS × Store :=
  FS.Create storeDB (New "file" "c" []) "x/A" [1] emptyStore

/-- The same after a second `Create("x/A")`, `[2]` written, closed. -/
def afterSecondCreate : Option GoError × FS × Store :=
  FS.Create storeDB afterFirstCreate.2.1 "x/A" [2] afterFirstCreate.2.2

/-! ## Open -/

/-- A row of the `Open` query, as the database returns it. -/
def openRowValues (r : Bool × Option (List Byte)) : List SqlValue :=
  [SqlValue.bool r.1, contentsValue r.2]

/-- The filesystem and table after `Create("x/A/b")` and then `Create("x/A")`, both
closed, on a fresh unbuffered filesystem over the empty table. -/
def fileOverDir : Option GoError × FS × Store :=
  FS.Create storeDB
    (FS.Create storeDB (New "file" "c" []) "x/A/b" [7] emptyStore).2.1 "x/A" [1]
    (FS.Create storeDB (New "file" "c" []) "x/A/b" [7] emptyStore).2.2

/-! ## ReadDir -/

/-- A row of the listing query, as the database returns it. -/
def dirRowValues (e : dirEntry) : List SqlValue :=
  [SqlValue.text e.name, SqlValue.bool e.isDir]

/-- The filesystem and table after `Create("d/f")`, closed, on a fresh unbuffered
filesystem over the empty table. -/
def oneFile : Option GoError × FS × Store :=
  FS.Create storeDB (New "file" "c" []) "d/f" [1] emptyStore

/-! ## Compaction preserves the effect of the queue -/

/-- The store of the claim: the content of the file at each path, if there is one, and
the set of directory-marked paths. -/
structure PathStore where
  files : String → Option (List Byte)
  dirs : String → Bool

/-- The effect of one mutation, in the claim's words: delete-file removes the file at
its path, insert-file appends its bytes to the content at its path (creating it when
absent), insert-dir marks its path. -/
def PathStore.apply (s : PathStore) (item : bufferItem) : PathStore :=
  match item.Action with
  | actionDeleteFile =>
    { s with files := fun p => if p = item.Name then none else s.files p }
  | actionInsertFile =>
    { s with files := fun p =>
        if p = item.Name then some ((s.files p).getD [] ++ item.FileContents) else s.files p }
  | actionInsertDir =>
    { s with dirs := fun p => if p = item.Name then true else s.dirs p }

/-- Replaying a mutation sequence one item at a time, in its order. -/
def replay (X : List bufferItem) (s : PathStore) : PathStore :=
  X.foldl PathStore.apply s

/-- Applying a queue in the phase order of the flush: all delete-file items, then all
insert-dir items, then all insert-file items. -/
def applyPhases (M : bufferItemSlice) (s : PathStore) : PathStore :=
  replay (bufferItemSlice.WithAction M actionInsertFile)
    (replay (bufferItemSlice.WithAction M actionInsertDir)
      (replay (bufferItemSlice.WithAction M actionDeleteFile) s))

/-- The effect of one mutation on the file at `p`. -/
def fileStep (p : String) (v : Option (List Byte)) (item : bufferItem) : Option (List Byte) :=
  if item.Name = p then
    match item.Action with
    | actionDeleteFile => none
    | actionInsertFile => some (v.getD [] ++ item.FileContents)
    | actionInsertDir => v
  else v

/-- The effect of one mutation on the mark of `p`. -/
def dirStep (p : String) (b : Bool) (item : bufferItem) : Bool :=
  b || decide (item.Action = actionInsertDir ∧ item.Name = p)

/-- Some item of the list is an insert-dir on `p`. -/
def hasDir (p : String) (l : List bufferItem) : Bool :=
  l.any fun x => decide (x.Action = actionInsertDir ∧ x.Name = p)

/-- The file at `p` after replaying `L` on a store that held `v` there. -/
def fileAfter (p : String) (L : List bufferItem) (v : Option (List Byte)) :
    Option (List Byte) :=
  if survivingInserts p L = [] then (if hasDelete p L then none else v)
  else some ((if hasDelete p L then none else v).getD [] ++ payloadOf p (afterLastDelete p L))

/-- The item is not an insert-file. -/
def nonInsert (x : bufferItem) : Bool := !decide (x.Action = actionInsertFile)

/-! ## Databases that fail in one phase -/

/-- A database that rejects the statements selected by `bad`, with the error "down", and
accepts the others. -/
def failOn (bad : Stmt → Bool) : DB Unit where
  Query := fun _ _ => Except.ok ⟨[], none⟩
  Exec := fun _ st => ((), if bad st = true then some (GoError.backend "down") else none)

/-- The statement is a delete statement. -/
def Stmt.isDeleteNames : Stmt → Bool
  | Stmt.deleteNames _ _ _ => true
  | _ => false

/-- The statement is a directory-insert statement. -/
def Stmt.isInsertDirs : Stmt → Bool
  | Stmt.insertDirs _ _ _ => true
  | _ => false

/-- A buffer holding one `Create` of the file "d/f". -/
def nestedBuf : buffer :=
  ⟨"file", "container1", [del "d/f", ins "d/f" [1, 2, 3], dir "d/f"], 100⟩

/-- The filesystem and table after `Create("x/A")`, `[1]` written, closed, and then
`Create("A")`, `[2]` written, closed, on a fresh unbuffered filesystem over the empty
table. -/
def afterSiblingCreate : Option GoError × FS × Store :=
  FS.Create storeDB afterFirstCreate.2.1 "A" [2] afterFirstCreate.2.2

/-! ## Paths as lists of segments -/

/-- The characters of the segments joined by '/'. -/
def joinChars : List (List Char) → List Char
  | [] => []
  | [w] => w
  | w :: v :: rest => w ++ '/' :: joinChars (v :: rest)

/-! ## sql_fs.go : directory handles -/

/-- One call of the closure returned by `readDirIterator` (sql_fs.go 190-196, 163, 168):
the entry and error it returns, and the closure afterwards. A closed channel gives
(nil, nil); a result that carries an error comes with the zero entry. -/
def DirIter.next : DirIter → (Option dirEntry × Option GoError) × DirIter
  | DirIter.failing err => ((none, some err), DirIter.failing err)
  | DirIter.receiving [] => ((none, none), DirIter.receiving [])
  | DirIter.receiving (Except.ok entry :: rest) => ((some entry, none), DirIter.receiving rest)
  | DirIter.receiving (Except.error err :: rest) =>
    ((some ⟨"", false⟩, some err), DirIter.receiving rest)

/-- Type `sqlDir` (sql_fs.go 248-253); the `fs` field is passed to the methods. -/
structure sqlDir where
  name : String
  readDirIterator : Option DirIter

/-- The loop of `sqlDir.ReadDir` for `n < 0` (sql_fs.go 269-279) on a receiving iterator,
one call of the closure per step: the entries and error returned, and what is left on the
channel. -/
def readAllReceiving : List dirEntry → List (Except GoError dirEntry) →
    (List dirEntry × Option GoError) × DirIter
  | entries, [] => ((entries, none), DirIter.receiving [])
  | entries, Except.error err :: rest => ((entries, some err), DirIter.receiving rest)
  | entries, Except.ok entry :: rest => readAllReceiving (entries ++ [entry]) rest

/-- The loop of `sqlDir.ReadDir` for `n < 0` (sql_fs.go 269-279). -/
def readAll : DirIter → (List dirEntry × Option GoError) × DirIter
  | DirIter.failing err => (([], some err), DirIter.failing err)
  | DirIter.receiving pending => readAllReceiving [] pending

/-- The loop of `sqlDir.ReadDir` for `n ≥ 0` (sql_fs.go 282-295): the first argument is
`n - i`, the second is `i`. -/
def readN : Nat → Nat → DirIter → List dirEntry → (List dirEntry × Option GoError) × DirIter
  | 0, _, it, entries => ((entries, none), it)
  | k + 1, i, it, entries =>
    match it.next with
    | ((_, some err), it1) => ((entries, some err), it1)
    | ((none, none), it1) =>
      if i = 0 then (([], some GoError.EOF), it1) else ((entries, none), it1)
    | ((some entry, none), it1) => readN k (i + 1) it1 (entries ++ [entry])

/-- Method `sqlDir.ReadDir` (sql_fs.go 263-296): the entries and error returned, and the
handle, filesystem and database state afterwards. -/
def sqlDir.ReadDir {σ : Type} (db : DB σ) (fs : FS) (dir : sqlDir) (n : Int) (s : σ) :
    (List dirEntry × Option GoError) × sqlDir × FS × σ :=
  match dir.readDirIterator with
  | some it =>
    if n < 0 then ((readAll it).1, { dir with readDirIterator := some (readAll it).2 }, fs, s)
    else ((readN n.toNat 0 it []).1,
      { dir with readDirIterator := some (readN n.toNat 0 it []).2 }, fs, s)
  | none =>
    match FS.readDirIterator db fs dir.name s with
    | (it, fs1, s1) =>
      if n < 0 then
        ((readAll it).1, { dir with readDirIterator := some (readAll it).2 }, fs1, s1)
      else ((readN n.toNat 0 it []).1,
        { dir with readDirIterator := some (readN n.toNat 0 it []).2 }, fs1, s1)

/-- Repeated `ReadDir(n)` calls on a handle, up to the first call that returns an error:
the pages returned before it and that error. The first argument bounds the number of
calls; `none` as error means the bound was reached. -/
def readPages {σ : Type} (db : DB σ) (n : Int) :
    Nat → FS → sqlDir → σ → List (List dirEntry) × Option GoError
  | 0, _, _, _ => ([], none)
  | k + 1, fs, dir, s =>
    match sqlDir.ReadDir db fs dir n s with
    | ((_, some err), _, _, _) => ([], some err)
    | ((page, none), dir1, fs1, s1) =>
      (page :: (readPages db n k fs1 dir1 s1).1, (readPages db n k fs1 dir1 s1).2)

/-- A handle whose iterator will yield the entries `L` and no error. -/
def handleYielding (name : String) (L : List dirEntry) : sqlDir :=
  ⟨name, some (DirIter.receiving (L.map Except.ok))⟩

/-! ## Positions in the compacted queue -/

/-- The slots after the first three marking loops, in item order, for a `seen` set of
insert-dir names to start with. -/
def markSlots (seen : List String) (X : List bufferItem) : List Slot :=
  markOverwritten (markDupDeletes
    (skipSeen actionInsertDir seen (X.map fun item => (item, false))))

/-- What the inner loop of "merge inserts" does to the slots: the insert-files on `name`
that are not skipped get skipped. -/
def flagDupes (name : String) (R : List Slot) : List Slot :=
  R.map fun s =>
    if s.2 = false ∧ s.1.Action = actionInsertFile ∧ s.1.Name = name then (s.1, true) else s

/-- The (name, action) pair of the item of a slot. -/
def slotKey (s : Slot) : String × action := key s.1

/-- The item is an insert-dir on `name`. -/
def isDirOf (name : String) (x : bufferItem) : Bool :=
  decide (x.Action = actionInsertDir ∧ x.Name = name)

/-- The flag of the item `x` after the first three marking loops, when the items `A`
stand before it and the items `B` after it. -/
def flagAt (seen : List String) (A : List bufferItem) (x : bufferItem) (B : List bufferItem) :
    Bool :=
  decide (x.Action = actionInsertDir ∧ (x.Name ∈ seen ∨ hasDir x.Name A = true))
    || decide ((x.Action = actionDeleteFile ∨ x.Action = actionInsertFile) ∧ hasDelete x.Name B)

/-- A queue with three insert-dirs on "A" among other items. -/
def dirsQueue : bufferItemSlice :=
  [ins "B" [1], dir "B", del "A", ins "A" [2], dir "A", ins "B" [3], dir "A", dir "B", dir "A"]

/-- A queue with three delete-files on "A" among other items. -/
def deletesQueue : bufferItemSlice :=
  [del "A", ins "A" [1], dir "A", del "A", ins "B" [2], del "A", ins "A" [3], dir "B"]

/-- A queue in which the insert-files on "A" that survive start after the delete-file. -/
def insertsQueue : bufferItemSlice :=
  [ins "A" [1], ins "B" [2], del "A", dir "A", ins "A" [3], ins "B" [4], ins "A" [5]]

/-! # Theorems

## The cases of buffer_test.go -/

example : mergeBufferItems
    [dir "a/b/c", dir "d/e/f", dir "g/h/i", dir "a/b/c", dir "a/b/c", dir "d/e/f"]
    = [dir "a/b/c", dir "d/e/f", dir "g/h/i"] := by decide

example : mergeBufferItems
    [del "a/b/c", del "d/e/f", del "g/h/i", del "g/h/i", del "d/e/f", del "a/b/c"]
    = [del "g/h/i", del "d/e/f", del "a/b/c"] := by decide

example : mergeBufferItems
    [ins "a/b/c" [1], ins "d/e/f" [2], ins "g/h/i" [3], del "d/e/f", ins "d/e/f" [4]]
    = [ins "a/b/c" [1], ins "g/h/i" [3], del "d/e/f", ins "d/e/f" [4]] := by decide

example : mergeBufferItems
    [ins "a/b/c" [1], ins "d/e/f" [2], ins "g/h/i" [3], ins "a/b/c" [4], ins "d/e/f" [5],
     ins "a/b/c" [6], ins "d/e/f" [7], ins "g/h/i" [8]]
    = [ins "a/b/c" [1, 4, 6], ins "d/e/f" [2, 5, 7], ins "g/h/i" [3, 8]] := by decide

example : mergeBufferItems
    [del "A", ins "A" [11], dir "A", del "B", ins "B" [21], dir "B", ins "A" [12], dir "A",
     del "A", ins "A" [111], dir "A", ins "B" [22], dir "B", del "A", ins "A" [211], dir "A",
     ins "A" [212], dir "A"]
    = [dir "A", del "B", ins "B" [21, 22], dir "B", del "A", ins "A" [211, 212]] := by decide

/-! ## The marking loops, read in item order -/

theorem mem_seenAfter (a : action) (n : String) (R : List Slot) (seen : List String) :
    n ∈ seenAfter a seen R ↔ n ∈ seen ∨ ∃ s ∈ R, s.1.Action = a ∧ s.1.Name = n := by
  induction R generalizing seen with
  | nil => simp [seenAfter]
  | cons s rest ih =>
    obtain ⟨item, sk⟩ := s
    simp only [seenAfter]
    split_ifs with h1 h2
    · rw [ih]
      constructor
      · rintro (h | ⟨s, hs, hp⟩)
        · exact Or.inl h
        · exact Or.inr ⟨s, List.mem_cons_of_mem _ hs, hp⟩
      · rintro (h | ⟨s, hs, hp⟩)
        · exact Or.inl h
        · rcases List.mem_cons.1 hs with rfl | hs
          · exact Or.inl (hp.2 ▸ h2)
          · exact Or.inr ⟨s, hs, hp⟩
    · rw [ih]
      constructor
      · rintro (h | ⟨s, hs, hp⟩)
        · rcases List.mem_cons.1 h with rfl | h
          · exact Or.inr ⟨(item, sk), List.mem_cons_self _ _, h1, rfl⟩
          · exact Or.inl h
        · exact Or.inr ⟨s, List.mem_cons_of_mem _ hs, hp⟩
      · rintro (h | ⟨s, hs, hp⟩)
        · exact Or.inl (List.mem_cons_of_mem _ h)
        · rcases List.mem_cons.1 hs with rfl | hs
          · exact Or.inl (hp.2 ▸ List.mem_cons_self _ _)
          · exact Or.inr ⟨s, hs, hp⟩
    · rw [ih]
      constructor
      · rintro (h | ⟨s, hs, hp⟩)
        · exact Or.inl h
        · exact Or.inr ⟨s, List.mem_cons_of_mem _ hs, hp⟩
      · rintro (h | ⟨s, hs, hp⟩)
        · exact Or.inl h
        · rcases List.mem_cons.1 hs with rfl | hs
          · exact absurd hp.1 h1
          · exact Or.inr ⟨s, hs, hp⟩

theorem skipSeen_append (a : action) (R1 R2 : List Slot) (seen : List String) :
    skipSeen a seen (R1 ++ R2)
      = skipSeen a seen R1 ++ skipSeen a (seenAfter a seen R1) R2 := by
  induction R1 generalizing seen with
  | nil => simp [skipSeen, seenAfter]
  | cons s rest ih =>
    obtain ⟨item, sk⟩ := s
    simp only [List.cons_append, skipSeen, seenAfter]
    split_ifs <;> simp [ih]

theorem skipSeen_singleton (a : action) (seen : List String) (x : bufferItem) (sk : Bool) :
    skipSeen a seen [(x, sk)] = [(x, sk || decide (x.Action = a ∧ x.Name ∈ seen))] := by
  by_cases h1 : x.Action = a <;> by_cases h2 : x.Name ∈ seen <;> simp [skipSeen, h1, h2]

theorem hasDelete_map_fst_reverse (n : String) (L : List Slot) :
    (∃ s ∈ L.reverse, s.1.Action = actionDeleteFile ∧ s.1.Name = n)
      ↔ hasDelete n (L.map Prod.fst) := by
  unfold hasDelete
  constructor
  · rintro ⟨s, hs, hp⟩
    exact ⟨s.1, List.mem_map_of_mem _ (List.mem_reverse.1 hs), hp⟩
  · rintro ⟨d, hd, hp⟩
    obtain ⟨s, hs, rfl⟩ := List.mem_map.1 hd
    exact ⟨s, List.mem_reverse.2 hs, hp⟩

/-- The backward delete-file loop, read in item order. -/
theorem skipSeen_delete_reverse (L : List Slot) :
    (skipSeen actionDeleteFile [] L.reverse).reverse = markDupDeletes L := by
  induction L with
  | nil => simp [skipSeen, markDupDeletes]
  | cons s post ih =>
    obtain ⟨x, sk⟩ := s
    rw [List.reverse_cons, skipSeen_append, List.reverse_append, ih, skipSeen_singleton]
    simp only [List.reverse_cons, List.reverse_nil, List.nil_append, List.singleton_append,
      markDupDeletes, List.cons.injEq, Prod.mk.injEq, true_and, and_true]
    congr 1
    apply decide_eq_decide.2
    rw [mem_seenAfter, hasDelete_map_fst_reverse]
    simp

theorem map_fst_skipInsertsNamed (n : String) (R : List Slot) :
    (skipInsertsNamed n R).map Prod.fst = R.map Prod.fst := by
  unfold skipInsertsNamed
  rw [List.map_map]
  apply List.map_congr_left
  intro s _
  simp only [Function.comp]
  split_ifs <;> rfl

theorem skipInsertsNamed_cons (n : String) (x : bufferItem) (sk : Bool) (R : List Slot) :
    skipInsertsNamed n ((x, sk) :: R)
      = (x, sk || decide (x.Action = actionInsertFile ∧ x.Name = n)) :: skipInsertsNamed n R := by
  unfold skipInsertsNamed
  by_cases h : x.Action = actionInsertFile ∧ x.Name = n <;> simp [h]

theorem skipInsertsNamed_append (n : String) (R1 R2 : List Slot) :
    skipInsertsNamed n (R1 ++ R2) = skipInsertsNamed n R1 ++ skipInsertsNamed n R2 := by
  simp [skipInsertsNamed]

theorem length_skipInsertsNamed (n : String) (R : List Slot) :
    (skipInsertsNamed n R).length = R.length := by
  simp [skipInsertsNamed]

theorem hasDelete_reverse (n : String) (l : List bufferItem) :
    hasDelete n l.reverse ↔ hasDelete n l := by
  simp [hasDelete]

theorem hasDelete_cons (n : String) (x : bufferItem) (l : List bufferItem) :
    hasDelete n (x :: l) ↔ (x.Action = actionDeleteFile ∧ x.Name = n) ∨ hasDelete n l := by
  simp [hasDelete]

/-- One more slot at the far end of the backward loop: it is reached last, after every
delete that stands before it in loop order has marked it. -/
theorem skipInsertsBeforeDeletes_snoc (k : Nat) (A : List Slot) (x : bufferItem) (sk : Bool)
    (hk : A.length + 1 ≤ k) :
    skipInsertsBeforeDeletes k (A ++ [(x, sk)])
      = skipInsertsBeforeDeletes k A
        ++ [(x, sk || decide (x.Action = actionInsertFile ∧ hasDelete x.Name (A.map Prod.fst)))] := by
  induction k generalizing A sk with
  | zero => omega
  | succ k ih =>
    cases A with
    | nil => cases k <;> simp [skipInsertsBeforeDeletes, hasDelete, skipInsertsNamed]
    | cons d A =>
      obtain ⟨d, skd⟩ := d
      have hk2 : A.length + 1 ≤ k := by simpa using hk
      simp only [List.cons_append, skipInsertsBeforeDeletes, List.map_cons, List.append_eq]
      by_cases hd : d.Action = actionDeleteFile
      · rw [if_pos hd, if_pos hd, skipInsertsNamed_append, skipInsertsNamed_cons]
        simp only [skipInsertsNamed, List.map_nil]
        have hm := map_fst_skipInsertsNamed d.Name A
        simp only [skipInsertsNamed] at hm
        rw [ih _ _ (by simpa using hk2), hm]
        simp only [List.cons_append, List.cons.injEq, true_and, List.append_cancel_left_eq,
          Prod.mk.injEq, and_true]
        rw [Bool.or_assoc]
        congr 1
        rw [← Bool.decide_or]
        apply decide_eq_decide.2
        rw [hasDelete_cons]
        constructor
        · rintro (⟨h1, h2⟩ | ⟨h1, h2⟩)
          · exact ⟨h1, Or.inl ⟨hd, h2.symm⟩⟩
          · exact ⟨h1, Or.inr h2⟩
        · rintro ⟨h1, ⟨_, h2⟩ | h2⟩
          · exact Or.inl ⟨h1, h2.symm⟩
          · exact Or.inr ⟨h1, h2⟩
      · rw [if_neg hd, if_neg hd, ih _ _ hk2]
        simp only [List.cons_append, List.cons.injEq, true_and, List.append_cancel_left_eq,
          Prod.mk.injEq, and_true]
        congr 1
        apply decide_eq_decide.2
        rw [hasDelete_cons]
        simp [hd]

theorem map_fst_reverse_slots (L : List Slot) :
    L.reverse.map Prod.fst = (L.map Prod.fst).reverse := by
  simp

/-- The "remove inserts before deletes" loop, read in item order. -/
theorem skipInsertsBeforeDeletes_reverse (n : Nat) (L : List Slot) (hn : L.length ≤ n) :
    (skipInsertsBeforeDeletes n L.reverse).reverse = markOverwritten L := by
  induction L with
  | nil => cases n <;> simp [skipInsertsBeforeDeletes, markOverwritten]
  | cons s post ih =>
    obtain ⟨x, sk⟩ := s
    have hn2 : post.length + 1 ≤ n := by simpa using hn
    rw [List.reverse_cons, skipInsertsBeforeDeletes_snoc n _ x sk (by simpa using hn2),
      List.reverse_append, ih (by omega)]
    simp only [List.reverse_cons, List.reverse_nil, List.nil_append, List.singleton_append,
      markOverwritten, List.cons.injEq, Prod.mk.injEq, true_and, and_true]
    congr 1
    apply decide_eq_decide.2
    rw [map_fst_reverse_slots, hasDelete_reverse]

theorem keptItems_cons (x : bufferItem) (sk : Bool) (L : List Slot) :
    keptItems ((x, sk) :: L) = if sk = false then x :: keptItems L else keptItems L := by
  cases sk <;> simp [keptItems]

theorem length_mergeDupes (name : String) (acc : List Byte) (R : List Slot) :
    (mergeDupes name acc R).2.length = R.length := by
  induction R generalizing acc with
  | nil => simp [mergeDupes]
  | cons s rest ih =>
    obtain ⟨d, sk⟩ := s
    simp only [mergeDupes]
    split_ifs <;> simp [ih]

theorem mergeDupes_fst (name : String) (acc : List Byte) (R : List Slot) :
    (mergeDupes name acc R).1 = acc ++ payloadOf name (keptItems R) := by
  induction R generalizing acc with
  | nil => simp [mergeDupes, payloadOf, keptItems]
  | cons s rest ih =>
    obtain ⟨d, sk⟩ := s
    simp only [mergeDupes]
    split_ifs with h
    · obtain ⟨h1, h2, h3⟩ := h
      subst h1
      rw [ih, keptItems_cons]
      simp [payloadOf, isInsertOf, h2, h3]
    · rw [ih, keptItems_cons]
      cases sk
      · have h4 : ¬(d.Action = actionInsertFile ∧ d.Name = name) := fun h5 => h ⟨rfl, h5⟩
        simp [payloadOf, isInsertOf, h4]
      · simp

theorem mergeDupes_snd (name : String) (acc : List Byte) (R : List Slot) :
    keptItems (mergeDupes name acc R).2
      = (keptItems R).filter (fun y => !isInsertOf name y) := by
  induction R generalizing acc with
  | nil => simp [mergeDupes, keptItems]
  | cons s rest ih =>
    obtain ⟨d, sk⟩ := s
    simp only [mergeDupes]
    split_ifs with h
    · obtain ⟨h1, h2, h3⟩ := h
      subst h1
      rw [keptItems_cons, keptItems_cons, ih]
      simp [isInsertOf, h2, h3]
    · rw [keptItems_cons, keptItems_cons, ih]
      cases sk
      · have h4 : ¬(d.Action = actionInsertFile ∧ d.Name = name) := fun h5 => h ⟨rfl, h5⟩
        have h6 : (!isInsertOf name d) = true := by simp [isInsertOf, h4]
        simp only [if_true, List.filter_cons, h6]
      · simp

/-- The "merge inserts" loop followed by the final copy. -/
theorem keptItems_mergeInserts (k : Nat) (L : List Slot) (hk : L.length ≤ k) :
    keptItems (mergeInserts k L) = joinInserts (keptItems L) := by
  induction k generalizing L with
  | zero =>
    have : L = [] := List.length_eq_zero.1 (Nat.le_zero.1 hk)
    subst this
    simp [mergeInserts, keptItems, joinInserts]
  | succ k ih =>
    cases L with
    | nil => simp [mergeInserts, keptItems, joinInserts]
    | cons s rest =>
      obtain ⟨x, sk⟩ := s
      have hk2 : rest.length ≤ k := by simpa using hk
      simp only [mergeInserts]
      split_ifs with h
      · obtain ⟨h1, h2⟩ := h
        subst h2
        rw [keptItems_cons, keptItems_cons, if_pos rfl, if_pos rfl,
          ih _ (by rw [length_mergeDupes]; exact hk2), mergeDupes_snd, mergeDupes_fst,
          joinInserts, if_pos h1]
      · rw [keptItems_cons, keptItems_cons]
        cases sk
        · have h1 : ¬ x.Action = actionInsertFile := fun h5 => h ⟨h5, rfl⟩
          rw [if_pos rfl, if_pos rfl, ih _ hk2, joinInserts, if_neg h1]
        · simp [ih _ hk2]

theorem map_fst_skipSeen (a : action) (seen : List String) (L : List Slot) :
    (skipSeen a seen L).map Prod.fst = L.map Prod.fst := by
  induction L generalizing seen with
  | nil => simp [skipSeen]
  | cons s rest ih =>
    obtain ⟨x, sk⟩ := s
    simp only [skipSeen]
    split_ifs <;> simp [ih]

theorem length_skipSeen (a : action) (seen : List String) (L : List Slot) :
    (skipSeen a seen L).length = L.length := by
  have h := congrArg List.length (map_fst_skipSeen a seen L)
  simpa using h

theorem map_fst_markDupDeletes (L : List Slot) :
    (markDupDeletes L).map Prod.fst = L.map Prod.fst := by
  induction L with
  | nil => simp [markDupDeletes]
  | cons s rest ih =>
    obtain ⟨x, sk⟩ := s
    simp [markDupDeletes, ih]

theorem length_markDupDeletes (L : List Slot) : (markDupDeletes L).length = L.length := by
  have h := congrArg List.length (map_fst_markDupDeletes L)
  simpa using h

theorem length_markOverwritten (L : List Slot) : (markOverwritten L).length = L.length := by
  induction L with
  | nil => simp [markOverwritten]
  | cons s rest ih =>
    obtain ⟨x, sk⟩ := s
    simp [markOverwritten, ih]

theorem hasDelete_dropDupDirs (n : String) (seen : List String) (X : List bufferItem) :
    hasDelete n (dropDupDirs seen X) ↔ hasDelete n X := by
  induction X generalizing seen with
  | nil => simp [dropDupDirs]
  | cons x post ih =>
    simp only [dropDupDirs]
    split_ifs with h1 h2
    · rw [ih, hasDelete_cons]
      simp [h1]
    · rw [hasDelete_cons, hasDelete_cons, ih]
    · rw [hasDelete_cons, hasDelete_cons, ih]

/-- The first three loops followed by the final copy. -/
theorem keptItems_marks (seen : List String) (X : List bufferItem) :
    keptItems (markOverwritten (markDupDeletes
        (skipSeen actionInsertDir seen (X.map fun item => (item, false)))))
      = dropOverridden (dropDupDirs seen X) := by
  induction X generalizing seen with
  | nil => simp [skipSeen, markDupDeletes, markOverwritten, keptItems, dropDupDirs, dropOverridden]
  | cons x post ih =>
    simp only [List.map_cons, skipSeen, dropDupDirs]
    by_cases h1 : x.Action = actionInsertDir
    · by_cases h2 : x.Name ∈ seen
      · rw [if_pos h1, if_pos h2, if_pos h1, if_pos h2]
        simp only [markDupDeletes, markOverwritten, Bool.true_or]
        rw [keptItems_cons, if_neg (by simp), ih]
      · rw [if_pos h1, if_neg h2, if_pos h1, if_neg h2]
        simp only [markDupDeletes, markOverwritten, Bool.false_or]
        rw [keptItems_cons, ih, dropOverridden]
        simp [h1]
    · rw [if_neg h1, if_neg h1]
      simp only [markDupDeletes, markOverwritten, Bool.false_or]
      rw [keptItems_cons, ih, dropOverridden, map_fst_markDupDeletes, map_fst_skipSeen]
      simp only [List.map_map, Function.comp, List.map_id_fun, id, Function.comp_def,
        hasDelete_dropDupDirs]
      have hid : List.map (fun item : bufferItem => item) post = post := List.map_id _
      rw [hid]
      by_cases h3 : hasDelete x.Name post
      · rcases hx : x.Action with _ | _ | _ <;> simp_all
      · simp [h3]

/-- The compaction in closed form: drop the repeated insert-dirs, drop every delete-file
and insert-file that a later delete-file on the same name overrides, and join the
insert-files that are left. -/
theorem mergeBufferItems_eq (X : bufferItemSlice) :
    mergeBufferItems X = joinInserts (dropOverridden (dropDupDirs [] X)) := by
  have h := keptItems_mergeInserts X.length
    (markOverwritten (markDupDeletes
      (skipSeen actionInsertDir [] (X.map fun item => (item, false)))))
    (by rw [length_markOverwritten, length_markDupDeletes, length_skipSeen]; simp)
  rw [keptItems_marks] at h
  rw [← h]
  unfold mergeBufferItems mergeSlots keptItems
  simp only
  rw [skipSeen_delete_reverse, skipInsertsBeforeDeletes_reverse]
  rw [length_markDupDeletes, length_skipSeen]; simp

/-! ## Idempotence -/

theorem dropDupDirs_sublist (seen : List String) (X : List bufferItem) :
    (dropDupDirs seen X).Sublist X := by
  induction X generalizing seen with
  | nil => simp [dropDupDirs]
  | cons x post ih =>
    simp only [dropDupDirs]
    split_ifs
    · exact (ih _).cons _
    · exact (ih _).cons₂ _
    · exact (ih _).cons₂ _

theorem dropOverridden_sublist (X : List bufferItem) : (dropOverridden X).Sublist X := by
  induction X with
  | nil => simp [dropOverridden]
  | cons x post ih =>
    simp only [dropOverridden]
    split_ifs
    · exact ih.cons _
    · exact ih.cons₂ _

theorem keys_joinInserts_sublist (L : List bufferItem) :
    ((joinInserts L).map key).Sublist (L.map key) := by
  induction L using joinInserts.induct with
  | case1 => simp [joinInserts]
  | case2 x rest h ih =>
    rw [joinInserts, if_pos h]
    simp only [List.map_cons]
    have h1 : key { x with FileContents := x.FileContents ++ payloadOf x.Name rest } = key x := rfl
    rw [h1]
    exact (ih.trans ((List.filter_sublist _).map key)).cons₂ _
  | case3 x rest h ih =>
    rw [joinInserts, if_neg h]
    simp only [List.map_cons]
    exact ih.cons₂ _

theorem mem_dropDupDirs_not_seen (seen : List String) (X : List bufferItem) (x : bufferItem)
    (hx : x ∈ dropDupDirs seen X) (hd : x.Action = actionInsertDir) : x.Name ∉ seen := by
  induction X generalizing seen with
  | nil => simp [dropDupDirs] at hx
  | cons y post ih =>
    simp only [dropDupDirs] at hx
    split_ifs at hx with h1 h2
    · exact ih _ hx
    · rcases List.mem_cons.1 hx with rfl | hx
      · exact h2
      · exact fun h => ih _ hx (List.mem_cons_of_mem _ h)
    · rcases List.mem_cons.1 hx with rfl | hx
      · exact absurd hd h1
      · exact ih _ hx

theorem pairwise_dirRel_dropDupDirs (seen : List String) (X : List bufferItem) :
    ((dropDupDirs seen X).map key).Pairwise DirRel := by
  induction X generalizing seen with
  | nil => simp [dropDupDirs]
  | cons x post ih =>
    simp only [dropDupDirs]
    split_ifs with h1 h2
    · exact ih _
    · simp only [List.map_cons, List.pairwise_cons]
      refine ⟨?_, ih _⟩
      intro b hb
      obtain ⟨y, hy, rfl⟩ := List.mem_map.1 hb
      rintro ⟨_, hyd, hn⟩
      exact mem_dropDupDirs_not_seen _ _ y hy hyd (by
        have : y.Name = x.Name := hn
        rw [this]; exact List.mem_cons_self _ _)
    · simp only [List.map_cons, List.pairwise_cons]
      refine ⟨?_, ih _⟩
      intro b _
      rintro ⟨hxd, _, _⟩
      exact h1 hxd

theorem pairwise_overRel_dropOverridden (X : List bufferItem) :
    ((dropOverridden X).map key).Pairwise OverRel := by
  induction X with
  | nil => simp [dropOverridden]
  | cons x post ih =>
    simp only [dropOverridden]
    split_ifs with h
    · exact ih
    · simp only [List.map_cons, List.pairwise_cons]
      refine ⟨?_, ih⟩
      intro b hb
      obtain ⟨y, hy, rfl⟩ := List.mem_map.1 hb
      rintro ⟨hx, hyd, hn⟩
      exact h ⟨hx, y, (dropOverridden_sublist post).subset hy, hyd, hn⟩

theorem pairwise_insRel_joinInserts (L : List bufferItem) :
    ((joinInserts L).map key).Pairwise InsRel := by
  induction L using joinInserts.induct with
  | case1 => simp [joinInserts]
  | case2 x rest h ih =>
    rw [joinInserts, if_pos h]
    simp only [List.map_cons, List.pairwise_cons]
    refine ⟨?_, ih⟩
    intro b hb
    have hb2 := ((keys_joinInserts_sublist _).subset hb)
    obtain ⟨y, hy, rfl⟩ := List.mem_map.1 hb2
    rintro ⟨_, hyi, hn⟩
    have hy2 := (List.mem_filter.1 hy).2
    have hyi2 : y.Action = actionInsertFile := hyi
    have hn2 : y.Name = x.Name := hn
    simp [isInsertOf, hyi2, hn2] at hy2
  | case3 x rest h ih =>
    rw [joinInserts, if_neg h]
    simp only [List.map_cons, List.pairwise_cons]
    refine ⟨?_, ih⟩
    intro b _
    rintro ⟨hxi, _, _⟩
    exact h hxi

/-- What `mergeBufferItems` returns is compacted. -/
theorem compacted_mergeBufferItems (X : bufferItemSlice) : Compacted (mergeBufferItems X) := by
  rw [mergeBufferItems_eq]
  refine ⟨?_, ?_, pairwise_insRel_joinInserts _⟩
  · exact ((pairwise_dirRel_dropDupDirs [] X).sublist
      ((dropOverridden_sublist _).map key)).sublist (keys_joinInserts_sublist _)
  · exact (pairwise_overRel_dropOverridden _).sublist (keys_joinInserts_sublist _)

theorem dropDupDirs_of_pairwise (seen : List String) (L : List bufferItem)
    (hp : (L.map key).Pairwise DirRel)
    (hs : ∀ x ∈ L, x.Action = actionInsertDir → x.Name ∉ seen) :
    dropDupDirs seen L = L := by
  induction L generalizing seen with
  | nil => simp [dropDupDirs]
  | cons x post ih =>
    simp only [List.map_cons, List.pairwise_cons] at hp
    simp only [dropDupDirs]
    split_ifs with h1 h2
    · exact absurd h2 (hs x (List.mem_cons_self _ _) h1)
    · rw [ih _ hp.2]
      intro y hy hyd hmem
      rcases List.mem_cons.1 hmem with hn | hmem
      · exact hp.1 (key y) (List.mem_map_of_mem _ hy) ⟨h1, hyd, hn⟩
      · exact hs y (List.mem_cons_of_mem _ hy) hyd hmem
    · rw [ih _ hp.2]
      exact fun y hy => hs y (List.mem_cons_of_mem _ hy)

theorem dropOverridden_of_pairwise (L : List bufferItem)
    (hp : (L.map key).Pairwise OverRel) : dropOverridden L = L := by
  induction L with
  | nil => simp [dropOverridden]
  | cons x post ih =>
    simp only [List.map_cons, List.pairwise_cons] at hp
    simp only [dropOverridden]
    split_ifs with h
    · obtain ⟨hx, y, hy, hyd, hn⟩ := h
      exact absurd ⟨hx, hyd, hn⟩ (hp.1 (key y) (List.mem_map_of_mem _ hy))
    · rw [ih hp.2]

theorem joinInserts_of_pairwise (L : List bufferItem)
    (hp : (L.map key).Pairwise InsRel) : joinInserts L = L := by
  induction L with
  | nil => simp [joinInserts]
  | cons x post ih =>
    simp only [List.map_cons, List.pairwise_cons] at hp
    rw [joinInserts]
    split_ifs with h
    · have hno : ∀ y ∈ post, isInsertOf x.Name y = false := by
        intro y hy
        have := hp.1 (key y) (List.mem_map_of_mem _ hy)
        simp only [InsRel, key, not_and] at this
        simp only [isInsertOf, decide_eq_false_iff_not, not_and]
        exact fun hyi => this h hyi
      have hf : post.filter (fun y => !isInsertOf x.Name y) = post := by
        apply List.filter_eq_self.2
        intro y hy
        simp [hno y hy]
      have hpay : payloadOf x.Name post = [] := by
        unfold payloadOf
        rw [List.filter_eq_nil_iff.2 (fun y hy => by simp [hno y hy])]
        rfl
      rw [hf, hpay, ih hp.2]
      simp
    · rw [ih hp.2]

/-- Compacting a compacted queue changes nothing. -/
theorem mergeBufferItems_of_compacted (M : bufferItemSlice) (h : Compacted M) :
    mergeBufferItems M = M := by
  rw [mergeBufferItems_eq, dropDupDirs_of_pairwise [] M h.1 (by simp),
    dropOverridden_of_pairwise M h.2.1, joinInserts_of_pairwise M h.2.2]

/-- C1. `mergeBufferItems` is idempotent: merging a merged queue returns it unchanged,
item for item (name, action and payload bytes), for every mutation sequence. -/
theorem mergeBufferItems_idempotent (X : bufferItemSlice) :
    mergeBufferItems (mergeBufferItems X) = mergeBufferItems X :=
  mergeBufferItems_of_compacted _ (compacted_mergeBufferItems X)

/-! ## The insert-files of the compacted queue -/

theorem takeWhile_snoc {α : Type} (p : α → Bool) (l : List α) (x : α) :
    (l ++ [x]).takeWhile p
      = if ∀ y ∈ l, p y = true then l ++ (if p x = true then [x] else []) else l.takeWhile p := by
  induction l with
  | nil => by_cases h : p x = true <;> simp [List.takeWhile, h]
  | cons a l ih =>
    by_cases ha : p a = true
    · simp only [List.cons_append, List.takeWhile_cons, ha, if_true, ih, List.mem_cons,
        forall_eq_or_imp, true_and]
      split_ifs <;> rfl
    · simp [List.takeWhile_cons, ha]

theorem hasDelete_iff_isDeleteOf (P : String) (L : List bufferItem) :
    hasDelete P L ↔ ∃ y ∈ L, isDeleteOf P y = true := by
  simp [hasDelete, isDeleteOf]

theorem afterLastDelete_of_not_hasDelete (P : String) (L : List bufferItem)
    (h : ¬ hasDelete P L) : afterLastDelete P L = L := by
  unfold afterLastDelete
  rw [List.takeWhile_eq_self_iff.2, List.reverse_reverse]
  intro y hy
  rw [hasDelete_iff_isDeleteOf] at h
  have : isDeleteOf P y ≠ true := fun hd => h ⟨y, List.mem_reverse.1 hy, hd⟩
  simpa using this

theorem afterLastDelete_cons (P : String) (x : bufferItem) (post : List bufferItem) :
    afterLastDelete P (x :: post)
      = if hasDelete P post then afterLastDelete P post
        else if isDeleteOf P x = true then post else x :: post := by
  unfold afterLastDelete
  rw [List.reverse_cons, takeWhile_snoc]
  by_cases h : hasDelete P post
  · rw [if_pos h, if_neg]
    rw [hasDelete_iff_isDeleteOf] at h
    obtain ⟨y, hy, hd⟩ := h
    intro hall
    have := hall y (List.mem_reverse.2 hy)
    simp [hd] at this
  · rw [if_neg h, if_pos]
    · by_cases hx : isDeleteOf P x = true <;> simp [hx]
    · intro y hy
      rw [hasDelete_iff_isDeleteOf] at h
      have : isDeleteOf P y ≠ true := fun hd => h ⟨y, List.mem_reverse.1 hy, hd⟩
      simpa using this

theorem insertsKept_of_not_hasDelete (P : String) (L : List bufferItem)
    (h : ¬ hasDelete P L) : insertsKept P L = L.filter (isInsertOf P) := by
  induction L with
  | nil => simp [insertsKept]
  | cons x post ih =>
    rw [hasDelete_cons] at h
    push_neg at h
    have hp : ¬ hasDelete P post := fun hh => h.2 hh
    simp only [insertsKept, List.filter_cons, ih hp]
    by_cases hx : isInsertOf P x = true <;> simp [hx, hp]

theorem insertsKept_eq_survivingInserts (P : String) (X : List bufferItem) :
    insertsKept P X = survivingInserts P X := by
  unfold survivingInserts
  induction X with
  | nil => simp [insertsKept, afterLastDelete]
  | cons x post ih =>
    rw [afterLastDelete_cons]
    simp only [insertsKept]
    by_cases h : hasDelete P post
    · rw [if_pos h, if_neg (by simp [h]), ih]
    · rw [if_neg h, insertsKept_of_not_hasDelete P post h]
      by_cases hx : isInsertOf P x = true
      · have hnd : ¬ isDeleteOf P x = true := by
          simp only [isInsertOf, decide_eq_true_eq] at hx
          simp [isDeleteOf, hx.1]
        rw [if_pos ⟨hx, h⟩, if_neg hnd, List.filter_cons, if_pos hx]
      · rw [if_neg (fun hh => hx hh.1)]
        by_cases hd : isDeleteOf P x = true
        · rw [if_pos hd]
        · rw [if_neg hd, List.filter_cons, if_neg hx]

theorem insertsKept_dropDupDirs (P : String) (seen : List String) (X : List bufferItem) :
    insertsKept P (dropDupDirs seen X) = insertsKept P X := by
  induction X generalizing seen with
  | nil => simp [dropDupDirs]
  | cons x post ih =>
    simp only [dropDupDirs]
    split_ifs with h1 h2
    · rw [ih]
      simp [insertsKept, isInsertOf, h1]
    · simp only [insertsKept, ih, hasDelete_dropDupDirs]
    · simp only [insertsKept, ih, hasDelete_dropDupDirs]

theorem hasDelete_dropOverridden (n : String) (X : List bufferItem) :
    hasDelete n (dropOverridden X) ↔ hasDelete n X := by
  induction X with
  | nil => simp [dropOverridden]
  | cons x post ih =>
    simp only [dropOverridden]
    split_ifs with h
    · rw [ih, hasDelete_cons]
      constructor
      · exact Or.inr
      · rintro (⟨_, hn⟩ | hh)
        · exact hn ▸ h.2
        · exact hh
    · rw [hasDelete_cons, hasDelete_cons, ih]

theorem filter_isInsertOf_dropOverridden (P : String) (X : List bufferItem) :
    (dropOverridden X).filter (isInsertOf P) = insertsKept P X := by
  induction X with
  | nil => simp [dropOverridden, insertsKept]
  | cons x post ih =>
    simp only [dropOverridden, insertsKept]
    by_cases hx : isInsertOf P x = true
    · have hx2 := hx
      simp only [isInsertOf, decide_eq_true_eq] at hx2
      by_cases hd : hasDelete P post
      · rw [if_pos ⟨Or.inr hx2.1, hx2.2 ▸ hd⟩, if_neg (by simp [hd]), ih]
      · rw [if_neg (by rw [hx2.2]; exact fun hh => hd hh.2), if_pos ⟨hx, hd⟩,
          List.filter_cons, if_pos hx, ih]
    · have hk : ¬(isInsertOf P x = true ∧ ¬ hasDelete P post) := fun hh => hx hh.1
      rw [if_neg hk]
      split_ifs
      · exact ih
      · rw [List.filter_cons, if_neg hx, ih]

theorem payloadOf_cons (P : String) (x : bufferItem) (L : List bufferItem) :
    payloadOf P (x :: L)
      = if isInsertOf P x = true then x.FileContents ++ payloadOf P L else payloadOf P L := by
  unfold payloadOf
  by_cases h : isInsertOf P x = true <;> simp [List.filter_cons, h]

theorem filter_isInsertOf_filter_ne (P Q : String) (h : Q ≠ P) (L : List bufferItem) :
    (L.filter fun y => !isInsertOf Q y).filter (isInsertOf P) = L.filter (isInsertOf P) := by
  rw [List.filter_filter]
  apply List.filter_congr
  intro y _
  by_cases hy : isInsertOf P y = true
  · have hy2 := hy
    simp only [isInsertOf, decide_eq_true_eq] at hy2
    have : isInsertOf Q y = false := by
      simp only [isInsertOf, decide_eq_false_iff_not, not_and]
      exact fun _ hq => h (hq.symm.trans hy2.2)
    simp [hy, this]
  · simp [hy]

theorem filter_isInsertOf_filter_self (P : String) (L : List bufferItem) :
    (L.filter fun y => !isInsertOf P y).filter (isInsertOf P) = [] := by
  rw [List.filter_filter]
  apply List.filter_eq_nil_iff.2
  intro y _
  cases isInsertOf P y <;> simp

/-- The insert-file items on `P` after the joining stage: none, or one that carries the
whole payload. -/
theorem filter_isInsertOf_joinInserts (P : String) (L : List bufferItem) :
    (joinInserts L).filter (isInsertOf P)
      = if L.filter (isInsertOf P) = [] then []
        else [⟨P, actionInsertFile, payloadOf P L⟩] := by
  induction L using joinInserts.induct with
  | case1 => simp [joinInserts]
  | case2 x rest h ih =>
    rw [joinInserts, if_pos h]
    by_cases hn : x.Name = P
    · have hx : isInsertOf P x = true := by simp [isInsertOf, h, hn]
      have hx2 : isInsertOf P
          { x with FileContents := x.FileContents ++ payloadOf x.Name rest } = true := hx
      rw [List.filter_cons, if_pos hx2, ih, hn, filter_isInsertOf_filter_self, if_pos rfl,
        List.filter_cons, if_pos hx, if_neg (by simp), payloadOf_cons, if_pos hx]
      obtain ⟨n, a, c⟩ := x
      simp only at h hn
      subst h hn
      rfl
    · have hx : ¬ isInsertOf P x = true := by simp [isInsertOf, hn]
      have hx2 : ¬ isInsertOf P
          { x with FileContents := x.FileContents ++ payloadOf x.Name rest } = true := hx
      rw [List.filter_cons, if_neg hx2, ih, filter_isInsertOf_filter_ne P x.Name hn,
        List.filter_cons, if_neg hx, payloadOf_cons, if_neg hx]
      unfold payloadOf
      rw [filter_isInsertOf_filter_ne P x.Name hn]
  | case3 x rest h ih =>
    rw [joinInserts, if_neg h]
    have hx : ¬ isInsertOf P x = true := by simp [isInsertOf, h]
    rw [List.filter_cons, if_neg hx, ih, List.filter_cons, if_neg hx, payloadOf_cons, if_neg hx]

/-- The payload of the merged insert-file on `P` is the payload of the survivors. -/
theorem payloadOf_dropOverridden_dropDupDirs (P : String) (X : List bufferItem) :
    payloadOf P (dropOverridden (dropDupDirs [] X))
      = ((survivingInserts P X).map bufferItem.FileContents).flatten := by
  unfold payloadOf
  rw [filter_isInsertOf_dropOverridden, insertsKept_dropDupDirs, insertsKept_eq_survivingInserts]

/-- C2. Delete wins and inserts are concatenated: with `S` the insert-file items on `P`
after the last delete-file on `P` (all of them when there is no delete-file on `P`), the
merged queue holds no insert-file on `P` when `S` is empty and otherwise exactly one,
whose payload is the concatenation of the payloads of `S` in their original order; and
`insert(A,[1]), insert(B,[2]), insert(A,[4]), insert(A,[6])` merges to
`insert(A,[1,4,6]), insert(B,[2])`. -/
theorem mergeBufferItems_delete_wins_concat :
    (∀ (X : bufferItemSlice) (P : String),
      (mergeBufferItems X).filter (isInsertOf P)
        = if survivingInserts P X = [] then []
          else [⟨P, actionInsertFile,
                 ((survivingInserts P X).map bufferItem.FileContents).flatten⟩])
    ∧ mergeBufferItems [ins "A" [1], ins "B" [2], ins "A" [4], ins "A" [6]]
        = [ins "A" [1, 4, 6], ins "B" [2]] := by
  refine ⟨?_, by decide⟩
  intro X P
  rw [mergeBufferItems_eq, filter_isInsertOf_joinInserts, payloadOf_dropOverridden_dropDupDirs,
    filter_isInsertOf_dropOverridden, insertsKept_dropDupDirs, insertsKept_eq_survivingInserts]

/-! ## The path functions on examples -/

example : splitPath "a/b/c" = ("a/b", "c") := by decide
example : splitPath "abc" = ("", "abc") := by decide
example : splitPath "/abc" = ("", "abc") := by decide
example : splitPath "a/" = ("a", "") := by decide
example : strings.Split "a/b/c" '/' = ["a", "b", "c"] := by decide
example : strings.Split "" '/' = [""] := by decide
example : strings.Split "/a/" '/' = ["", "a", ""] := by decide
example : strings.Join ["a", "b", "c"] "/" = "a/b/c" := by decide

/-! ## The size of a compacted queue -/

theorem itemsSize_cons (x : bufferItem) (L : List bufferItem) :
    itemsSize (x :: L) = x.Name.utf8ByteSize + x.FileContents.length + itemsSize L := by
  simp [itemsSize]

theorem itemsSize_sublist {L1 L2 : List bufferItem} (h : L1.Sublist L2) :
    itemsSize L1 ≤ itemsSize L2 := by
  induction h with
  | slnil => exact Nat.le_refl _
  | cons a _ ih => rw [itemsSize_cons]; omega
  | cons₂ a _ ih => rw [itemsSize_cons, itemsSize_cons]; omega

theorem payload_add_rest_le (n : String) (L : List bufferItem) :
    (payloadOf n L).length + itemsSize (L.filter fun y => !isInsertOf n y) ≤ itemsSize L := by
  induction L with
  | nil => simp [payloadOf, itemsSize]
  | cons x rest ih =>
    rw [payloadOf_cons, List.filter_cons, itemsSize_cons]
    by_cases hx : isInsertOf n x = true
    · simp only [hx, if_true, Bool.not_true, List.length_append]
      simp only [Bool.false_eq_true, if_false]
      omega
    · have hx2 : isInsertOf n x = false := by simpa using hx
      simp only [hx2, Bool.false_eq_true, if_false, Bool.not_false, if_true]
      rw [itemsSize_cons]
      omega

theorem itemsSize_joinInserts (L : List bufferItem) :
    itemsSize (joinInserts L) ≤ itemsSize L := by
  induction L using joinInserts.induct with
  | case1 => simp [joinInserts]
  | case2 x rest h ih =>
    rw [joinInserts, if_pos h, itemsSize_cons, itemsSize_cons]
    have := payload_add_rest_le x.Name rest
    simp only [List.length_append]
    omega
  | case3 x rest h ih =>
    rw [joinInserts, if_neg h, itemsSize_cons, itemsSize_cons]
    omega

/-- Compaction does not grow the size that `buffer.size` computes. -/
theorem itemsSize_mergeBufferItems_le (X : bufferItemSlice) :
    itemsSize (mergeBufferItems X) ≤ itemsSize X := by
  rw [mergeBufferItems_eq]
  exact (itemsSize_joinInserts _).trans
    ((itemsSize_sublist (dropOverridden_sublist _)).trans
      (itemsSize_sublist (dropDupDirs_sublist _ _)))

/-- When the compacted buffer passes the `doFlush` test, so does the buffer itself. -/
theorem doFlush_of_merged (buf : buffer) (force : Bool)
    (h : ({ buf with items := mergeBufferItems buf.items } : buffer).doFlush force = true) :
    buf.doFlush force = true := by
  unfold buffer.doFlush buffer.size at h ⊢
  simp only [Bool.or_eq_true, decide_eq_true_eq] at h ⊢
  rcases h with (h | h) | h
  · exact Or.inl (Or.inl h)
  · exact Or.inl (Or.inr h)
  · refine Or.inr ?_
    have := itemsSize_mergeBufferItems_le buf.items
    have h2 : (itemsSize (mergeBufferItems buf.items) : Int) ≤ (itemsSize buf.items : Int) :=
      Int.ofNat_le.2 this
    omega

/-- Method `Flush` on a buffer whose compacted form passes the `doFlush` test runs the three
phases on the compacted buffer. -/
theorem Flush_eq_writePhases {σ : Type} (db : DB σ) (buf : buffer) (force : Bool) (s : σ)
    (h : ({ buf with items := mergeBufferItems buf.items } : buffer).doFlush force = true) :
    buffer.Flush db buf force s
      = buffer.writePhases db { buf with items := mergeBufferItems buf.items } s := by
  unfold buffer.Flush
  rw [if_neg (by rw [doFlush_of_merged buf force h]; simp)]
  simp only
  rw [if_neg (by rw [h]; simp)]

/-! ## The write protocol, statement by statement -/

theorem execPhase_traced {σ : Type} (db : DB σ) (s : σ) (log : List (Stmt × Option GoError))
    (o : Option Stmt) :
    execPhase (traced db) (s, log) o
      = match o with
        | none => ((s, log), none)
        | some st => (((db.Exec s st).1, log ++ [(st, (db.Exec s st).2)]), (db.Exec s st).2) := by
  cases o <;> rfl

/-- The outcome of the three phases against a logged database: either every statement
that the compacted buffer has was passed to the database and none failed, the queue is
cleared and nil is returned; or some statement failed, the error is returned and the
buffer is left as it was. -/
theorem writePhases_traced {σ : Type} (db : DB σ) (buf : buffer) (s : σ) :
    (∀ e ∈ (buffer.writePhases (traced db) buf (s, [])).2.2.2,
        ∃ s1, e.2 = (db.Exec s1 e.1).2) ∧
    (((buffer.writePhases (traced db) buf (s, [])).1 = none
        ∧ (buffer.writePhases (traced db) buf (s, [])).2.1 = { buf with items := [] }
        ∧ (∀ e ∈ (buffer.writePhases (traced db) buf (s, [])).2.2.2, e.2 = none)
        ∧ (buffer.writePhases (traced db) buf (s, [])).2.2.2.map Prod.fst
            = [buf.deleteStmt, buf.insertDirsStmt, buf.insertFilesStmt].reduceOption)
      ∨ ((buffer.writePhases (traced db) buf (s, [])).1 ≠ none
        ∧ (buffer.writePhases (traced db) buf (s, [])).2.1 = buf
        ∧ (∃ e ∈ (buffer.writePhases (traced db) buf (s, [])).2.2.2, e.2 ≠ none))) := by
  unfold buffer.writePhases
  rcases buf.deleteStmt with _ | d
  · rcases buf.insertDirsStmt with _ | i
    · rcases buf.insertFilesStmt with _ | f
      · simp [execPhase]
      · rcases hf : (db.Exec s f).2 with _ | ef
        · simp [execPhase, traced, hf]
          exact ⟨s, hf.symm⟩
        · simp [execPhase, traced, hf]
          exact ⟨s, hf.symm⟩
    · rcases hi : (db.Exec s i).2 with _ | ei
      · rcases buf.insertFilesStmt with _ | f
        · simp [execPhase, traced, hi]
          exact ⟨s, hi.symm⟩
        · rcases hf : (db.Exec (db.Exec s i).1 f).2 with _ | ef
          · simp [execPhase, traced, hi, hf]
            exact ⟨⟨s, hi.symm⟩, ⟨_, hf.symm⟩⟩
          · simp [execPhase, traced, hi, hf]
            exact ⟨⟨s, hi.symm⟩, ⟨_, hf.symm⟩⟩
      · simp [execPhase, traced, hi]
        exact ⟨s, hi.symm⟩
  · rcases hd : (db.Exec s d).2 with _ | ed
    · rcases buf.insertDirsStmt with _ | i
      · rcases buf.insertFilesStmt with _ | f
        · simp [execPhase, traced, hd]
          exact ⟨s, hd.symm⟩
        · rcases hf : (db.Exec (db.Exec s d).1 f).2 with _ | ef
          · simp [execPhase, traced, hd, hf]
            exact ⟨⟨s, hd.symm⟩, ⟨_, hf.symm⟩⟩
          · simp [execPhase, traced, hd, hf]
            exact ⟨⟨s, hd.symm⟩, ⟨_, hf.symm⟩⟩
      · rcases hi : (db.Exec (db.Exec s d).1 i).2 with _ | ei
        · rcases buf.insertFilesStmt with _ | f
          · simp [execPhase, traced, hd, hi]
            exact ⟨⟨s, hd.symm⟩, ⟨_, hi.symm⟩⟩
          · rcases hf : (db.Exec (db.Exec (db.Exec s d).1 i).1 f).2 with _ | ef
            · simp [execPhase, traced, hd, hi, hf]
              exact ⟨⟨s, hd.symm⟩, ⟨_, hi.symm⟩, ⟨_, hf.symm⟩⟩
            · simp [execPhase, traced, hd, hi, hf]
              exact ⟨⟨s, hd.symm⟩, ⟨_, hi.symm⟩, ⟨_, hf.symm⟩⟩
        · simp [execPhase, traced, hd, hi]
          exact ⟨⟨s, hd.symm⟩, ⟨_, hi.symm⟩⟩
    · simp [execPhase, traced, hd]
      exact ⟨s, hd.symm⟩

/-- The file-insert statements in the log of the three phases: the one of the buffer, or
none when an earlier statement failed or the buffer has no file to insert. -/
theorem writePhases_traced_insertFiles {σ : Type} (db : DB σ) (buf : buffer) (s : σ) :
    (((buffer.writePhases (traced db) buf (s, [])).2.2.2.map Prod.fst).filter Stmt.isInsertFiles
        = []
      ∨ ((buffer.writePhases (traced db) buf (s, [])).2.2.2.map Prod.fst).filter
          Stmt.isInsertFiles = buf.insertFilesStmt.toList)
    ∧ ((∀ s1 st, st.isInsertFiles = false → (db.Exec s1 st).2 = none) →
      ((buffer.writePhases (traced db) buf (s, [])).2.2.2.map Prod.fst).filter
          Stmt.isInsertFiles = buf.insertFilesStmt.toList) := by
  have hD : ∀ d, buf.deleteStmt = some d → d.isInsertFiles = false := by
    intro d hd
    unfold buffer.deleteStmt at hd
    simp only at hd
    split_ifs at hd
    cases hd
    rfl
  have hI : ∀ d, buf.insertDirsStmt = some d → d.isInsertFiles = false := by
    intro d hd
    unfold buffer.insertDirsStmt at hd
    simp only at hd
    split_ifs at hd
    cases hd
    rfl
  have hF : ∀ d, buf.insertFilesStmt = some d → d.isInsertFiles = true := by
    intro d hd
    unfold buffer.insertFilesStmt at hd
    simp only at hd
    split_ifs at hd
    cases hd
    rfl
  unfold buffer.writePhases
  rcases hd0 : buf.deleteStmt with _ | d
  · rcases hi0 : buf.insertDirsStmt with _ | i
    · rcases hf0 : buf.insertFilesStmt with _ | f
      · simp [execPhase]
      · rcases hf : (db.Exec s f).2 with _ | ef <;>
          simp [execPhase, traced, hf, hF f hf0]
    · rcases hi : (db.Exec s i).2 with _ | ei
      · rcases hf0 : buf.insertFilesStmt with _ | f
        · simp [execPhase, traced, hi, hI i hi0]
        · rcases hf : (db.Exec (db.Exec s i).1 f).2 with _ | ef <;>
            simp [execPhase, traced, hi, hf, hF f hf0, hI i hi0]
      · refine ⟨Or.inl (by simp [execPhase, traced, hi, hI i hi0]), fun hok => ?_⟩
        rw [hok s i (hI i hi0)] at hi
        cases hi
  · rcases hd : (db.Exec s d).2 with _ | ed
    · rcases hi0 : buf.insertDirsStmt with _ | i
      · rcases hf0 : buf.insertFilesStmt with _ | f
        · simp [execPhase, traced, hd, hD d hd0]
        · rcases hf : (db.Exec (db.Exec s d).1 f).2 with _ | ef <;>
            simp [execPhase, traced, hd, hf, hF f hf0, hD d hd0]
      · rcases hi : (db.Exec (db.Exec s d).1 i).2 with _ | ei
        · rcases hf0 : buf.insertFilesStmt with _ | f
          · simp [execPhase, traced, hd, hi, hD d hd0, hI i hi0]
          · rcases hf : (db.Exec (db.Exec (db.Exec s d).1 i).1 f).2 with _ | ef <;>
              simp [execPhase, traced, hd, hi, hf, hF f hf0, hD d hd0, hI i hi0]
        · refine ⟨Or.inl (by simp [execPhase, traced, hd, hi, hD d hd0, hI i hi0]),
            fun hok => ?_⟩
          rw [hok _ i (hI i hi0)] at hi
          cases hi
    · refine ⟨Or.inl (by simp [execPhase, traced, hd, hD d hd0]), fun hok => ?_⟩
      rw [hok s d (hD d hd0)] at hd
      cases hd

/-! ## Flush -/

/-- The queue after `Create(name, A)` and `Append(name, B)`, compacted. -/
theorem merge_create_append (name : String) (A B : List Byte) :
    mergeBufferItems
        [⟨name, actionDeleteFile, []⟩, ⟨name, actionInsertFile, A⟩, ⟨name, actionInsertDir, []⟩,
         ⟨name, actionInsertFile, B⟩, ⟨name, actionInsertDir, []⟩]
      = [⟨name, actionDeleteFile, []⟩, ⟨name, actionInsertFile, A ++ B⟩,
         ⟨name, actionInsertDir, []⟩] := by
  simp [mergeBufferItems, mergeSlots, skipSeen, skipInsertsBeforeDeletes, skipInsertsNamed,
    mergeInserts, mergeDupes]

/-- C4. Append accumulation: from an empty queue, `Create(name, A)`, `Append(name, B)` and
one forced `Flush`. Whatever the database answers, the only file-insert statement the
flush can pass to it carries exactly one row, the row of `name`, with contents `A`
followed by `B`; and when the database accepts the delete and directory statements that
come first, the flush does pass this statement, once. -/
theorem Create_Append_Flush_one_row {σ : Type} (db : DB σ) (s : σ)
    (table container name : String) (capacity : Int) (A B : List Byte) :
    (((buffer.Flush (traced db)
          (((⟨table, container, [], capacity⟩ : buffer).Create name A).Append name B)
          true (s, [])).2.2.2.map Prod.fst).filter Stmt.isInsertFiles = []
      ∨ ((buffer.Flush (traced db)
          (((⟨table, container, [], capacity⟩ : buffer).Create name A).Append name B)
          true (s, [])).2.2.2.map Prod.fst).filter Stmt.isInsertFiles
        = [Stmt.insertFiles table container
            [⟨name, (splitPath name).1, (splitPath name).2, A ++ B⟩]])
    ∧ ((∀ s1 st, st.isInsertFiles = false → (db.Exec s1 st).2 = none) →
      ((buffer.Flush (traced db)
          (((⟨table, container, [], capacity⟩ : buffer).Create name A).Append name B)
          true (s, [])).2.2.2.map Prod.fst).filter Stmt.isInsertFiles
        = [Stmt.insertFiles table container
            [⟨name, (splitPath name).1, (splitPath name).2, A ++ B⟩]]) := by
  generalize hX : ((⟨table, container, [], capacity⟩ : buffer).Create name A).Append name B = X
  have hi : X.items
      = [⟨name, actionDeleteFile, []⟩, ⟨name, actionInsertFile, A⟩, ⟨name, actionInsertDir, []⟩,
         ⟨name, actionInsertFile, B⟩, ⟨name, actionInsertDir, []⟩] := by
    rw [← hX]; rfl
  have ht : X.table = table := by rw [← hX]; rfl
  have hc : X.container = container := by rw [← hX]; rfl
  rw [Flush_eq_writePhases _ _ _ _ (by simp [buffer.doFlush])]
  have h := writePhases_traced_insertFiles db { X with items := mergeBufferItems X.items } s
  have hstmt : ({ X with items := mergeBufferItems X.items } : buffer).insertFilesStmt.toList
      = [Stmt.insertFiles table container
          [⟨name, (splitPath name).1, (splitPath name).2, A ++ B⟩]] := by
    rw [hi, merge_create_append]
    simp [buffer.insertFilesStmt, bufferItemSlice.WithAction, bufferItemSlice.Filter, fileRowOf,
      ht, hc]
  rw [hstmt] at h
  exact h

/-- Witness of C4 on the database that accepts everything. -/
theorem Create_Append_Flush_one_row_witness :
    (∀ s1 st, st.isInsertFiles = false → (nullDB.Exec s1 st).2 = none)
    ∧ ((buffer.Flush (traced nullDB)
        (((⟨"file", "c", [], 0⟩ : buffer).Create "x/A" [65]).Append "x/A" [66])
        true ((), [])).2.2.2.map Prod.fst).filter Stmt.isInsertFiles
      = [Stmt.insertFiles "file" "c"
          [⟨"x/A", (splitPath "x/A").1, (splitPath "x/A").2, [65] ++ [66]⟩]] :=
  ⟨fun _ _ _ => rfl,
    (Create_Append_Flush_one_row nullDB () "file" "c" "x/A" 0 [65] [66]).2 (fun _ _ _ => rfl)⟩

/-- C8. `Flush(false)` below the threshold is a no-op: with capacity > 0 and a queue of
size at most the capacity it returns nil, passes no statement to the database (state and
log are untouched) and leaves the queue as it was, not even compacted. -/
theorem Flush_below_threshold_noop {σ : Type} (db : DB σ) (buf : buffer) (s : σ)
    (log : List (Stmt × Option GoError))
    (hc : 0 < buf.capacity) (hs : (buf.size : Int) ≤ buf.capacity) :
    buffer.Flush db buf false s = (none, buf, s)
      ∧ buffer.Flush (traced db) buf false (s, log) = (none, buf, (s, log)) := by
  have h : buf.doFlush false = false := by
    unfold buffer.doFlush
    simp only [Bool.false_or, Bool.or_eq_false_iff, decide_eq_false_iff_not]
    omega
  unfold buffer.Flush
  simp [h]

/-- Witness of C8: one `Create` of three bytes in a buffer of capacity 100. -/
theorem Flush_below_threshold_noop_witness :
    0 < smallBuf.capacity ∧ (smallBuf.size : Int) ≤ smallBuf.capacity
      ∧ buffer.Flush nullDB smallBuf false () = (none, smallBuf, ())
      ∧ buffer.Flush (traced nullDB) smallBuf false ((), []) = (none, smallBuf, ((), [])) :=
  ⟨by decide, by decide,
    Flush_below_threshold_noop nullDB smallBuf () [] (by decide) (by decide)⟩

/-- C9, as stated, fails: a queue of size 12 in a buffer of capacity 10 is over the
threshold, yet `Flush(false)` on a database that accepts everything passes no statement
to it and leaves the compacted queue (size 6, not empty) in the buffer. -/
theorem Flush_over_threshold_not_written :
    0 < twiceBuf.capacity ∧ twiceBuf.items ≠ [] ∧ (twiceBuf.size : Int) > twiceBuf.capacity
      ∧ buffer.Flush (traced nullDB) twiceBuf false ((), [])
          = (none, { twiceBuf with items := [dir "A", del "A", ins "A" [1, 2, 3]] }, ((), [])) := by
  decide

/-- C9, amended. With capacity C > 0, if `force` is true or the size of the compacted
queue exceeds C, `Flush` runs the write protocol on the compacted queue; when every
statement passed to the database succeeds, these are the delete, directory-insert and
file-insert statements of the compacted queue, in this order, each one only if it has
something to carry, `Flush` returns nil and the queue is empty afterwards. -/
theorem Flush_runs_write_protocol {σ : Type} (db : DB σ) (buf : buffer) (force : Bool) (s : σ)
    (_hc : 0 < buf.capacity)
    (h : force = true ∨ (itemsSize (mergeBufferItems buf.items) : Int) > buf.capacity) :
    buffer.Flush db buf force s
        = buffer.writePhases db { buf with items := mergeBufferItems buf.items } s
      ∧ ((∀ e ∈ (buffer.Flush (traced db) buf force (s, [])).2.2.2, e.2 = none) →
          (buffer.Flush (traced db) buf force (s, [])).1 = none
          ∧ (buffer.Flush (traced db) buf force (s, [])).2.1.items = []
          ∧ (buffer.Flush (traced db) buf force (s, [])).2.2.2.map Prod.fst
              = [({ buf with items := mergeBufferItems buf.items } : buffer).deleteStmt,
                 ({ buf with items := mergeBufferItems buf.items } : buffer).insertDirsStmt,
                 ({ buf with items := mergeBufferItems buf.items } : buffer).insertFilesStmt
                ].reduceOption) := by
  have hm : ({ buf with items := mergeBufferItems buf.items } : buffer).doFlush force = true := by
    unfold buffer.doFlush buffer.size
    simp only [Bool.or_eq_true, decide_eq_true_eq]
    rcases h with h | h
    · exact Or.inl (Or.inl h)
    · exact Or.inr h
  refine ⟨Flush_eq_writePhases db buf force s hm, ?_⟩
  rw [Flush_eq_writePhases (traced db) buf force (s, []) hm]
  intro hall
  rcases (writePhases_traced db { buf with items := mergeBufferItems buf.items } s).2 with
    ⟨h1, h2, _, h4⟩ | ⟨_, _, e, he, hne⟩
  · exact ⟨h1, by rw [h2], h4⟩
  · exact absurd (hall e he) hne

/-- Witness of C9 amended: the forced flush of one `Create`. -/
theorem Flush_runs_write_protocol_witness :
    (0 < smallBuf.capacity
      ∧ ((true = true) ∨ (itemsSize (mergeBufferItems smallBuf.items) : Int) > smallBuf.capacity))
    ∧ (buffer.Flush nullDB smallBuf true ()
        = buffer.writePhases nullDB { smallBuf with items := mergeBufferItems smallBuf.items } ()
      ∧ ((∀ e ∈ (buffer.Flush (traced nullDB) smallBuf true ((), [])).2.2.2, e.2 = none) →
          (buffer.Flush (traced nullDB) smallBuf true ((), [])).1 = none
          ∧ (buffer.Flush (traced nullDB) smallBuf true ((), [])).2.1.items = []
          ∧ (buffer.Flush (traced nullDB) smallBuf true ((), [])).2.2.2.map Prod.fst
              = [({ smallBuf with items := mergeBufferItems smallBuf.items } : buffer).deleteStmt,
                 ({ smallBuf with items := mergeBufferItems smallBuf.items } : buffer).insertDirsStmt,
                 ({ smallBuf with items := mergeBufferItems smallBuf.items } : buffer).insertFilesStmt
                ].reduceOption)) :=
  ⟨⟨by decide, Or.inl rfl⟩,
    Flush_runs_write_protocol nullDB smallBuf true () (by decide) (Or.inl rfl)⟩

/-- C10. The queue after a flush that reaches the write protocol: if every statement
passed to the database succeeds, `Flush` returns nil and the queue is empty; if some
statement fails, `Flush` returns a non-nil error and the queue is `mergeBufferItems(Q)`,
which a retried flush re-merges to itself. -/
theorem Flush_queue_afterwards {σ : Type} (db : DB σ) (buf : buffer) (force : Bool) (s : σ)
    (hreach : ({ buf with items := mergeBufferItems buf.items } : buffer).doFlush force = true) :
    ((∀ e ∈ (buffer.Flush (traced db) buf force (s, [])).2.2.2, e.2 = none) →
        (buffer.Flush (traced db) buf force (s, [])).1 = none
        ∧ (buffer.Flush (traced db) buf force (s, [])).2.1.items = [])
      ∧ ((∃ e ∈ (buffer.Flush (traced db) buf force (s, [])).2.2.2, e.2 ≠ none) →
        (buffer.Flush (traced db) buf force (s, [])).1 ≠ none
        ∧ (buffer.Flush (traced db) buf force (s, [])).2.1.items = mergeBufferItems buf.items
        ∧ mergeBufferItems (buffer.Flush (traced db) buf force (s, [])).2.1.items
            = (buffer.Flush (traced db) buf force (s, [])).2.1.items) := by
  rw [Flush_eq_writePhases (traced db) buf force (s, []) hreach]
  rcases (writePhases_traced db { buf with items := mergeBufferItems buf.items } s).2 with
    ⟨h1, h2, h3, _⟩ | ⟨h1, h2, e, he, hne⟩
  · refine ⟨fun _ => ⟨h1, by rw [h2]⟩, ?_⟩
    rintro ⟨e, he, hne⟩
    exact absurd (h3 e he) hne
  · refine ⟨fun hall => absurd (hall e he) hne, fun _ => ⟨h1, by rw [h2], ?_⟩⟩
    rw [h2]
    exact mergeBufferItems_of_compacted _ (compacted_mergeBufferItems buf.items)

/-- Witness of C10: the forced flush of one `Create` on a database that rejects every
statement. -/
theorem Flush_queue_afterwards_witness :
    ({ smallBuf with items := mergeBufferItems smallBuf.items } : buffer).doFlush true = true
    ∧ (((∀ e ∈ (buffer.Flush (traced failDB) smallBuf true ((), [])).2.2.2, e.2 = none) →
        (buffer.Flush (traced failDB) smallBuf true ((), [])).1 = none
        ∧ (buffer.Flush (traced failDB) smallBuf true ((), [])).2.1.items = [])
      ∧ ((∃ e ∈ (buffer.Flush (traced failDB) smallBuf true ((), [])).2.2.2, e.2 ≠ none) →
        (buffer.Flush (traced failDB) smallBuf true ((), [])).1 ≠ none
        ∧ (buffer.Flush (traced failDB) smallBuf true ((), [])).2.1.items
            = mergeBufferItems smallBuf.items
        ∧ mergeBufferItems (buffer.Flush (traced failDB) smallBuf true ((), [])).2.1.items
            = (buffer.Flush (traced failDB) smallBuf true ((), [])).2.1.items)) :=
  ⟨rfl, Flush_queue_afterwards failDB smallBuf true () rfl⟩

/-! ## Create, flush, Open on the table -/

/-- C3 fails on the code: after `Create("x/A")` with `[1]` and, on top of it,
`Create("x/A")` with `[2]`, both flushed without error, `Open("x/A")` returns a file with
content `[1, 2]`, not `[2]`: the delete statement compares the full path with the column
`name` and removes nothing, so the first row stays. -/
theorem Open_after_overwrite_keeps_old_bytes :
    afterFirstCreate.1 = none
      ∧ (FS.Open storeDB afterFirstCreate.2.1 "x/A" afterFirstCreate.2.2).1
          = Except.ok (File.sqlFile "x/A" [1])
      ∧ afterSecondCreate.1 = none
      ∧ afterSecondCreate.2.1.buffer.items = []
      ∧ (FS.Flush storeDB afterSecondCreate.2.1 afterSecondCreate.2.2).1 = none
      ∧ (FS.Open storeDB afterSecondCreate.2.1 "x/A" afterSecondCreate.2.2).1
          = Except.ok (File.sqlFile "x/A" [1, 2]) := by
  decide

/-! ## The rows that Open reads -/

theorem scanOpenRow_openRowValues (r : Bool × Option (List Byte)) :
    scanOpenRow (openRowValues r) = Except.ok (r.1, r.2.getD []) := by
  obtain ⟨d, c⟩ := r
  cases c <;> rfl

theorem openLoop_openRowValues (l : List (Bool × Option (List Byte))) (isDir : Bool)
    (buf : List Byte) (found : Bool) :
    openLoop isDir buf found (l.map openRowValues)
      = Except.ok ((l.getLast?.map Prod.fst).getD isDir,
          buf ++ (l.map fun r => r.2.getD []).flatten,
          found || !l.isEmpty) := by
  induction l generalizing isDir buf found with
  | nil => simp [openLoop]
  | cons r rest ih =>
    simp only [List.map_cons, openLoop, scanOpenRow_openRowValues, ih]
    cases rest with
    | nil => simp
    | cons r2 rest2 =>
      have hl := List.getLast?_eq_getLast (r2 :: rest2) (by simp)
      simp [List.getLast?_cons_cons, hl]

/-- C7, as stated, fails: for the rows (is_dir = true, NULL), (is_dir = false, [1]), in
this order, `Open` returns a file handle although a row has is_dir = true. The table
returns these rows for "x/A" after `Create("x/A/b")` and `Create("x/A")`. -/
theorem Open_dir_row_then_file_row :
    openRows "x/A" ⟨[openRowValues (true, none), openRowValues (false, some [1])], none⟩
        = Except.ok (File.sqlFile "x/A" [1])
      ∧ Store.Query fileOverDir.2.2 (Query.selectByPath "file" "c" "x/A")
        = Except.ok ⟨[openRowValues (true, none), openRowValues (false, some [1])], none⟩
      ∧ (FS.Open storeDB fileOverDir.2.1 "x/A" fileOverDir.2.2).1
        = Except.ok (File.sqlFile "x/A" [1]) := by
  decide

/-- C7, amended. For every list of rows returned for (container, name) in part order,
`Open` fails with ErrNotFound exactly when the list is empty; it returns a directory
handle when the last row of the list has is_dir = true; otherwise it returns a file
handle whose content is the concatenation of the rows' contents in list order. -/
theorem openRows_classifies (name : String) (l : List (Bool × Option (List Byte))) :
    openRows name ⟨l.map openRowValues, none⟩
        = (if l = [] then Except.error GoError.ErrNotFound
           else if l.getLast?.map Prod.fst = some true then Except.ok (File.sqlDir name)
           else Except.ok (File.sqlFile name (l.map fun r => r.2.getD []).flatten))
      ∧ (openRows name ⟨l.map openRowValues, none⟩ = Except.error GoError.ErrNotFound
          ↔ l = []) := by
  have h : openRows name ⟨l.map openRowValues, none⟩
        = (if l = [] then Except.error GoError.ErrNotFound
           else if l.getLast?.map Prod.fst = some true then Except.ok (File.sqlDir name)
           else Except.ok (File.sqlFile name (l.map fun r => r.2.getD []).flatten)) := by
    unfold openRows
    simp only [openLoop_openRowValues]
    cases l with
    | nil => simp
    | cons r rest =>
      simp only [List.isEmpty_cons, Bool.not_false, Bool.or_true, List.nil_append,
        Bool.true_eq_false, if_false, reduceCtorEq]
      rcases hl : ((r :: rest).getLast?.map Prod.fst) with _ | b
      · simp
      · cases b <;> simp
  refine ⟨h, ?_⟩
  rw [h]
  by_cases hl : l = []
  · simp [hl]
  · simp only [hl, if_false, iff_false]
    split_ifs <;> simp

/-! ## Missing and empty directories -/

theorem channelResults_dirRowValues (l : List dirEntry) :
    channelResults none (l.map dirRowValues) = l.map Except.ok := by
  induction l with
  | nil => rfl
  | cons e rest ih =>
    simp only [List.map_cons, channelResults, dirRowValues, scanDirRow]
    exact congrArg _ ih

theorem drainChannel_ok (acc l : List dirEntry) :
    drainChannel acc (l.map Except.ok) = (acc ++ l, none) := by
  induction l generalizing acc with
  | nil => simp [drainChannel]
  | cons e rest ih => simp [drainChannel, ih]

theorem mem_listing (st : Store) (container name : String) (e : dirEntry) :
    e ∈ st.listing container name
      ↔ ∃ r ∈ st.rows, r.container = container ∧ r.dir = name ∧ e = ⟨r.name, r.is_dir⟩ := by
  unfold Store.listing Store.inDir
  rw [(List.perm_insertionSort _ _).mem_iff, List.mem_dedup, List.mem_map]
  constructor
  · rintro ⟨r, hr, rfl⟩
    have := List.mem_filter.1 hr
    simp only [decide_eq_true_eq] at this
    exact ⟨r, this.1, this.2.1, this.2.2, rfl⟩
  · rintro ⟨r, hr, hc, hd, rfl⟩
    exact ⟨r, List.mem_filter.2 ⟨hr, by simp [hc, hd]⟩, rfl⟩

theorem listing_eq_nil (st : Store) (container name : String) :
    st.listing container name = [] ↔ st.inDir container name = [] := by
  constructor
  · intro h
    apply List.eq_nil_iff_forall_not_mem.2
    intro r hr
    have hm : (⟨r.name, r.is_dir⟩ : dirEntry) ∈ st.listing container name := by
      rw [mem_listing]
      have := List.mem_filter.1 hr
      simp only [decide_eq_true_eq] at this
      exact ⟨r, this.1, this.2.1, this.2.2, rfl⟩
    rw [h] at hm
    exact List.not_mem_nil _ hm
  · intro h
    unfold Store.listing
    rw [h]
    rfl

/-- Method `FS.ReadDir` on the table, once the flush has gone through. -/
theorem ReadDir_storeDB (fs : FS) (name : String) (st : Store)
    (hflush : (FS.Flush storeDB fs st).1 = none) :
    (FS.ReadDir storeDB fs name st).1
      = if (FS.Flush storeDB fs st).2.2.inDir fs.container name = [] then
          (if (FS.Flush storeDB fs st).2.2.atPath fs.container name = [] then
            ([], some GoError.ErrNotFound)
           else ([], none))
        else ((FS.Flush storeDB fs st).2.2.listing fs.container name, none) := by
  unfold FS.ReadDir FS.readDirIterator
  rcases hF : FS.Flush storeDB fs st with ⟨e, fs1, s1⟩
  rw [hF] at hflush
  simp only at hflush
  subst hflush
  simp only [storeDB, Store.Query, drainIter, channelResults_dirRowValues, drainChannel_ok,
    List.nil_append, FS.exists]
  have hmap : List.map (fun e : dirEntry => [SqlValue.text e.name, SqlValue.bool e.isDir])
      (s1.listing fs.container name) = (s1.listing fs.container name).map dirRowValues := rfl
  rw [hmap, channelResults_dirRowValues, drainChannel_ok]
  by_cases hd : s1.inDir fs.container name = []
  · have hl := (listing_eq_nil s1 fs.container name).2 hd
    simp only [hd, hl, List.nil_append, List.length_nil, if_true]
    by_cases hp : s1.atPath fs.container name = []
    · simp [hp]
    · obtain ⟨r, rest, hr⟩ := List.exists_cons_of_ne_nil hp
      simp [hr]
  · have hl : s1.listing fs.container name ≠ [] :=
      fun h => hd ((listing_eq_nil s1 fs.container name).1 h)
    have hlen : (s1.listing fs.container name).length ≠ 0 :=
      fun h => hl (List.length_eq_zero.1 h)
    simp [hd, hlen]

/-- C6. `FS.ReadDir` distinguishes missing from empty: once the flush has succeeded
(the queries on the table always succeed), if no row of the container has dir = name then
`ReadDir(name)` fails with ErrNotFound when no row of the container has path = name, and
returns an empty sequence with a nil error when some row has; if some row has dir = name
it returns the entries of these rows (each (name, is_dir) pair once, none else) with a nil
error. -/
theorem ReadDir_missing_or_empty (fs : FS) (name : String) (st : Store)
    (hflush : (FS.Flush storeDB fs st).1 = none) :
    ((¬ ∃ r ∈ (FS.Flush storeDB fs st).2.2.rows, r.container = fs.container ∧ r.dir = name) →
      ((¬ ∃ r ∈ (FS.Flush storeDB fs st).2.2.rows, r.container = fs.container ∧ r.path = name) →
        (FS.ReadDir storeDB fs name st).1 = ([], some GoError.ErrNotFound))
      ∧ ((∃ r ∈ (FS.Flush storeDB fs st).2.2.rows, r.container = fs.container ∧ r.path = name) →
        (FS.ReadDir storeDB fs name st).1 = ([], none)))
    ∧ ((∃ r ∈ (FS.Flush storeDB fs st).2.2.rows, r.container = fs.container ∧ r.dir = name) →
      (FS.ReadDir storeDB fs name st).1.2 = none
      ∧ (FS.ReadDir storeDB fs name st).1.1 ≠ []
      ∧ (FS.ReadDir storeDB fs name st).1.1.Nodup
      ∧ ∀ e, e ∈ (FS.ReadDir storeDB fs name st).1.1
          ↔ ∃ r ∈ (FS.Flush storeDB fs st).2.2.rows,
              r.container = fs.container ∧ r.dir = name ∧ e = ⟨r.name, r.is_dir⟩) := by
  rw [ReadDir_storeDB fs name st hflush]
  have hdir : (FS.Flush storeDB fs st).2.2.inDir fs.container name = []
      ↔ ¬ ∃ r ∈ (FS.Flush storeDB fs st).2.2.rows, r.container = fs.container ∧ r.dir = name := by
    unfold Store.inDir
    rw [List.filter_eq_nil_iff]
    simp
  have hpath : (FS.Flush storeDB fs st).2.2.atPath fs.container name = []
      ↔ ¬ ∃ r ∈ (FS.Flush storeDB fs st).2.2.rows, r.container = fs.container ∧ r.path = name := by
    unfold Store.atPath
    rw [List.filter_eq_nil_iff]
    simp
  refine ⟨fun hnd => ?_, fun hd => ?_⟩
  · rw [if_pos (hdir.2 hnd)]
    exact ⟨fun hnp => by rw [if_pos (hpath.2 hnp)],
      fun hp => by rw [if_neg (fun h => hpath.1 h hp)]⟩
  · have hne : ¬ (FS.Flush storeDB fs st).2.2.inDir fs.container name = [] :=
      fun h => hdir.1 h hd
    rw [if_neg hne]
    refine ⟨rfl, fun h => hne ((listing_eq_nil _ _ _).1 h), ?_, fun e => mem_listing _ _ _ e⟩
    unfold Store.listing
    exact (List.perm_insertionSort _ _).nodup_iff.2 (List.nodup_dedup _)

/-- Witness of C6, on the table holding the file "d/f": "nope" is missing, "d/f" exists
and is empty, "d" lists "f". -/
theorem ReadDir_missing_or_empty_witness :
    (FS.Flush storeDB oneFile.2.1 oneFile.2.2).1 = none
    ∧ (FS.ReadDir storeDB oneFile.2.1 "nope" oneFile.2.2).1 = ([], some GoError.ErrNotFound)
    ∧ (FS.ReadDir storeDB oneFile.2.1 "d/f" oneFile.2.2).1 = ([], none)
    ∧ (FS.ReadDir storeDB oneFile.2.1 "d" oneFile.2.2).1 = ([⟨"f", false⟩], none)
    ∧ (FS.ReadDir storeDB oneFile.2.1 "" oneFile.2.2).1 = ([⟨"d", true⟩], none)
    ∧ (∀ e, e ∈ (FS.ReadDir storeDB oneFile.2.1 "d" oneFile.2.2).1.1
          ↔ ∃ r ∈ (FS.Flush storeDB oneFile.2.1 oneFile.2.2).2.2.rows,
              r.container = oneFile.2.1.container ∧ r.dir = "d" ∧ e = ⟨r.name, r.is_dir⟩) :=
  ⟨by decide, by decide, by decide, by decide, by decide,
    ((ReadDir_missing_or_empty oneFile.2.1 "d" oneFile.2.2 (by decide)).2
      ⟨⟨"c", "d/f", 1, "d", "f", false, some [1]⟩, by decide, by decide, by decide⟩).2.2.2⟩

/-! ## The effect of the compacted queue -/

theorem apply_files (s : PathStore) (item : bufferItem) (p : String) :
    (s.apply item).files p = fileStep p (s.files p) item := by
  unfold PathStore.apply fileStep
  rcases h : item.Action with _ | _ | _ <;> by_cases hp : p = item.Name <;>
    simp [hp, eq_comm]

theorem apply_dirs (s : PathStore) (item : bufferItem) (p : String) :
    (s.apply item).dirs p = dirStep p (s.dirs p) item := by
  unfold PathStore.apply dirStep
  rcases h : item.Action with _ | _ | _ <;> by_cases hp : p = item.Name <;>
    simp [hp, eq_comm]

theorem replay_files (X : List bufferItem) (s : PathStore) (p : String) :
    (replay X s).files p = X.foldl (fileStep p) (s.files p) := by
  unfold replay
  induction X generalizing s with
  | nil => rfl
  | cons x rest ih => simp only [List.foldl_cons, ih, apply_files]

theorem replay_dirs (X : List bufferItem) (s : PathStore) (p : String) :
    (replay X s).dirs p = X.foldl (dirStep p) (s.dirs p) := by
  unfold replay
  induction X generalizing s with
  | nil => rfl
  | cons x rest ih => simp only [List.foldl_cons, ih, apply_dirs]

theorem foldl_dirStep (p : String) (L : List bufferItem) (b : Bool) :
    L.foldl (dirStep p) b = (b || hasDir p L) := by
  induction L generalizing b with
  | nil => simp [hasDir]
  | cons x rest ih =>
    simp only [List.foldl_cons, ih, dirStep, hasDir, List.any_cons, Bool.or_assoc]

theorem payloadOf_eq_nil_of_filter (p : String) (L : List bufferItem)
    (h : L.filter (isInsertOf p) = []) : payloadOf p L = [] := by
  unfold payloadOf
  rw [h]
  rfl

theorem foldl_fileStep (p : String) (L : List bufferItem) (v : Option (List Byte)) :
    L.foldl (fileStep p) v = fileAfter p L v := by
  induction L generalizing v with
  | nil => simp [fileAfter, survivingInserts, afterLastDelete, hasDelete]
  | cons x rest ih =>
    rw [List.foldl_cons, ih]
    unfold fileAfter survivingInserts
    rw [afterLastDelete_cons]
    by_cases hd : hasDelete p rest
    · have hd2 : hasDelete p (x :: rest) := (hasDelete_cons p x rest).2 (Or.inr hd)
      simp only [hd, hd2, if_true]
    · rw [afterLastDelete_of_not_hasDelete p rest hd]
      simp only [hd, if_false]
      by_cases hx : isDeleteOf p x = true
      · have hx2 := hx
        simp only [isDeleteOf, decide_eq_true_eq] at hx2
        have hd2 : hasDelete p (x :: rest) := (hasDelete_cons p x rest).2 (Or.inl hx2)
        simp only [hx, hd2, if_true, fileStep, hx2.2, hx2.1]
      · have hx2 := hx
        simp only [isDeleteOf, decide_eq_true_eq] at hx2
        have hd2 : ¬ hasDelete p (x :: rest) := by
          rw [hasDelete_cons]
          exact fun h => h.elim hx2 hd
        simp only [hx, hd2, if_false, Bool.false_eq_true]
        by_cases hi : isInsertOf p x = true
        · have hi2 := hi
          simp only [isInsertOf, decide_eq_true_eq] at hi2
          rw [List.filter_cons, if_pos hi, payloadOf_cons, if_pos hi]
          simp only [fileStep, hi2.2, hi2.1, if_true, reduceCtorEq, if_false, Option.getD_some]
          by_cases hr : rest.filter (isInsertOf p) = []
          · simp [hr, payloadOf_eq_nil_of_filter p rest hr]
          · simp [hr]
        · rw [List.filter_cons, if_neg hi, payloadOf_cons, if_neg hi]
          have hstep : fileStep p v x = v := by
            unfold fileStep
            by_cases hn : x.Name = p
            · rw [if_pos hn]
              rcases ha : x.Action with _ | _ | _
              · exact absurd ⟨ha, hn⟩ hx2
              · exact absurd (by simp [isInsertOf, ha, hn]) hi
              · rfl
            · rw [if_neg hn]
          rw [hstep]

theorem WithAction_eq_filter (M : bufferItemSlice) (a : action) :
    bufferItemSlice.WithAction M a = M.filter fun x => decide (x.Action = a) := rfl

theorem hasDelete_withAction_delete (p : String) (M : List bufferItem) :
    hasDelete p (M.filter fun x => decide (x.Action = actionDeleteFile)) ↔ hasDelete p M := by
  unfold hasDelete
  constructor
  · rintro ⟨d, hd, h⟩
    exact ⟨d, (List.mem_filter.1 hd).1, h⟩
  · rintro ⟨d, hd, h⟩
    exact ⟨d, List.mem_filter.2 ⟨hd, by simp [h.1]⟩, h⟩

theorem not_hasDelete_of_action (p : String) (a : action) (ha : a ≠ actionDeleteFile)
    (M : List bufferItem) : ¬ hasDelete p (M.filter fun x => decide (x.Action = a)) := by
  rintro ⟨d, hd, h⟩
  have := (List.mem_filter.1 hd).2
  simp only [decide_eq_true_eq] at this
  exact ha (this.symm.trans h.1)

theorem filter_isInsertOf_of_action (p : String) (a : action) (ha : a ≠ actionInsertFile)
    (M : List bufferItem) :
    (M.filter fun x => decide (x.Action = a)).filter (isInsertOf p) = [] := by
  rw [List.filter_filter]
  apply List.filter_eq_nil_iff.2
  intro x _
  simp only [isInsertOf, Bool.and_eq_true, decide_eq_true_eq, not_and]
  rintro ⟨h1, _⟩ h2
  exact ha (h2.symm.trans h1)

theorem filter_isInsertOf_withAction (p : String) (M : List bufferItem) :
    (M.filter fun x => decide (x.Action = actionInsertFile)).filter (isInsertOf p)
      = M.filter (isInsertOf p) := by
  rw [List.filter_filter]
  apply List.filter_congr
  intro x _
  by_cases h : x.Action = actionInsertFile <;> simp [isInsertOf, h]

theorem hasDir_of_action (p : String) (a : action) (ha : a ≠ actionInsertDir)
    (M : List bufferItem) : hasDir p (M.filter fun x => decide (x.Action = a)) = false := by
  unfold hasDir
  rw [List.any_eq_false]
  intro x hx
  have := (List.mem_filter.1 hx).2
  simp only [decide_eq_true_eq] at this
  simp only [decide_eq_true_eq, not_and]
  intro h2
  exact absurd (this.symm.trans h2) ha

theorem hasDir_withAction (p : String) (M : List bufferItem) :
    hasDir p (M.filter fun x => decide (x.Action = actionInsertDir)) = hasDir p M := by
  unfold hasDir
  rw [List.any_filter]
  congr 1
  funext x
  by_cases h : x.Action = actionInsertDir <;> simp [h]

/-- The file at `p` and the mark of `p` after the three phases. -/
theorem applyPhases_files (M : bufferItemSlice) (s : PathStore) (p : String) :
    (applyPhases M s).files p
      = if M.filter (isInsertOf p) = [] then (if hasDelete p M then none else s.files p)
        else some ((if hasDelete p M then none else s.files p).getD [] ++ payloadOf p M) := by
  unfold applyPhases
  simp only [replay_files, foldl_fileStep, WithAction_eq_filter]
  have hI := not_hasDelete_of_action p actionInsertFile (by decide) M
  have hD := not_hasDelete_of_action p actionInsertDir (by decide) M
  unfold fileAfter survivingInserts
  rw [afterLastDelete_of_not_hasDelete p _ hI, afterLastDelete_of_not_hasDelete p _ hD]
  simp only [hI, hD, if_false, filter_isInsertOf_of_action p actionInsertDir (by decide) M,
    if_true, filter_isInsertOf_withAction]
  have hpay : payloadOf p (M.filter fun x => decide (x.Action = actionInsertFile))
      = payloadOf p M := by
    unfold payloadOf
    rw [filter_isInsertOf_withAction]
  rw [hpay]
  by_cases hdel : hasDelete p M
  · have h1 := (hasDelete_withAction_delete p M).2 hdel
    have h2 : (afterLastDelete p (M.filter fun x => decide (x.Action = actionDeleteFile))).filter
        (isInsertOf p) = [] := by
      apply List.filter_eq_nil_iff.2
      intro x hx
      have hx1 : x ∈ M.filter fun x => decide (x.Action = actionDeleteFile) := by
        unfold afterLastDelete at hx
        exact List.mem_reverse.1 ((List.takeWhile_sublist _).subset (List.mem_reverse.1 hx))
      have hx2 := (List.mem_filter.1 hx1).2
      simp only [decide_eq_true_eq] at hx2
      simp [isInsertOf, hx2]
    simp only [h1, h2, hdel, if_true]
  · have h1 : ¬ hasDelete p (M.filter fun x => decide (x.Action = actionDeleteFile)) :=
      fun h => hdel ((hasDelete_withAction_delete p M).1 h)
    rw [afterLastDelete_of_not_hasDelete p _ h1]
    simp only [h1, hdel, if_false,
      filter_isInsertOf_of_action p actionDeleteFile (by decide) M, if_true]

theorem applyPhases_dirs (M : bufferItemSlice) (s : PathStore) (p : String) :
    (applyPhases M s).dirs p = (s.dirs p || hasDir p M) := by
  unfold applyPhases
  simp only [replay_dirs, foldl_dirStep, WithAction_eq_filter,
    hasDir_of_action p actionInsertFile (by decide) M,
    hasDir_of_action p actionDeleteFile (by decide) M, hasDir_withAction, Bool.or_false]

theorem filter_nonInsert_joinInserts (L : List bufferItem) :
    (joinInserts L).filter nonInsert = L.filter nonInsert := by
  induction L using joinInserts.induct with
  | case1 => simp [joinInserts]
  | case2 x rest h ih =>
    rw [joinInserts, if_pos h]
    have hx : nonInsert x = false := by simp [nonInsert, h]
    have hx2 : nonInsert
        { x with FileContents := x.FileContents ++ payloadOf x.Name rest } = false := hx
    rw [List.filter_cons, hx2, List.filter_cons, hx, ih, List.filter_filter]
    simp only [Bool.false_eq_true, if_false]
    apply List.filter_congr
    intro y _
    by_cases hy : y.Action = actionInsertFile <;> simp [nonInsert, isInsertOf, hy]
  | case3 x rest h ih =>
    rw [joinInserts, if_neg h, List.filter_cons, List.filter_cons, ih]

theorem hasDelete_filter_nonInsert (p : String) (L : List bufferItem) :
    hasDelete p (L.filter nonInsert) ↔ hasDelete p L := by
  unfold hasDelete
  constructor
  · rintro ⟨d, hd, h⟩
    exact ⟨d, (List.mem_filter.1 hd).1, h⟩
  · rintro ⟨d, hd, h⟩
    exact ⟨d, List.mem_filter.2 ⟨hd, by simp [nonInsert, h.1]⟩, h⟩

theorem hasDir_filter_nonInsert (p : String) (L : List bufferItem) :
    hasDir p (L.filter nonInsert) = hasDir p L := by
  unfold hasDir
  rw [List.any_filter]
  congr 1
  funext x
  by_cases h : x.Action = actionInsertDir <;> simp [nonInsert, h]

theorem hasDelete_joinInserts (p : String) (L : List bufferItem) :
    hasDelete p (joinInserts L) ↔ hasDelete p L := by
  rw [← hasDelete_filter_nonInsert, filter_nonInsert_joinInserts, hasDelete_filter_nonInsert]

theorem hasDir_joinInserts (p : String) (L : List bufferItem) :
    hasDir p (joinInserts L) = hasDir p L := by
  rw [← hasDir_filter_nonInsert, filter_nonInsert_joinInserts, hasDir_filter_nonInsert]

theorem hasDir_cons (p : String) (x : bufferItem) (L : List bufferItem) :
    hasDir p (x :: L) = (decide (x.Action = actionInsertDir ∧ x.Name = p) || hasDir p L) := by
  simp [hasDir]

theorem hasDir_dropOverridden (p : String) (L : List bufferItem) :
    hasDir p (dropOverridden L) = hasDir p L := by
  induction L with
  | nil => rfl
  | cons x rest ih =>
    simp only [dropOverridden]
    split_ifs with h
    · rw [ih, hasDir_cons]
      have : ¬ (x.Action = actionInsertDir ∧ x.Name = p) := by
        rintro ⟨ha, _⟩
        rcases h.1 with h1 | h1 <;> rw [ha] at h1 <;> cases h1
      simp [this]
    · rw [hasDir_cons, hasDir_cons, ih]

theorem hasDir_dropDupDirs (p : String) (seen : List String) (L : List bufferItem)
    (hp : p ∉ seen) : hasDir p (dropDupDirs seen L) = hasDir p L := by
  induction L generalizing seen with
  | nil => rfl
  | cons x rest ih =>
    simp only [dropDupDirs]
    split_ifs with h1 h2
    · rw [ih seen hp, hasDir_cons]
      have : ¬ (x.Action = actionInsertDir ∧ x.Name = p) := by
        rintro ⟨_, hn⟩
        exact hp (hn ▸ h2)
      simp [this]
    · rw [hasDir_cons, hasDir_cons]
      by_cases hn : x.Name = p
      · simp [h1, hn]
      · rw [ih (x.Name :: seen) (by
          intro hmem
          rcases List.mem_cons.1 hmem with h | h
          · exact hn h.symm
          · exact hp h)]
    · rw [hasDir_cons, hasDir_cons, ih seen hp]

theorem hasDelete_mergeBufferItems (p : String) (X : bufferItemSlice) :
    hasDelete p (mergeBufferItems X) ↔ hasDelete p X := by
  rw [mergeBufferItems_eq, hasDelete_joinInserts, hasDelete_dropOverridden,
    hasDelete_dropDupDirs]

theorem hasDir_mergeBufferItems (p : String) (X : bufferItemSlice) :
    hasDir p (mergeBufferItems X) = hasDir p X := by
  rw [mergeBufferItems_eq, hasDir_joinInserts, hasDir_dropOverridden,
    hasDir_dropDupDirs p [] _ (by simp)]

theorem filter_isInsertOf_mergeBufferItems (p : String) (X : bufferItemSlice) :
    (mergeBufferItems X).filter (isInsertOf p)
      = if survivingInserts p X = [] then []
        else [⟨p, actionInsertFile,
               ((survivingInserts p X).map bufferItem.FileContents).flatten⟩] := by
  rw [mergeBufferItems_eq, filter_isInsertOf_joinInserts, payloadOf_dropOverridden_dropDupDirs,
    filter_isInsertOf_dropOverridden, insertsKept_dropDupDirs, insertsKept_eq_survivingInserts]

/-- C5. Compaction preserves the effect of the queue: on the store of paths with optional
file content and a set of directory-marked paths, applying `mergeBufferItems(X)` in the
phase order of the flush (deletes, then insert-dirs, then insert-files) gives the same
store as replaying `X` one item at a time in its original order, for every `X` and every
store. -/
theorem compaction_preserves_effect (X : bufferItemSlice) (s : PathStore) :
    applyPhases (mergeBufferItems X) s = replay X s := by
  have hf : (applyPhases (mergeBufferItems X) s).files = (replay X s).files := by
    funext p
    rw [applyPhases_files, replay_files, foldl_fileStep]
    unfold fileAfter
    have hpay : payloadOf p (mergeBufferItems X)
        = (((mergeBufferItems X).filter (isInsertOf p)).map bufferItem.FileContents).flatten :=
      rfl
    have hpay2 : payloadOf p (afterLastDelete p X)
        = ((survivingInserts p X).map bufferItem.FileContents).flatten := rfl
    rw [hpay, hpay2, filter_isInsertOf_mergeBufferItems]
    by_cases hS : survivingInserts p X = []
    · simp only [hS, if_true]
      by_cases hd : hasDelete p X
      · rw [if_pos ((hasDelete_mergeBufferItems p X).2 hd), if_pos hd]
      · rw [if_neg (fun h => hd ((hasDelete_mergeBufferItems p X).1 h)), if_neg hd]
    · simp only [hS, if_false, reduceCtorEq, List.map_cons, List.map_nil, List.flatten_cons,
        List.flatten_nil, List.append_nil]
      by_cases hd : hasDelete p X
      · rw [if_pos ((hasDelete_mergeBufferItems p X).2 hd), if_pos hd]
      · rw [if_neg (fun h => hd ((hasDelete_mergeBufferItems p X).1 h)), if_neg hd]
  have hd : (applyPhases (mergeBufferItems X) s).dirs = (replay X s).dirs := by
    funext p
    rw [applyPhases_dirs, replay_dirs, foldl_dirStep, hasDir_mergeBufferItems]
  rcases h1 : applyPhases (mergeBufferItems X) s with ⟨f1, d1⟩
  rcases h2 : replay X s with ⟨f2, d2⟩
  rw [h1, h2] at hf hd
  simp only at hf hd
  rw [hf, hd]

/-! ## The error of a failed flush -/

/-- C11 fails on the code for the delete phase: when the delete statement fails with the
backend error "down", the forced `Flush` returns that bare error, with no phase context;
the directory and file phases wrap the same backend error with "error inserting dir rows"
and "error inserting file rows". -/
theorem Flush_delete_error_is_bare :
    (buffer.Flush (failOn Stmt.isDeleteNames) nestedBuf true ()).1
        = some (GoError.backend "down")
      ∧ (buffer.Flush (failOn Stmt.isInsertDirs) nestedBuf true ()).1
        = some (GoError.errorf "error inserting dir rows" (GoError.backend "down"))
      ∧ (buffer.Flush (failOn Stmt.isInsertFiles) nestedBuf true ()).1
        = some (GoError.errorf "error inserting file rows" (GoError.backend "down")) := by
  decide

/-! ## The size of the queue across compaction -/

/-- C20. Compaction never grows the size of the queue: the size of `mergeBufferItems(X)`
(the sum of len(name) + len(payload) over its items) is at most the size of `X`, so a
queue at or below a capacity before merging is at or below it afterwards. -/
theorem size_mergeBufferItems_le :
    (∀ X : bufferItemSlice, itemsSize (mergeBufferItems X) ≤ itemsSize X)
      ∧ (∀ buf : buffer,
          ({ buf with items := mergeBufferItems buf.items } : buffer).size ≤ buf.size)
      ∧ (∀ (buf : buffer) (c : Int), (buf.size : Int) ≤ c →
          ((({ buf with items := mergeBufferItems buf.items } : buffer).size : Nat) : Int) ≤ c) := by
  refine ⟨itemsSize_mergeBufferItems_le, fun buf => itemsSize_mergeBufferItems_le buf.items,
    fun buf c h => ?_⟩
  have h1 : ({ buf with items := mergeBufferItems buf.items } : buffer).size ≤ buf.size :=
    itemsSize_mergeBufferItems_le buf.items
  have h2 : ((({ buf with items := mergeBufferItems buf.items } : buffer).size : Nat) : Int)
      ≤ (buf.size : Int) := Int.ofNat_le.2 h1
  exact le_trans h2 h

/-- Witness of C20: the queue of two `Create`s, size 12, against the bound 12. -/
theorem size_mergeBufferItems_le_witness :
    (twiceBuf.size : Int) ≤ 12
      ∧ ((({ twiceBuf with items := mergeBufferItems twiceBuf.items } : buffer).size : Nat) : Int)
          ≤ 12 :=
  ⟨by decide, size_mergeBufferItems_le.2.2 twiceBuf 12 (by decide)⟩

/-! ## The rows that the delete statement removes -/

/-- C18 fails on the code: after `Create("x/A")`, flushed, the table holds the file row
of path "x/A"; flushing a `Create` of the different path "A" passes the delete statement
with the value "A", which is compared with the column `name` and removes the row of
"x/A" (its leaf name is "A"), so `Open("x/A")` fails with ErrNotFound afterwards. -/
theorem Flush_delete_removes_other_path :
    afterFirstCreate.1 = none
      ∧ (⟨"c", "x/A", 1, "x", "A", false, some [1]⟩ : Row) ∈ afterFirstCreate.2.2.rows
      ∧ afterSiblingCreate.1 = none
      ∧ (({ afterFirstCreate.2.1.buffer.Create "A" [2] with
            items := mergeBufferItems (afterFirstCreate.2.1.buffer.Create "A" [2]).items }
            : buffer).deleteStmt = some (Stmt.deleteNames "file" "c" ["A"]))
      ∧ (∀ r ∈ afterSiblingCreate.2.2.rows, r.path ≠ "x/A")
      ∧ (FS.Open storeDB afterSiblingCreate.2.1 "x/A" afterSiblingCreate.2.2).1
          = Except.error GoError.ErrNotFound
      ∧ (FS.Open storeDB afterSiblingCreate.2.1 "A" afterSiblingCreate.2.2).1
          = Except.ok (File.sqlFile "A" [2]) := by
  decide

/-! ## The order of the statements -/

/-- The delete statement, when there is one, carries at least one value. -/
theorem deleteStmt_some (buf : buffer) (st : Stmt) (h : buf.deleteStmt = some st) :
    ∃ names, names ≠ [] ∧ st = Stmt.deleteNames buf.table buf.container names := by
  unfold buffer.deleteStmt at h
  simp only at h
  split_ifs at h with hl
  cases h
  refine ⟨_, ?_, rfl⟩
  intro hn
  rw [List.map_eq_nil_iff] at hn
  rw [hn] at hl
  simp at hl

/-- The directory-insert statement, when there is one, carries at least one row. -/
theorem insertDirsStmt_some (buf : buffer) (st : Stmt) (h : buf.insertDirsStmt = some st) :
    ∃ rows, rows ≠ [] ∧ st = Stmt.insertDirs buf.table buf.container rows := by
  unfold buffer.insertDirsStmt at h
  simp only at h
  split_ifs at h with hl hr
  cases h
  refine ⟨_, ?_, rfl⟩
  intro hn
  rw [hn] at hr
  simp at hr

/-- The file-insert statement, when there is one, carries at least one row. -/
theorem insertFilesStmt_some (buf : buffer) (st : Stmt) (h : buf.insertFilesStmt = some st) :
    ∃ rows, rows ≠ [] ∧ st = Stmt.insertFiles buf.table buf.container rows := by
  unfold buffer.insertFilesStmt at h
  simp only at h
  split_ifs at h with hl
  cases h
  refine ⟨_, ?_, rfl⟩
  intro hn
  rw [List.map_eq_nil_iff] at hn
  rw [hn] at hl
  simp at hl

/-- The statements in the log of the three phases are an initial part of the delete,
directory-insert and file-insert statements of the buffer, in this order, and every
statement but the last one in the log succeeded. -/
theorem writePhases_traced_order {σ : Type} (db : DB σ) (buf : buffer) (s : σ) :
    (buffer.writePhases (traced db) buf (s, [])).2.2.2.map Prod.fst
        <+: [buf.deleteStmt, buf.insertDirsStmt, buf.insertFilesStmt].reduceOption
      ∧ ∀ e ∈ (buffer.writePhases (traced db) buf (s, [])).2.2.2.dropLast, e.2 = none := by
  unfold buffer.writePhases
  rcases buf.deleteStmt with _ | d
  · rcases buf.insertDirsStmt with _ | i
    · rcases buf.insertFilesStmt with _ | f
      · simp [execPhase]
      · rcases hf : (db.Exec s f).2 with _ | ef <;> simp [execPhase, traced, hf]
    · rcases hi : (db.Exec s i).2 with _ | ei
      · rcases buf.insertFilesStmt with _ | f
        · simp [execPhase, traced, hi]
        · rcases hf : (db.Exec (db.Exec s i).1 f).2 with _ | ef <;>
            simp [execPhase, traced, hi, hf]
      · rcases buf.insertFilesStmt with _ | f <;> simp [execPhase, traced, hi]
  · rcases hd : (db.Exec s d).2 with _ | ed
    · rcases buf.insertDirsStmt with _ | i
      · rcases buf.insertFilesStmt with _ | f
        · simp [execPhase, traced, hd]
        · rcases hf : (db.Exec (db.Exec s d).1 f).2 with _ | ef <;>
            simp [execPhase, traced, hd, hf]
      · rcases hi : (db.Exec (db.Exec s d).1 i).2 with _ | ei
        · rcases buf.insertFilesStmt with _ | f
          · simp [execPhase, traced, hd, hi]
          · rcases hf : (db.Exec (db.Exec (db.Exec s d).1 i).1 f).2 with _ | ef <;>
              simp [execPhase, traced, hd, hi, hf]
        · rcases buf.insertFilesStmt with _ | f <;> simp [execPhase, traced, hd, hi]
    · rcases buf.insertDirsStmt with _ | i <;> rcases buf.insertFilesStmt with _ | f <;>
        simp [execPhase, traced, hd]

/-- C16. Flush phase order: a flush that reaches the write protocol passes its statements
to the database in the order delete, directory insert, file insert: the log is an initial
part of these three statements of the compacted queue, each of which exists only with at
least one value or row to carry, so each is issued at most once; every statement but the
last one issued succeeded, so no statement is issued after a failed one; and when none
fails, all of them are issued. -/
theorem Flush_phase_order {σ : Type} (db : DB σ) (buf : buffer) (force : Bool) (s : σ)
    (hreach : ({ buf with items := mergeBufferItems buf.items } : buffer).doFlush force = true) :
    (∀ st, ({ buf with items := mergeBufferItems buf.items } : buffer).deleteStmt = some st →
        ∃ names, names ≠ [] ∧ st = Stmt.deleteNames buf.table buf.container names)
      ∧ (∀ st, ({ buf with items := mergeBufferItems buf.items } : buffer).insertDirsStmt = some st →
        ∃ rows, rows ≠ [] ∧ st = Stmt.insertDirs buf.table buf.container rows)
      ∧ (∀ st, ({ buf with items := mergeBufferItems buf.items } : buffer).insertFilesStmt = some st →
        ∃ rows, rows ≠ [] ∧ st = Stmt.insertFiles buf.table buf.container rows)
      ∧ (buffer.Flush (traced db) buf force (s, [])).2.2.2.map Prod.fst
          <+: [({ buf with items := mergeBufferItems buf.items } : buffer).deleteStmt,
               ({ buf with items := mergeBufferItems buf.items } : buffer).insertDirsStmt,
               ({ buf with items := mergeBufferItems buf.items } : buffer).insertFilesStmt
              ].reduceOption
      ∧ (∀ e ∈ (buffer.Flush (traced db) buf force (s, [])).2.2.2.dropLast, e.2 = none)
      ∧ ((∀ e ∈ (buffer.Flush (traced db) buf force (s, [])).2.2.2, e.2 = none) →
          (buffer.Flush (traced db) buf force (s, [])).2.2.2.map Prod.fst
            = [({ buf with items := mergeBufferItems buf.items } : buffer).deleteStmt,
               ({ buf with items := mergeBufferItems buf.items } : buffer).insertDirsStmt,
               ({ buf with items := mergeBufferItems buf.items } : buffer).insertFilesStmt
              ].reduceOption) := by
  rw [Flush_eq_writePhases (traced db) buf force (s, []) hreach]
  have ho := writePhases_traced_order db { buf with items := mergeBufferItems buf.items } s
  refine ⟨fun st h => deleteStmt_some { buf with items := mergeBufferItems buf.items } st h,
    fun st h => insertDirsStmt_some { buf with items := mergeBufferItems buf.items } st h,
    fun st h => insertFilesStmt_some { buf with items := mergeBufferItems buf.items } st h,
    ho.1, ho.2, fun hall => ?_⟩
  rcases (writePhases_traced db { buf with items := mergeBufferItems buf.items } s).2 with
    ⟨_, _, _, h4⟩ | ⟨_, _, e, he, hne⟩
  · exact h4
  · exact absurd (hall e he) hne

/-- Witness of C16: the forced flush of one `Create` of "d/f" on a database that rejects
the directory-insert statement: the delete and the directory insert are issued, in this
order, and the file insert is not. -/
theorem Flush_phase_order_witness :
    ({ nestedBuf with items := mergeBufferItems nestedBuf.items } : buffer).doFlush true = true
      ∧ (buffer.Flush (traced (failOn Stmt.isInsertDirs)) nestedBuf true ((), [])).2.2.2
          = [(Stmt.deleteNames "file" "container1" ["d/f"], none),
             (Stmt.insertDirs "file" "container1" [⟨"d", "", "d"⟩],
               some (GoError.backend "down"))]
      ∧ (buffer.Flush (traced (failOn Stmt.isInsertDirs)) nestedBuf true ((), [])).2.2.2.map
            Prod.fst
          <+: [({ nestedBuf with items := mergeBufferItems nestedBuf.items } : buffer).deleteStmt,
               ({ nestedBuf with items := mergeBufferItems nestedBuf.items } : buffer).insertDirsStmt,
               ({ nestedBuf with items := mergeBufferItems nestedBuf.items } : buffer).insertFilesStmt
              ].reduceOption :=
  ⟨by decide, by decide,
    (Flush_phase_order (failOn Stmt.isInsertDirs) nestedBuf true () (by decide)).2.2.2.1⟩

/-! ## splitPath -/

theorem pathSplitChars_cons (c : Char) (cs : List Char) :
    pathSplitChars (c :: cs)
      = if (pathSplitChars cs).1 = [] then
          (if c = '/' then ([c], (pathSplitChars cs).2) else ([], c :: (pathSplitChars cs).2))
        else (c :: (pathSplitChars cs).1, (pathSplitChars cs).2) := by
  rw [pathSplitChars]
  rcases h : pathSplitChars cs with ⟨d, file⟩
  cases d <;> simp

theorem pathSplitChars_append (cs : List Char) :
    (pathSplitChars cs).1 ++ (pathSplitChars cs).2 = cs := by
  induction cs with
  | nil => rfl
  | cons c cs ih =>
    rw [pathSplitChars_cons]
    by_cases h : (pathSplitChars cs).1 = []
    · rw [h] at ih
      simp only [List.nil_append] at ih
      by_cases hc : c = '/' <;> simp [h, hc, ih]
    · simp [h, ih]

theorem pathSplitChars_snd_no_slash (cs : List Char) : '/' ∉ (pathSplitChars cs).2 := by
  induction cs with
  | nil => simp [pathSplitChars]
  | cons c cs ih =>
    rw [pathSplitChars_cons]
    by_cases h : (pathSplitChars cs).1 = []
    · by_cases hc : c = '/'
      · simp [h, hc, ih]
      · simp only [h, hc, if_true, if_false, List.mem_cons, not_or]
        exact ⟨fun hh => hc hh.symm, ih⟩
    · simp [h, ih]

theorem pathSplitChars_of_no_slash (cs : List Char) (h : '/' ∉ cs) :
    pathSplitChars cs = ([], cs) := by
  induction cs with
  | nil => rfl
  | cons c cs ih =>
    simp only [List.mem_cons, not_or] at h
    rw [pathSplitChars_cons, ih h.2]
    have hc : ¬ c = '/' := fun hh => h.1 hh.symm
    simp [hc]

theorem pathSplitChars_fst_of_slash (cs : List Char) (h : '/' ∈ cs) :
    ∃ d, (pathSplitChars cs).1 = d ++ ['/'] := by
  induction cs with
  | nil => simp at h
  | cons c cs ih =>
    rw [pathSplitChars_cons]
    by_cases h1 : (pathSplitChars cs).1 = []
    · have hno : '/' ∉ cs := by
        intro hin
        obtain ⟨d, hd⟩ := ih hin
        rw [hd] at h1
        simp at h1
      have hc : c = '/' := by
        rcases List.mem_cons.1 h with hh | hh
        · exact hh.symm
        · exact absurd hh hno
      exact ⟨[], by simp [h1, hc]⟩
    · have hin : '/' ∈ cs := by
        by_contra hno
        rw [pathSplitChars_of_no_slash cs hno] at h1
        exact h1 rfl
      obtain ⟨d, hd⟩ := ih hin
      exact ⟨c :: d, by simp [h1, hd]⟩

/-- C19. `splitPath` splits at the last slash and loses nothing: a name without '/' gives
("", name); otherwise it gives (dir, file) where file contains no '/' and
dir + "/" + file = name. -/
theorem splitPath_splits_at_last_slash (name : String) :
    ('/' ∉ name.data → splitPath name = ("", name))
      ∧ ('/' ∈ name.data →
          '/' ∉ (splitPath name).2.data
          ∧ (splitPath name).1 ++ "/" ++ (splitPath name).2 = name) := by
  constructor
  · intro h
    unfold splitPath path.Split
    simp only [pathSplitChars_of_no_slash name.data h]
    simp
  · intro h
    obtain ⟨d, hd⟩ := pathSplitChars_fst_of_slash name.data h
    have happ := pathSplitChars_append name.data
    have hno := pathSplitChars_snd_no_slash name.data
    unfold splitPath path.Split
    simp only [hd, List.length_append, List.length_singleton]
    rw [if_pos (by omega)]
    refine ⟨hno, ?_⟩
    apply String.ext
    simp only [String.data_append, List.dropLast_concat]
    rw [hd] at happ
    exact happ

/-- Witness of C19 on "abc" and on "a/b/c". -/
theorem splitPath_splits_at_last_slash_witness :
    '/' ∉ ("abc" : String).data ∧ splitPath "abc" = ("", "abc")
      ∧ '/' ∈ ("a/b/c" : String).data
      ∧ splitPath "a/b/c" = ("a/b", "c")
      ∧ '/' ∉ (splitPath "a/b/c").2.data
      ∧ (splitPath "a/b/c").1 ++ "/" ++ (splitPath "a/b/c").2 = "a/b/c" :=
  ⟨by decide, (splitPath_splits_at_last_slash "abc").1 (by decide), by decide, by decide,
    ((splitPath_splits_at_last_slash "a/b/c").2 (by decide)).1,
    ((splitPath_splits_at_last_slash "a/b/c").2 (by decide)).2⟩

/-! ## The directory rows of a path -/

theorem splitChars_of_no_sep (sep : Char) (w : List Char) (h : sep ∉ w) :
    splitChars sep w = [w] := by
  induction w with
  | nil => rfl
  | cons c w ih =>
    simp only [List.mem_cons, not_or] at h
    have hc : ¬ c = sep := fun hh => h.1 hh.symm
    simp [splitChars, hc, ih h.2]

theorem splitChars_append_sep (sep : Char) (w rest : List Char) (h : sep ∉ w) :
    splitChars sep (w ++ sep :: rest) = w :: splitChars sep rest := by
  induction w with
  | nil => simp [splitChars]
  | cons c w ih =>
    simp only [List.mem_cons, not_or] at h
    have hc : ¬ c = sep := fun hh => h.1 hh.symm
    simp [splitChars, hc, ih h.2]

theorem splitChars_joinChars (ws : List (List Char)) (hne : ws ≠ [])
    (h : ∀ w ∈ ws, '/' ∉ w) : splitChars '/' (joinChars ws) = ws := by
  induction ws with
  | nil => exact absurd rfl hne
  | cons w rest ih =>
    cases rest with
    | nil => exact splitChars_of_no_sep '/' w (h w (List.mem_cons_self _ _))
    | cons v rest2 =>
      rw [joinChars, splitChars_append_sep '/' w _ (h w (List.mem_cons_self _ _)),
        ih (by simp) (fun u hu => h u (List.mem_cons_of_mem _ hu))]

theorem data_intercalate_go (acc s : String) (l : List String) :
    (String.intercalate.go acc s l).data
      = acc.data ++ (l.map fun a => s.data ++ a.data).flatten := by
  induction l generalizing acc with
  | nil => simp [String.intercalate.go]
  | cons a rest ih =>
    simp [String.intercalate.go, ih, List.append_assoc]

theorem data_Join (segs : List String) :
    (strings.Join segs "/").data = joinChars (segs.map String.data) := by
  unfold strings.Join
  cases segs with
  | nil => rfl
  | cons a rest =>
    rw [String.intercalate, data_intercalate_go]
    induction rest generalizing a with
    | nil => simp [joinChars]
    | cons b rest2 ih =>
      have hb := ih b
      simp only [List.map_cons, List.flatten_cons, joinChars] at hb ⊢
      rw [← hb]
      rfl

/-- Splitting what `strings.Join` joined, for segments without '/'. -/
theorem Split_Join (segs : List String) (hne : segs ≠ [])
    (h : ∀ w ∈ segs, '/' ∉ w.data) :
    strings.Split (strings.Join segs "/") '/' = segs := by
  unfold strings.Split
  rw [data_Join, splitChars_joinChars _ (by simpa using hne)]
  · rw [List.map_map]
    have : (String.mk ∘ String.data) = id := by
      funext w
      rfl
    rw [this, List.map_id]
  · intro w hw
    obtain ⟨u, hu, rfl⟩ := List.mem_map.1 hw
    exact h u hu

/-- The directory-insert statement carries the rows of the insert-dir items of the
queue, item after item. -/
theorem insertDirsStmt_rows (buf : buffer) (t c : String) (rows : List DirRow)
    (h : buf.insertDirsStmt = some (Stmt.insertDirs t c rows)) :
    rows = ((bufferItemSlice.WithAction buf.items actionInsertDir).map
      fun item => dirRowsOf item.Name).flatten := by
  unfold buffer.insertDirsStmt at h
  simp only at h
  split_ifs at h
  cases h
  rfl

/-- C17, as stated, fails: for the insert-dir item on "a/b/c" (three segments) the
directory-insert phase builds two rows, with the paths "a" and "a/b"; there is no row
with the path "a/b/c". -/
theorem dirRowsOf_three_segments :
    dirRowsOf "a/b/c" = [⟨"a", "", "a"⟩, ⟨"a/b", "a", "b"⟩]
      ∧ (dirRowsOf "a/b/c").length = 2
      ∧ (∀ r ∈ dirRowsOf "a/b/c", r.path ≠ "a/b/c")
      ∧ (⟨"file", "c", [dir "a/b/c"], 0⟩ : buffer).insertDirsStmt
          = some (Stmt.insertDirs "file" "c" [⟨"a", "", "a"⟩, ⟨"a/b", "a", "b"⟩]) := by
  decide

/-- C17, amended. For every insert-dir item of the queue whose path P has k segments
separated by '/', the directory-insert phase builds one row per proper ancestor level of
P: k - 1 rows, the i-th with the path of the first i segments joined by '/', the parent
of the first i - 1 segments and the name of the i-th segment, for i = 1 .. k - 1; the
statement carries these rows item after item. -/
theorem dirRowsOf_ancestors (segs : List String) (hne : segs ≠ [])
    (h : ∀ w ∈ segs, '/' ∉ w.data) :
    dirRowsOf (strings.Join segs "/")
        = (List.range (segs.length - 1)).map (fun i =>
            (⟨strings.Join (segs.take (i + 1)) "/", strings.Join (segs.take i) "/",
              segs.getD i ""⟩ : DirRow))
      ∧ (dirRowsOf (strings.Join segs "/")).length = segs.length - 1
      ∧ (dirRowsOf (strings.Join segs "/")).map DirRow.path
          = (List.range (segs.length - 1)).map (fun i => strings.Join (segs.take (i + 1)) "/")
      ∧ ∀ (buf : buffer) (t c : String) (rows : List DirRow),
          buf.insertDirsStmt = some (Stmt.insertDirs t c rows) →
          rows = ((bufferItemSlice.WithAction buf.items actionInsertDir).map
            fun item => dirRowsOf item.Name).flatten := by
  have h1 : dirRowsOf (strings.Join segs "/")
        = (List.range (segs.length - 1)).map (fun i =>
            (⟨strings.Join (segs.take (i + 1)) "/", strings.Join (segs.take i) "/",
              segs.getD i ""⟩ : DirRow)) := by
    unfold dirRowsOf
    simp only [Split_Join segs hne h]
  refine ⟨h1, ?_, ?_, insertDirsStmt_rows⟩
  · rw [h1]; simp
  · rw [h1, List.map_map]; rfl

/-- Witness of C17 amended on the segments a, b, c. -/
theorem dirRowsOf_ancestors_witness :
    (["a", "b", "c"] : List String) ≠ []
      ∧ (∀ w ∈ (["a", "b", "c"] : List String), '/' ∉ w.data)
      ∧ (dirRowsOf (strings.Join ["a", "b", "c"] "/")).map DirRow.path
          = (List.range ((["a", "b", "c"] : List String).length - 1)).map
              (fun i => strings.Join ((["a", "b", "c"] : List String).take (i + 1)) "/")
      ∧ (dirRowsOf (strings.Join ["a", "b", "c"] "/")).map DirRow.path = ["a", "a/b"] :=
  ⟨by decide, by decide,
    (dirRowsOf_ancestors ["a", "b", "c"] (by decide) (by decide)).2.2.1, by decide⟩

/-! ## Paginated directory reads -/

theorem readN_receiving (k i : Nat) (L acc : List dirEntry) :
    readN k i (DirIter.receiving (L.map Except.ok)) acc
      = if L = [] ∧ 0 < k ∧ i = 0 then (([], some GoError.EOF), DirIter.receiving [])
        else ((acc ++ L.take k, none), DirIter.receiving ((L.drop k).map Except.ok)) := by
  induction k generalizing i L acc with
  | zero => simp [readN]
  | succ k ih =>
    cases L with
    | nil =>
      by_cases hi : i = 0 <;> simp [readN, DirIter.next, hi]
    | cons e rest =>
      simp only [List.map_cons, readN, DirIter.next, ih]
      simp

theorem readAllReceiving_ok (acc L : List dirEntry) :
    readAllReceiving acc (L.map Except.ok) = ((acc ++ L, none), DirIter.receiving []) := by
  induction L generalizing acc with
  | nil => simp [readAllReceiving]
  | cons e rest ih => simp [readAllReceiving, ih]

/-- One `ReadDir(n)`, `n > 0`, on a handle that will yield `L`. -/
theorem ReadDir_page {σ : Type} (db : DB σ) (fs : FS) (s : σ) (name : String)
    (L : List dirEntry) (n : Int) (hn : 0 < n) :
    sqlDir.ReadDir db fs (handleYielding name L) n s
      = (if L = [] then ([], some GoError.EOF) else (L.take n.toNat, none),
          handleYielding name (L.drop n.toNat), fs, s) := by
  have hk : 0 < n.toNat := by omega
  unfold sqlDir.ReadDir handleYielding
  simp only [if_neg (not_lt.2 (le_of_lt hn)), readN_receiving]
  by_cases hL : L = []
  · subst hL
    simp [hk]
  · simp [hL]

theorem readPages_yielding {σ : Type} (db : DB σ) (n : Int) (hn : 0 < n) (fuel : Nat)
    (fs : FS) (s : σ) (name : String) (L : List dirEntry) (hf : L.length < fuel) :
    (readPages db n fuel fs (handleYielding name L) s).2 = some GoError.EOF
      ∧ (readPages db n fuel fs (handleYielding name L) s).1.flatten = L
      ∧ ∀ p ∈ (readPages db n fuel fs (handleYielding name L) s).1,
          p ≠ [] ∧ (p.length : Int) ≤ n := by
  induction fuel generalizing L with
  | zero => omega
  | succ k ih =>
    rw [readPages, ReadDir_page db fs s name L n hn]
    by_cases hL : L = []
    · subst hL
      simp
    · simp only [hL, if_false]
      have hk : 0 < n.toNat := by omega
      have hlen : 0 < L.length := List.length_pos.2 hL
      have hdrop : (L.drop n.toNat).length < k := by
        rw [List.length_drop]
        omega
      obtain ⟨h1, h2, h3⟩ := ih (L.drop n.toNat) hdrop
      refine ⟨h1, ?_, ?_⟩
      · simp only [List.flatten_cons, h2, List.take_append_drop]
      · intro p hp
        rcases List.mem_cons.1 hp with rfl | hp
        · constructor
          · intro hnil
            rw [List.take_eq_nil_iff] at hnil
            rcases hnil with h0 | h0
            · omega
            · exact hL h0
          · have : (L.take n.toNat).length ≤ n.toNat := List.length_take_le _ _
            omega
        · exact h3 p hp

/-- C12. Paginated directory reads partition the listing. On a handle whose iterator will
yield the entries `L` without error, `ReadDir(n)` with `n > 0` returns (nil, io.EOF)
exactly when no entry remains and otherwise the next min(n, remaining) entries with a nil
error, leaving the rest for the next call; so the pages of repeated `ReadDir(n)` calls up
to the first EOF are non-empty, of length at most `n`, and concatenate to `L`; and
`ReadDir(-1)` on a fresh handle whose iterator will yield `L` returns `L`. -/
theorem ReadDir_pages_partition {σ : Type} (db : DB σ) (fs : FS) (s : σ) (name : String)
    (L : List dirEntry) (n : Int) (hn : 0 < n) :
    sqlDir.ReadDir db fs (handleYielding name L) n s
        = (if L = [] then ([], some GoError.EOF) else (L.take n.toNat, none),
            handleYielding name (L.drop n.toNat), fs, s)
      ∧ ((sqlDir.ReadDir db fs (handleYielding name L) n s).1 = ([], some GoError.EOF)
          ↔ L = [])
      ∧ (L ≠ [] → (L.take n.toNat).length = min n.toNat L.length)
      ∧ (∀ fuel, L.length < fuel →
          (readPages db n fuel fs (handleYielding name L) s).2 = some GoError.EOF
          ∧ (readPages db n fuel fs (handleYielding name L) s).1.flatten = L
          ∧ ∀ p ∈ (readPages db n fuel fs (handleYielding name L) s).1,
              p ≠ [] ∧ (p.length : Int) ≤ n)
      ∧ (sqlDir.ReadDir db fs (handleYielding name L) (-1) s).1 = (L, none)
      ∧ (∀ fs1 s1, FS.readDirIterator db fs name s
            = (DirIter.receiving (L.map Except.ok), fs1, s1) →
          (sqlDir.ReadDir db fs ⟨name, none⟩ (-1) s).1 = (L, none)) := by
  have hpage := ReadDir_page db fs s name L n hn
  refine ⟨hpage, ?_, fun _ => List.length_take _ _, fun fuel hf =>
    readPages_yielding db n hn fuel fs s name L hf, ?_, ?_⟩
  · rw [hpage]
    by_cases hL : L = []
    · simp [hL]
    · simp [hL]
  · unfold sqlDir.ReadDir handleYielding
    simp [readAll, readAllReceiving_ok]
  · intro fs1 s1 hit
    unfold sqlDir.ReadDir
    simp [hit, readAll, readAllReceiving_ok]

/-- Witness of C12: five entries read in pages of two. -/
theorem ReadDir_pages_partition_witness :
    (0 : Int) < 2
      ∧ (readPages nullDB 2 6 (New "file" "c" [])
          (handleYielding "d" [⟨"a", false⟩, ⟨"b", true⟩, ⟨"c", false⟩, ⟨"e", false⟩, ⟨"f", false⟩])
          ()).1
        = [[⟨"a", false⟩, ⟨"b", true⟩], [⟨"c", false⟩, ⟨"e", false⟩], [⟨"f", false⟩]]
      ∧ (sqlDir.ReadDir nullDB (New "file" "c" [])
          (handleYielding "d" [⟨"a", false⟩, ⟨"b", true⟩, ⟨"c", false⟩]) 2 ()).1
        = ([⟨"a", false⟩, ⟨"b", true⟩], none)
      ∧ ((sqlDir.ReadDir nullDB (New "file" "c" []) (handleYielding "d" []) 2 ()).1
          = ([], some GoError.EOF) ↔ ([] : List dirEntry) = []) :=
  ⟨by decide, by decide, by decide,
    (ReadDir_pages_partition nullDB (New "file" "c" []) () "d" [] 2 (by decide)).2.1⟩

/-! ## Positions in the compacted queue -/

theorem mergeSlots_eq (X : bufferItemSlice) :
    mergeSlots X = mergeInserts X.length (markSlots [] X) := by
  unfold mergeSlots markSlots
  simp only
  rw [skipSeen_delete_reverse, skipInsertsBeforeDeletes_reverse]
  rw [length_markDupDeletes, length_skipSeen]; simp

theorem mergeBufferItems_eq_keptItems (X : bufferItemSlice) :
    mergeBufferItems X = keptItems (mergeSlots X) := rfl

theorem keptItems_append (L1 L2 : List Slot) :
    keptItems (L1 ++ L2) = keptItems L1 ++ keptItems L2 := by
  simp [keptItems]

theorem mergeDupes_snd_eq (name : String) (acc : List Byte) (R : List Slot) :
    (mergeDupes name acc R).2 = flagDupes name R := by
  induction R generalizing acc with
  | nil => rfl
  | cons s rest ih =>
    obtain ⟨d, sk⟩ := s
    simp only [mergeDupes, flagDupes, List.map_cons]
    split_ifs with h
    · rw [ih]; rfl
    · rw [ih]; rfl

theorem length_flagDupes (name : String) (R : List Slot) :
    (flagDupes name R).length = R.length := by
  simp [flagDupes]

theorem map_slotKey_flagDupes (name : String) (R : List Slot) :
    (flagDupes name R).map slotKey = R.map slotKey := by
  unfold flagDupes
  rw [List.map_map]
  apply List.map_congr_left
  intro s _
  simp only [Function.comp]
  split_ifs <;> rfl

theorem flagDupes_append (name : String) (R1 R2 : List Slot) :
    flagDupes name (R1 ++ R2) = flagDupes name R1 ++ flagDupes name R2 := by
  simp [flagDupes]

theorem length_mergeInserts (k : Nat) (L : List Slot) :
    (mergeInserts k L).length = L.length := by
  induction k generalizing L with
  | zero => rfl
  | succ k ih =>
    cases L with
    | nil => rfl
    | cons s rest =>
      obtain ⟨x, sk⟩ := s
      simp only [mergeInserts]
      split_ifs
      · simp [ih, length_mergeDupes]
      · simp [ih]

theorem map_slotKey_mergeInserts (k : Nat) (L : List Slot) :
    (mergeInserts k L).map slotKey = L.map slotKey := by
  induction k generalizing L with
  | zero => rfl
  | succ k ih =>
    cases L with
    | nil => rfl
    | cons s rest =>
      obtain ⟨x, sk⟩ := s
      simp only [mergeInserts]
      split_ifs
      · simp only [List.map_cons, ih, mergeDupes_snd_eq, map_slotKey_flagDupes]
        rfl
      · simp only [List.map_cons, ih]

theorem map_fst_markOverwritten (L : List Slot) :
    (markOverwritten L).map Prod.fst = L.map Prod.fst := by
  induction L with
  | nil => simp [markOverwritten]
  | cons s rest ih =>
    obtain ⟨x, sk⟩ := s
    simp [markOverwritten, ih]

theorem map_fst_markSlots (seen : List String) (X : List bufferItem) :
    (markSlots seen X).map Prod.fst = X := by
  unfold markSlots
  rw [map_fst_markOverwritten, map_fst_markDupDeletes, map_fst_skipSeen, List.map_map]
  exact List.map_id _

theorem map_slotKey_mergeSlots (X : bufferItemSlice) :
    (mergeSlots X).map slotKey = X.map key := by
  rw [mergeSlots_eq, map_slotKey_mergeInserts]
  have h := congrArg (List.map key) (map_fst_markSlots [] X)
  rw [List.map_map] at h
  exact h

theorem length_mergeSlots (X : bufferItemSlice) : (mergeSlots X).length = X.length := by
  have h := congrArg List.length (map_slotKey_mergeSlots X)
  simpa using h

/-- The first slot after the first three marking loops, and the loops on the rest. -/
theorem markSlots_cons (seen : List String) (a : bufferItem) (rest : List bufferItem) :
    markSlots seen (a :: rest)
      = (a, flagAt seen [] a rest)
        :: markSlots (if a.Action = actionInsertDir ∧ a.Name ∉ seen then a.Name :: seen
                      else seen) rest := by
  unfold markSlots flagAt
  simp only [List.map_cons, skipSeen]
  by_cases h1 : a.Action = actionInsertDir
  · by_cases h2 : a.Name ∈ seen
    · rw [if_pos h1, if_pos h2]
      simp [markDupDeletes, markOverwritten, h1, h2]
    · rw [if_pos h1, if_neg h2]
      simp [markDupDeletes, markOverwritten, h1, h2, hasDir]
  · rw [if_neg h1]
    simp only [markDupDeletes, markOverwritten, Bool.false_or, map_fst_markDupDeletes,
      map_fst_skipSeen, List.map_map, h1, false_and, decide_False, if_false]
    have hid : List.map (Prod.fst ∘ fun item : bufferItem => (item, false)) rest = rest :=
      List.map_id _
    rw [hid]
    congr 2
    rw [← Bool.decide_or]
    apply decide_eq_decide.2
    tauto

theorem hasDelete_append (n : String) (L1 L2 : List bufferItem) :
    hasDelete n (L1 ++ L2) ↔ hasDelete n L1 ∨ hasDelete n L2 := by
  simp only [hasDelete, List.mem_append]
  constructor
  · rintro ⟨d, hd | hd, h⟩
    · exact Or.inl ⟨d, hd, h⟩
    · exact Or.inr ⟨d, hd, h⟩
  · rintro (⟨d, hd, h⟩ | ⟨d, hd, h⟩)
    · exact ⟨d, Or.inl hd, h⟩
    · exact ⟨d, Or.inr hd, h⟩

theorem flagAt_cons (seen : List String) (a : bufferItem) (A : List bufferItem)
    (x : bufferItem) (B : List bufferItem) :
    flagAt (if a.Action = actionInsertDir ∧ a.Name ∉ seen then a.Name :: seen else seen) A x B
      = flagAt seen (a :: A) x B := by
  unfold flagAt
  congr 1
  apply decide_eq_decide.2
  rw [hasDir_cons]
  simp only [Bool.or_eq_true, decide_eq_true_eq]
  by_cases h1 : a.Action = actionInsertDir
  · by_cases h2 : a.Name ∈ seen
    · simp only [h1, h2, not_true, and_false, if_false, true_and]
      constructor
      · rintro ⟨hx, h | h⟩
        · exact ⟨hx, Or.inl h⟩
        · exact ⟨hx, Or.inr (Or.inr h)⟩
      · rintro ⟨hx, h | h | h⟩
        · exact ⟨hx, Or.inl h⟩
        · exact ⟨hx, Or.inl (h ▸ h2)⟩
        · exact ⟨hx, Or.inr h⟩
    · simp only [h1, h2, not_false_eq_true, and_self, if_true, List.mem_cons, true_and]
      constructor
      · rintro ⟨hx, (h | h) | h⟩
        · exact ⟨hx, Or.inr (Or.inl h.symm)⟩
        · exact ⟨hx, Or.inl h⟩
        · exact ⟨hx, Or.inr (Or.inr h)⟩
      · rintro ⟨hx, h | h | h⟩
        · exact ⟨hx, Or.inl (Or.inr h)⟩
        · exact ⟨hx, Or.inl (Or.inl h.symm)⟩
        · exact ⟨hx, Or.inr h⟩
  · simp [h1]

/-- The slots after the first three marking loops, around one position: the slot of the
item there carries `flagAt`, the slots before it belong to the items before it, and an
insert-file before it that does not outlive the items before it is skipped. -/
theorem markSlots_split (seen : List String) (A : List bufferItem) (x : bufferItem)
    (B : List bufferItem) :
    ∃ M1 seen1, markSlots seen (A ++ x :: B) = M1 ++ (x, flagAt seen A x B) :: markSlots seen1 B
      ∧ M1.length = A.length
      ∧ ∀ P, insertsKept P A = [] →
          ∀ t ∈ M1, ¬(t.2 = false ∧ t.1.Action = actionInsertFile ∧ t.1.Name = P) := by
  induction A generalizing seen with
  | nil =>
    refine ⟨[], if x.Action = actionInsertDir ∧ x.Name ∉ seen then x.Name :: seen else seen,
      ?_, rfl, fun _ _ t ht => absurd ht (List.not_mem_nil t)⟩
    rw [List.nil_append, markSlots_cons]
    rfl
  | cons a A ih =>
    obtain ⟨M1, seen1, h1, h2, h3⟩ :=
      ih (if a.Action = actionInsertDir ∧ a.Name ∉ seen then a.Name :: seen else seen)
    refine ⟨(a, flagAt seen [] a (A ++ x :: B)) :: M1, seen1, ?_, by simp [h2], ?_⟩
    · rw [List.cons_append, markSlots_cons, h1, flagAt_cons]
      rfl
    · intro P hP t ht
      simp only [insertsKept] at hP
      split_ifs at hP with hc
      rcases List.mem_cons.1 ht with rfl | ht
      · rintro ⟨hfl, hins, hname⟩
        simp only at hfl hins hname
        have hd : hasDelete P A := by
          by_contra hnd
          exact hc ⟨by simp [isInsertOf, hins, hname], hnd⟩
        have hd2 : hasDelete a.Name (A ++ x :: B) := by
          rw [hname, hasDelete_append]
          exact Or.inl hd
        simp [flagAt, hins, hd2] at hfl
      · exact h3 P hP t ht

/-- A slot that is skipped, or whose item is not an insert-file, comes out of the "merge
inserts" loop as it went in, at the same position. -/
theorem mergeInserts_split_keep (k : Nat) (L1 : List Slot) (s : Slot) (L2 : List Slot)
    (hs : s.1.Action ≠ actionInsertFile ∨ s.2 = true) :
    ∃ T1 T2, mergeInserts k (L1 ++ s :: L2) = T1 ++ s :: T2 ∧ T1.length = L1.length := by
  have hflag : ∀ (n : String) (L : List Slot), flagDupes n (s :: L) = s :: flagDupes n L := by
    intro n L
    simp only [flagDupes, List.map_cons, List.cons.injEq, and_true]
    rw [if_neg]
    rintro ⟨h1, h2, _⟩
    rcases hs with h | h
    · exact h h2
    · rw [h] at h1; cases h1
  induction k generalizing L1 L2 with
  | zero => exact ⟨L1, L2, rfl, rfl⟩
  | succ k ih =>
    cases L1 with
    | nil =>
      obtain ⟨x, sk⟩ := s
      refine ⟨[], mergeInserts k L2, ?_, rfl⟩
      simp only [List.nil_append, mergeInserts]
      rw [if_neg]
      rintro ⟨h1, h2⟩
      rcases hs with h | h
      · exact h h1
      · simp only at h; rw [h] at h2; cases h2
    | cons t L1 =>
      obtain ⟨y, sky⟩ := t
      simp only [List.cons_append, mergeInserts, List.append_eq]
      split_ifs with hy
      · rw [mergeDupes_snd_eq, flagDupes_append, hflag]
        obtain ⟨T1, T2, h1, h2⟩ := ih (flagDupes y.Name L1) (flagDupes y.Name L2)
        exact ⟨_ :: T1, T2, by rw [h1]; rfl, by simp [h2, length_flagDupes]⟩
      · obtain ⟨T1, T2, h1, h2⟩ := ih L1 L2
        exact ⟨_ :: T1, T2, by rw [h1]; rfl, by simp [h2]⟩

theorem payloadOf_keptItems_flagDupes (P n : String) (h : n ≠ P) (L : List Slot) :
    payloadOf P (keptItems (flagDupes n L)) = payloadOf P (keptItems L) := by
  rw [← mergeDupes_snd_eq n [] L, mergeDupes_snd]
  unfold payloadOf
  rw [filter_isInsertOf_filter_ne P n h]

/-- The first insert-file on a name that is not skipped comes out of the "merge inserts"
loop at its position, not skipped, with the payloads of the later ones that are not
skipped appended to its own. -/
theorem mergeInserts_split_join (k : Nat) (L1 : List Slot) (f : bufferItem) (L2 : List Slot)
    (hk : (L1 ++ (f, false) :: L2).length ≤ k) (hf : f.Action = actionInsertFile)
    (h1 : ∀ t ∈ L1, ¬(t.2 = false ∧ t.1.Action = actionInsertFile ∧ t.1.Name = f.Name)) :
    ∃ T1 T2, mergeInserts k (L1 ++ (f, false) :: L2)
        = T1 ++ ({ f with FileContents := f.FileContents ++ payloadOf f.Name (keptItems L2) },
            false) :: T2
      ∧ T1.length = L1.length := by
  induction k generalizing L1 L2 with
  | zero => simp at hk
  | succ k ih =>
    cases L1 with
    | nil =>
      refine ⟨[], mergeInserts k (mergeDupes f.Name f.FileContents L2).2, ?_, rfl⟩
      simp only [List.nil_append, mergeInserts]
      rw [if_pos ⟨hf, trivial⟩, mergeDupes_fst]
    | cons t L1 =>
      obtain ⟨y, sky⟩ := t
      have hk2 : (L1 ++ (f, false) :: L2).length ≤ k := by
        simp only [List.cons_append, List.length_cons] at hk
        omega
      have h1tail : ∀ t ∈ L1,
          ¬(t.2 = false ∧ t.1.Action = actionInsertFile ∧ t.1.Name = f.Name) :=
        fun t ht => h1 t (List.mem_cons_of_mem _ ht)
      simp only [List.cons_append, mergeInserts, List.append_eq]
      split_ifs with hy
      · have hne : y.Name ≠ f.Name := by
          intro hn
          exact h1 (y, sky) (List.mem_cons_self _ _) ⟨hy.2, hy.1, hn⟩
        have hfslot : flagDupes y.Name ((f, false) :: L2) = (f, false) :: flagDupes y.Name L2 := by
          simp only [flagDupes, List.map_cons, List.cons.injEq, and_true]
          rw [if_neg]
          rintro ⟨_, _, hn⟩
          exact hne hn.symm
        rw [mergeDupes_snd_eq, flagDupes_append, hfslot]
        obtain ⟨T1, T2, h3, h4⟩ := ih (flagDupes y.Name L1) (flagDupes y.Name L2)
          (by simpa [length_flagDupes] using hk2)
          (by
            intro t ht
            simp only [flagDupes, List.mem_map] at ht
            obtain ⟨t0, ht0, rfl⟩ := ht
            split_ifs
            · simp
            · exact h1tail t0 ht0)
        rw [payloadOf_keptItems_flagDupes f.Name y.Name hne] at h3
        exact ⟨_ :: T1, T2, by rw [h3]; rfl, by simp [h4, length_flagDupes]⟩
      · obtain ⟨T1, T2, h3, h4⟩ := ih L1 L2 hk2 h1tail
        exact ⟨_ :: T1, T2, by rw [h3]; rfl, by simp [h4]⟩

theorem take_drop_of_split {α : Type} (T T1 T2 : List α) (s : α) (n : Nat)
    (h : T = T1 ++ s :: T2) (hl : T1.length = n) :
    T.take n = T1 ∧ T.drop (n + 1) = T2 := by
  subst h
  subst hl
  constructor
  · simp
  · have : T1 ++ s :: T2 = (T1 ++ [s]) ++ T2 := by simp
    rw [this]
    have hlen : (T1 ++ [s]).length = T1.length + 1 := by simp
    rw [← hlen, List.drop_left]

/-- The compacted queue around a position whose item is not an insert-file and is not
skipped by the first three loops: the survivors of the items before it, the item, the
survivors of the items after it. -/
theorem mergeBufferItems_split_keep (A : List bufferItem) (x : bufferItem) (B : List bufferItem)
    (hx : x.Action ≠ actionInsertFile) (hfl : flagAt [] A x B = false) :
    mergeBufferItems (A ++ x :: B)
        = keptItems ((mergeSlots (A ++ x :: B)).take A.length)
          ++ x :: keptItems ((mergeSlots (A ++ x :: B)).drop (A.length + 1))
      ∧ ((mergeSlots (A ++ x :: B)).take A.length).map slotKey = A.map key
      ∧ ((mergeSlots (A ++ x :: B)).drop (A.length + 1)).map slotKey = B.map key := by
  obtain ⟨M1, seen1, hm, hl, _⟩ := markSlots_split [] A x B
  rw [hfl] at hm
  obtain ⟨T1, T2, ht, hl2⟩ := mergeInserts_split_keep (A ++ x :: B).length M1 (x, false)
    (markSlots seen1 B) (Or.inl hx)
  rw [← hm, ← mergeSlots_eq] at ht
  obtain ⟨htake, hdrop⟩ := take_drop_of_split _ T1 T2 (x, false) A.length ht (hl2.trans hl)
  have hkeys := map_slotKey_mergeSlots (A ++ x :: B)
  refine ⟨?_, ?_, ?_⟩
  · rw [htake, hdrop, mergeBufferItems_eq_keptItems, ht, keptItems_append, keptItems_cons,
      if_pos rfl]
  · have h := congrArg (List.take A.length) hkeys
    rw [← List.map_take, ← List.map_take, List.take_left] at h
    exact h
  · have h := congrArg (List.drop (A.length + 1)) hkeys
    rw [← List.map_drop, ← List.map_drop] at h
    have hd : (A ++ x :: B).drop (A.length + 1) = B := by
      have : A ++ x :: B = (A ++ [x]) ++ B := by simp
      rw [this]
      have hlen : (A ++ [x]).length = A.length + 1 := by simp
      rw [← hlen, List.drop_left]
    rw [hd] at h
    exact h

theorem mem_keptItems_key (S : List Slot) (y : bufferItem) (h : y ∈ keptItems S) :
    key y ∈ S.map slotKey := by
  unfold keptItems at h
  obtain ⟨s, hs, rfl⟩ := List.mem_map.1 h
  exact List.mem_map.2 ⟨s, (List.mem_filter.1 hs).1, rfl⟩

theorem exists_first_dir (P : String) (X : List bufferItem) (h : hasDir P X = true) :
    ∃ A d B, X = A ++ d :: B ∧ d.Action = actionInsertDir ∧ d.Name = P
      ∧ ∀ a ∈ A, ¬(a.Action = actionInsertDir ∧ a.Name = P) := by
  induction X with
  | nil => simp [hasDir] at h
  | cons x rest ih =>
    by_cases hx : x.Action = actionInsertDir ∧ x.Name = P
    · exact ⟨[], x, rest, rfl, hx.1, hx.2, fun a ha => absurd ha (List.not_mem_nil a)⟩
    · rw [hasDir_cons] at h
      simp only [hx, decide_False, Bool.false_or] at h
      obtain ⟨A, d, B, h1, h2, h3, h4⟩ := ih h
      refine ⟨x :: A, d, B, by rw [h1]; rfl, h2, h3, ?_⟩
      intro a ha
      rcases List.mem_cons.1 ha with rfl | ha
      · exact hx
      · exact h4 a ha

theorem exists_last_delete (P : String) (X : List bufferItem) (h : hasDelete P X) :
    ∃ A d B, X = A ++ d :: B ∧ d.Action = actionDeleteFile ∧ d.Name = P
      ∧ ¬ hasDelete P B := by
  induction X with
  | nil => simp [hasDelete] at h
  | cons x rest ih =>
    by_cases hr : hasDelete P rest
    · obtain ⟨A, d, B, h1, h2, h3, h4⟩ := ih hr
      exact ⟨x :: A, d, B, by rw [h1]; rfl, h2, h3, h4⟩
    · rw [hasDelete_cons] at h
      rcases h with hx | hx
      · exact ⟨[], x, rest, rfl, hx.1, hx.2, hr⟩
      · exact absurd hx hr

theorem exists_first_surviving (P : String) (X : List bufferItem)
    (h : insertsKept P X ≠ []) :
    ∃ A f B, X = A ++ f :: B ∧ f.Action = actionInsertFile ∧ f.Name = P
      ∧ ¬ hasDelete P B ∧ insertsKept P A = []
      ∧ insertsKept P X = f :: B.filter (isInsertOf P) := by
  induction X with
  | nil => simp [insertsKept] at h
  | cons x rest ih =>
    by_cases hx : isInsertOf P x = true ∧ ¬ hasDelete P rest
    · have hx1 := hx.1
      simp only [isInsertOf, decide_eq_true_eq] at hx1
      refine ⟨[], x, rest, rfl, hx1.1, hx1.2, hx.2, rfl, ?_⟩
      simp only [insertsKept]
      rw [if_pos hx, insertsKept_of_not_hasDelete P rest hx.2]
    · have hk : insertsKept P (x :: rest) = insertsKept P rest := by
        simp only [insertsKept]
        rw [if_neg hx]
      rw [hk] at h
      obtain ⟨A, f, B, h1, h2, h3, h4, h5, h6⟩ := ih h
      refine ⟨x :: A, f, B, by rw [h1]; rfl, h2, h3, h4, ?_, by rw [hk, h6]⟩
      simp only [insertsKept]
      rw [if_neg, h5]
      rintro ⟨hxi, hnd⟩
      apply hx
      refine ⟨hxi, ?_⟩
      rw [h1, hasDelete_append, hasDelete_cons]
      rintro (hh | ⟨hh, _⟩ | hh)
      · exact hnd hh
      · rw [h2] at hh; cases hh
      · exact h4 hh

theorem keys_mergeBufferItems_sublist (X : bufferItemSlice) :
    ((mergeBufferItems X).map key).Sublist (X.map key) := by
  rw [mergeBufferItems_eq]
  exact (keys_joinInserts_sublist _).trans
    (((dropOverridden_sublist _).map key).trans ((dropDupDirs_sublist [] X).map key))

/-- The compacted queue around the first insert-file on a name that no delete-file on the
name follows: the survivors of the items before it, one insert-file on the name, the
survivors of the items after it. -/
theorem mergeBufferItems_split_join (A : List bufferItem) (f : bufferItem) (B : List bufferItem)
    (hf : f.Action = actionInsertFile) (hB : ¬ hasDelete f.Name B)
    (hA : insertsKept f.Name A = []) :
    ∃ c, mergeBufferItems (A ++ f :: B)
        = keptItems ((mergeSlots (A ++ f :: B)).take A.length)
          ++ ⟨f.Name, actionInsertFile, c⟩
            :: keptItems ((mergeSlots (A ++ f :: B)).drop (A.length + 1)) := by
  obtain ⟨M1, seen1, hm, hl, h3⟩ := markSlots_split [] A f B
  have hfl : flagAt [] A f B = false := by
    simp [flagAt, hf, hB]
  rw [hfl] at hm
  have hlen : (M1 ++ (f, false) :: markSlots seen1 B).length ≤ (A ++ f :: B).length := by
    rw [← hm]
    have h := congrArg List.length (map_fst_markSlots [] (A ++ f :: B))
    rw [List.length_map] at h
    rw [h]
  obtain ⟨T1, T2, ht, hl2⟩ := mergeInserts_split_join (A ++ f :: B).length M1 f
    (markSlots seen1 B) hlen hf (h3 f.Name hA)
  rw [← hm, ← mergeSlots_eq] at ht
  obtain ⟨htake, hdrop⟩ := take_drop_of_split _ T1 T2 _ A.length ht (hl2.trans hl)
  refine ⟨f.FileContents ++ payloadOf f.Name (keptItems (markSlots seen1 B)), ?_⟩
  rw [htake, hdrop, mergeBufferItems_eq_keptItems, ht, keptItems_append, keptItems_cons,
    if_pos rfl, hf]

/-! ## Which duplicate survives, and where -/

/-- C13. Insert-dir dedup keeps the first occurrence: when `X` has an insert-dir on `P`,
with `d` the first one, `A` the items before it and `B` the items after it, the merged
queue is the survivors of `A` (the slots of `A` that are not skipped), then `d`, then the
survivors of `B`; and `d` is its only insert-dir on `P`. -/
theorem insertDir_keeps_first (X : bufferItemSlice) (P : String) (h : hasDir P X = true) :
    ∃ A d B, X = A ++ d :: B ∧ d.Action = actionInsertDir ∧ d.Name = P
      ∧ (∀ a ∈ A, ¬(a.Action = actionInsertDir ∧ a.Name = P))
      ∧ mergeBufferItems X
          = keptItems ((mergeSlots X).take A.length)
            ++ d :: keptItems ((mergeSlots X).drop (A.length + 1))
      ∧ ((mergeSlots X).take A.length).map slotKey = A.map key
      ∧ ((mergeSlots X).drop (A.length + 1)).map slotKey = B.map key
      ∧ (mergeBufferItems X).filter (isDirOf P) = [d] := by
  obtain ⟨A, d, B, hX, hd, hn, hA⟩ := exists_first_dir P X h
  subst hX
  have hdirA : hasDir d.Name A = false := by
    unfold hasDir
    rw [List.any_eq_false]
    intro a ha
    simpa [hn] using hA a ha
  have hfl : flagAt [] A d B = false := by
    simp [flagAt, hd, hdirA]
  obtain ⟨h1, h2, h3⟩ := mergeBufferItems_split_keep A d B (by rw [hd]; decide) hfl
  refine ⟨A, d, B, rfl, hd, hn, hA, h1, h2, h3, ?_⟩
  have hpw := (compacted_mergeBufferItems (A ++ d :: B)).1
  rw [h1] at hpw ⊢
  rw [List.map_append, List.pairwise_append] at hpw
  have hpw2 := hpw.2.1
  rw [List.map_cons, List.pairwise_cons] at hpw2
  rw [List.filter_append, List.filter_cons]
  have hd1 : isDirOf P d = true := by simp [isDirOf, hd, hn]
  rw [if_pos hd1]
  have hK1 : (keptItems ((mergeSlots (A ++ d :: B)).take A.length)).filter (isDirOf P) = [] := by
    apply List.filter_eq_nil_iff.2
    intro y hy
    have hk := mem_keptItems_key _ y hy
    rw [h2] at hk
    obtain ⟨a, ha, hka⟩ := List.mem_map.1 hk
    have hnot := hA a ha
    simp only [key, Prod.mk.injEq] at hka
    rw [hka.1, hka.2] at hnot
    simpa [isDirOf] using hnot
  have hK2 : (keptItems ((mergeSlots (A ++ d :: B)).drop (A.length + 1))).filter (isDirOf P)
      = [] := by
    apply List.filter_eq_nil_iff.2
    intro y hy
    have hrel := hpw2.1 (key y) (List.mem_map_of_mem _ hy)
    simp only [DirRel, key, hd, true_and, hn] at hrel
    simpa [isDirOf] using hrel
  rw [hK1, hK2]
  rfl

/-- Witness of C13 on a queue with three insert-dirs on "A": the first one survives, at
the place of the first. -/
theorem insertDir_keeps_first_witness :
    hasDir "A" dirsQueue = true
      ∧ mergeBufferItems dirsQueue
          = [ins "B" [1, 3], dir "B", del "A", ins "A" [2], dir "A"]
      ∧ ∃ A d B, dirsQueue = A ++ d :: B ∧ d.Action = actionInsertDir ∧ d.Name = "A"
          ∧ (∀ a ∈ A, ¬(a.Action = actionInsertDir ∧ a.Name = "A"))
          ∧ mergeBufferItems dirsQueue
              = keptItems ((mergeSlots dirsQueue).take A.length)
                ++ d :: keptItems ((mergeSlots dirsQueue).drop (A.length + 1))
          ∧ ((mergeSlots dirsQueue).take A.length).map slotKey = A.map key
          ∧ ((mergeSlots dirsQueue).drop (A.length + 1)).map slotKey = B.map key
          ∧ (mergeBufferItems dirsQueue).filter (isDirOf "A") = [d] :=
  ⟨by decide, by decide, insertDir_keeps_first dirsQueue "A" (by decide)⟩

/-- C14. Delete-file dedup keeps the last occurrence: when `X` has a delete-file on `P`,
with `d` the last one, `A` the items before it and `B` the items after it, the merged
queue is the survivors of `A`, then `d`, then the survivors of `B` (the slots of `B` that
are not skipped); and `d` is its only delete-file on `P`. -/
theorem deleteFile_keeps_last (X : bufferItemSlice) (P : String) (h : hasDelete P X) :
    ∃ A d B, X = A ++ d :: B ∧ d.Action = actionDeleteFile ∧ d.Name = P
      ∧ (∀ b ∈ B, ¬(b.Action = actionDeleteFile ∧ b.Name = P))
      ∧ mergeBufferItems X
          = keptItems ((mergeSlots X).take A.length)
            ++ d :: keptItems ((mergeSlots X).drop (A.length + 1))
      ∧ ((mergeSlots X).take A.length).map slotKey = A.map key
      ∧ ((mergeSlots X).drop (A.length + 1)).map slotKey = B.map key
      ∧ (mergeBufferItems X).filter (isDeleteOf P) = [d] := by
  obtain ⟨A, d, B, hX, hd, hn, hB⟩ := exists_last_delete P X h
  subst hX
  have hB2 : ∀ b ∈ B, ¬(b.Action = actionDeleteFile ∧ b.Name = P) :=
    fun b hb hh => hB ⟨b, hb, hh⟩
  have hfl : flagAt [] A d B = false := by
    simp [flagAt, hd, hn, hB]
  obtain ⟨h1, h2, h3⟩ := mergeBufferItems_split_keep A d B (by rw [hd]; decide) hfl
  refine ⟨A, d, B, rfl, hd, hn, hB2, h1, h2, h3, ?_⟩
  have hpw := (compacted_mergeBufferItems (A ++ d :: B)).2.1
  rw [h1] at hpw ⊢
  rw [List.map_append, List.pairwise_append] at hpw
  have hpw3 := hpw.2.2
  rw [List.filter_append, List.filter_cons]
  have hd1 : isDeleteOf P d = true := by simp [isDeleteOf, hd, hn]
  rw [if_pos hd1]
  have hK1 : (keptItems ((mergeSlots (A ++ d :: B)).take A.length)).filter (isDeleteOf P)
      = [] := by
    apply List.filter_eq_nil_iff.2
    intro y hy
    have hrel := hpw3 (key y) (List.mem_map_of_mem _ hy) (key d)
      (List.mem_map_of_mem _ (List.mem_cons_self _ _))
    simp only [OverRel, key, hd, true_and, hn, not_and] at hrel
    simp only [isDeleteOf, decide_eq_true_eq, not_and]
    intro hya hyn
    exact hrel (Or.inl hya) hyn.symm
  have hK2 : (keptItems ((mergeSlots (A ++ d :: B)).drop (A.length + 1))).filter (isDeleteOf P)
      = [] := by
    apply List.filter_eq_nil_iff.2
    intro y hy
    have hk := mem_keptItems_key _ y hy
    rw [h3] at hk
    obtain ⟨b, hb, hkb⟩ := List.mem_map.1 hk
    have hnot := hB2 b hb
    simp only [key, Prod.mk.injEq] at hkb
    rw [hkb.1, hkb.2] at hnot
    simpa [isDeleteOf] using hnot
  rw [hK1, hK2]
  rfl

/-- Witness of C14 on a queue with three delete-files on "A": the last one survives, at
the place of the last. -/
theorem deleteFile_keeps_last_witness :
    hasDelete "A" deletesQueue
      ∧ mergeBufferItems deletesQueue
          = [dir "A", ins "B" [2], del "A", ins "A" [3], dir "B"]
      ∧ ∃ A d B, deletesQueue = A ++ d :: B ∧ d.Action = actionDeleteFile ∧ d.Name = "A"
          ∧ (∀ b ∈ B, ¬(b.Action = actionDeleteFile ∧ b.Name = "A"))
          ∧ mergeBufferItems deletesQueue
              = keptItems ((mergeSlots deletesQueue).take A.length)
                ++ d :: keptItems ((mergeSlots deletesQueue).drop (A.length + 1))
          ∧ ((mergeSlots deletesQueue).take A.length).map slotKey = A.map key
          ∧ ((mergeSlots deletesQueue).drop (A.length + 1)).map slotKey = B.map key
          ∧ (mergeBufferItems deletesQueue).filter (isDeleteOf "A") = [d] :=
  ⟨by decide, by decide, deleteFile_keeps_last deletesQueue "A" (by decide)⟩

/-- C15. Merge preserves relative order: the (name, action) pairs of the merged queue are
a subsequence of those of `X`, so no item is reordered or invented; and when insert-files
on `P` survive, with `f` the earliest of them, `A` the items before it and `B` the items
after it, the merged queue is the survivors of `A`, then the merged insert-file on `P`
(the payloads of the surviving insert-files, concatenated), then the survivors of `B`. -/
theorem merge_preserves_order :
    (∀ X : bufferItemSlice, ((mergeBufferItems X).map key).Sublist (X.map key))
      ∧ ∀ (X : bufferItemSlice) (P : String), survivingInserts P X ≠ [] →
          ∃ A f B, X = A ++ f :: B
            ∧ (survivingInserts P X).head? = some f
            ∧ survivingInserts P A = []
            ∧ ¬ hasDelete P B
            ∧ mergeBufferItems X
                = keptItems ((mergeSlots X).take A.length)
                  ++ ⟨P, actionInsertFile,
                      ((survivingInserts P X).map bufferItem.FileContents).flatten⟩
                    :: keptItems ((mergeSlots X).drop (A.length + 1))
            ∧ ((mergeSlots X).take A.length).map slotKey = A.map key
            ∧ ((mergeSlots X).drop (A.length + 1)).map slotKey = B.map key := by
  refine ⟨keys_mergeBufferItems_sublist, ?_⟩
  intro X P hS
  rw [← insertsKept_eq_survivingInserts] at hS
  obtain ⟨A, f, B, hX, hf, hn, hB, hA, hK⟩ := exists_first_surviving P X hS
  subst hX
  subst hn
  obtain ⟨c, hc⟩ := mergeBufferItems_split_join A f B hf hB hA
  have hmem : (⟨f.Name, actionInsertFile, c⟩ : bufferItem)
      ∈ (mergeBufferItems (A ++ f :: B)).filter (isInsertOf f.Name) := by
    rw [List.mem_filter]
    refine ⟨?_, by simp [isInsertOf]⟩
    rw [hc]
    exact List.mem_append_right _ (List.mem_cons_self _ _)
  rw [filter_isInsertOf_mergeBufferItems] at hmem
  rw [← insertsKept_eq_survivingInserts] at hmem
  rw [if_neg hS, insertsKept_eq_survivingInserts, List.mem_singleton] at hmem
  have hkeys := map_slotKey_mergeSlots (A ++ f :: B)
  refine ⟨A, f, B, rfl, ?_, ?_, hB, ?_, ?_, ?_⟩
  · rw [← insertsKept_eq_survivingInserts, hK]
    rfl
  · rw [← insertsKept_eq_survivingInserts]
    exact hA
  · rw [hc, hmem]
  · have h := congrArg (List.take A.length) hkeys
    rw [← List.map_take, ← List.map_take, List.take_left] at h
    exact h
  · have h := congrArg (List.drop (A.length + 1)) hkeys
    rw [← List.map_drop, ← List.map_drop] at h
    have hd : (A ++ f :: B).drop (A.length + 1) = B := by
      have : A ++ f :: B = (A ++ [f]) ++ B := by simp
      rw [this]
      have hlen : (A ++ [f]).length = A.length + 1 := by simp
      rw [← hlen, List.drop_left]
    rw [hd] at h
    exact h

/-- Witness of C15 on a queue whose surviving insert-files on "A" are the two after the
delete-file: the merged insert-file stands where the first of them stood. -/
theorem merge_preserves_order_witness :
    survivingInserts "A" insertsQueue ≠ []
      ∧ mergeBufferItems insertsQueue
          = [ins "B" [2, 4], del "A", dir "A", ins "A" [3, 5]]
      ∧ ∃ A f B, insertsQueue = A ++ f :: B
          ∧ (survivingInserts "A" insertsQueue).head? = some f
          ∧ survivingInserts "A" A = []
          ∧ ¬ hasDelete "A" B
          ∧ mergeBufferItems insertsQueue
              = keptItems ((mergeSlots insertsQueue).take A.length)
                ++ ⟨"A", actionInsertFile,
                    ((survivingInserts "A" insertsQueue).map bufferItem.FileContents).flatten⟩
                  :: keptItems ((mergeSlots insertsQueue).drop (A.length + 1))
          ∧ ((mergeSlots insertsQueue).take A.length).map slotKey = A.map key
          ∧ ((mergeSlots insertsQueue).drop (A.length + 1)).map slotKey = B.map key :=
  ⟨by decide, by decide, merge_preserves_order.2 insertsQueue "A" (by decide)⟩

/-! ## The chain of rows of one path -/

theorem joinChars_snoc (ws : List (List Char)) (w : List Char) (hne : ws ≠ []) :
    joinChars (ws ++ [w]) = joinChars ws ++ '/' :: w := by
  induction ws with
  | nil => exact absurd rfl hne
  | cons v rest ih =>
    cases rest with
    | nil => simp [joinChars]
    | cons u rest2 =>
      have h := ih (by simp)
      simp only [List.cons_append, joinChars, List.append_eq] at h ⊢
      rw [h]
      simp

theorem Join_snoc (L : List String) (w : String) (hne : L ≠ []) :
    strings.Join (L ++ [w]) "/" = strings.Join L "/" ++ "/" ++ w := by
  apply String.ext
  rw [data_Join, String.data_append, String.data_append, data_Join, List.map_append,
    List.map_cons, List.map_nil, joinChars_snoc _ _ (by simpa using hne)]
  simp

theorem getElem?_map_range {α : Type} (f : Nat → α) (n i : Nat) (r : α)
    (h : ((List.range n).map f)[i]? = some r) : i < n ∧ f i = r := by
  by_cases hi : i < n
  · rw [List.getElem?_map, List.getElem?_range hi] at h
    simp only [Option.map_some', Option.some.injEq] at h
    exact ⟨hi, h⟩
  · rw [List.getElem?_eq_none (by simp; omega)] at h
    cases h

/-- The rows of an insert-dir item on the path with the given segments. -/
theorem dirRowsOf_Join (segs : List String) (hne : segs ≠ [])
    (h : ∀ w ∈ segs, '/' ∉ w.data) :
    dirRowsOf (strings.Join segs "/")
      = (List.range (segs.length - 1)).map (fun i =>
          (⟨strings.Join (segs.take (i + 1)) "/", strings.Join (segs.take i) "/",
            segs.getD i ""⟩ : DirRow)) := by
  unfold dirRowsOf
  simp only [Split_Join segs hne h]

theorem Join_take_succ (segs : List String) (i : Nat) (h0 : 0 < i) (hi : i < segs.length) :
    strings.Join (segs.take (i + 1)) "/"
      = strings.Join (segs.take i) "/" ++ "/" ++ segs.getD i "" := by
  have ht : segs.take (i + 1) = segs.take i ++ [segs.getD i ""] := by
    rw [List.take_succ, List.getD_eq_getElem?_getD, List.getElem?_eq_getElem hi]
    rfl
  rw [ht, Join_snoc]
  intro hnil
  rw [List.take_eq_nil_iff] at hnil
  rcases hnil with h | h
  · omega
  · rw [h] at hi
    simp at hi

theorem pathSplitChars_at_slash (d f : List Char) (hf : '/' ∉ f) :
    pathSplitChars (d ++ '/' :: f) = (d ++ ['/'], f) := by
  induction d with
  | nil =>
    rw [List.nil_append, pathSplitChars_cons, pathSplitChars_of_no_slash f hf]
    simp
  | cons c d ih =>
    rw [List.cons_append, pathSplitChars_cons, ih]
    simp

/-- What `splitPath` gives on a path of at least two segments: the segments but the last,
joined, and the last segment. -/
theorem splitPath_Join (init : List String) (last : String) (hne : init ≠ [])
    (hl : '/' ∉ last.data) :
    splitPath (strings.Join (init ++ [last]) "/") = (strings.Join init "/", last) := by
  unfold splitPath path.Split
  have hd : (strings.Join (init ++ [last]) "/").data
      = (strings.Join init "/").data ++ '/' :: last.data := by
    rw [Join_snoc init last hne]
    simp
  simp only [hd, pathSplitChars_at_slash _ _ hl, List.length_append, List.length_singleton]
  rw [if_pos (by omega)]
  simp

/-- C21. The rows generated for one path form a connected chain: for a path `P` of at
least two segments separated by '/' (all non-empty), the directory rows built for
insert-dir `P` are not empty, the first one has dir = "" and path = name, every later one
has dir equal to the path of the row before it and path = dir + "/" + name, and the file
row built for insert-file `P` has dir equal to the path of the last directory row (and
path = dir + "/" + name = P). -/
theorem rows_form_chain (segs : List String) (hk : 2 ≤ segs.length)
    (hslash : ∀ w ∈ segs, '/' ∉ w.data) (_hne : ∀ w ∈ segs, w ≠ "") :
    dirRowsOf (strings.Join segs "/") ≠ []
      ∧ (∀ r, (dirRowsOf (strings.Join segs "/"))[0]? = some r → r.dir = "" ∧ r.path = r.name)
      ∧ (∀ i r0 r1, (dirRowsOf (strings.Join segs "/"))[i]? = some r0 →
          (dirRowsOf (strings.Join segs "/"))[i + 1]? = some r1 →
          r1.dir = r0.path ∧ r1.path = r1.dir ++ "/" ++ r1.name)
      ∧ (∀ b rl, (dirRowsOf (strings.Join segs "/")).getLast? = some rl →
          (fileRowOf ⟨strings.Join segs "/", actionInsertFile, b⟩).dir = rl.path
          ∧ (fileRowOf ⟨strings.Join segs "/", actionInsertFile, b⟩).path
              = (fileRowOf ⟨strings.Join segs "/", actionInsertFile, b⟩).dir ++ "/"
                ++ (fileRowOf ⟨strings.Join segs "/", actionInsertFile, b⟩).name
          ∧ (fileRowOf ⟨strings.Join segs "/", actionInsertFile, b⟩).path
              = strings.Join segs "/") := by
  have hne : segs ≠ [] := by
    intro h
    rw [h] at hk
    simp at hk
  rw [dirRowsOf_Join segs hne hslash]
  refine ⟨?_, ?_, ?_, ?_⟩
  · intro h
    have hlen := congrArg List.length h
    simp only [List.length_map, List.length_range, List.length_nil] at hlen
    omega
  · intro r hr
    obtain ⟨_, rfl⟩ := getElem?_map_range _ _ _ _ hr
    cases segs with
    | nil => exact absurd rfl hne
    | cons s0 rest =>
      constructor
      · rfl
      · rfl
  · intro i r0 r1 h0 h1
    obtain ⟨_, rfl⟩ := getElem?_map_range _ _ _ _ h0
    obtain ⟨hi, rfl⟩ := getElem?_map_range _ _ _ _ h1
    exact ⟨rfl, Join_take_succ segs (i + 1) (by omega) (by omega)⟩
  · intro b rl hl
    rw [List.getLast?_map, List.getLast?_range, if_neg (by omega)] at hl
    simp only [Option.map_some', Option.some.injEq] at hl
    subst hl
    have hseg : segs = segs.dropLast ++ [segs.getLast hne] :=
      (List.dropLast_append_getLast hne).symm
    have hinit : segs.dropLast ≠ [] := by
      intro h
      have hlen := congrArg List.length h
      simp only [List.length_dropLast, List.length_nil] at hlen
      omega
    have hsp : splitPath (strings.Join segs "/")
        = (strings.Join segs.dropLast "/", segs.getLast hne) := by
      conv_lhs => rw [hseg]
      exact splitPath_Join _ _ hinit (hslash _ (List.getLast_mem hne))
    have htake : segs.take (segs.length - 1 - 1 + 1) = segs.dropLast := by
      rw [List.dropLast_eq_take]
      congr 1
      omega
    simp only [fileRowOf, hsp, htake]
    refine ⟨trivial, ?_, trivial⟩
    conv_lhs => rw [hseg]
    exact Join_snoc _ _ hinit

/-- Witness of C21 on the path a/b/c. -/
theorem rows_form_chain_witness :
    2 ≤ (["a", "b", "c"] : List String).length
      ∧ (∀ w ∈ (["a", "b", "c"] : List String), '/' ∉ w.data)
      ∧ (∀ w ∈ (["a", "b", "c"] : List String), w ≠ "")
      ∧ dirRowsOf "a/b/c" = [⟨"a", "", "a"⟩, ⟨"a/b", "a", "b"⟩]
      ∧ fileRowOf (ins "a/b/c" [1]) = ⟨"a/b/c", "a/b", "c", [1]⟩
      ∧ (∀ i r0 r1, (dirRowsOf (strings.Join ["a", "b", "c"] "/"))[i]? = some r0 →
          (dirRowsOf (strings.Join ["a", "b", "c"] "/"))[i + 1]? = some r1 →
          r1.dir = r0.path ∧ r1.path = r1.dir ++ "/" ++ r1.name) :=
  ⟨by decide, by decide, by decide, by decide, by decide,
    (rows_form_chain ["a", "b", "c"] (by decide) (by decide) (by decide)).2.2.1⟩

end SimplefsSql
